import Mathlib

/-!
# halnormalizr: the normalization engine of `src/index.js`

A shallow embedding of the visitor of `src/index.js` and proofs about it.

Conventions of the embedding.

* JavaScript values are the JSON-like trees of `Value` (plus `undefined`); numbers are
  integers. An object is the list of its own enumerable properties in enumeration order;
  an object built by the program lists its properties in the order of their first
  assignment.
* The mutable bag and the `console.warn` channel are threaded explicitly as `St`.
* A property read on a field map (`schema[key]`) is an own-property read.
* `visit` is defined by structural recursion on the schema tree: the recursive calls
  `visit(obj[key], schema[key], …)` made inside `visitObject`, `visitIterable` and
  `polymorphicMapper` are handed to these functions as their first argument.
* A schema is a finite tree; a schema that refers to itself stands for its unfolding.
-/

namespace Halnormalizr

/-! ## Values -/

/-- JSON-like JavaScript values. -/
inductive Value where
  | undefined
  | null
  | bool (b : Bool)
  | num (n : Int)
  | str (s : String)
  | arr (xs : List Value)
  | obj (fs : List (String × Value))
  deriving Inhabited

/-- Own enumerable properties of a plain object, in enumeration order. -/
abbrev Obj := List (String × Value)

/-- Own-property read `o[k]` on a property list: the first entry under `k`. -/
def lookup {α : Type} (k : String) : List (String × α) → Option α
  | [] => none
  | (k', v) :: rest => if k' = k then some v else lookup k rest

/-- Property names of a property list. -/
def keys {α : Type} (o : List (String × α)) : List String := o.map Prod.fst

/-- Test `o.hasOwnProperty(k)` on a property list. -/
def hasOwn {α : Type} (k : String) (o : List (String × α)) : Bool := (lookup k o).isSome

/-- Assignment `o[k] = v`: an existing property is overwritten in place, a new one is added last. -/
def assign {α : Type} : List (String × α) → String → α → List (String × α)
  | [], k, v => [(k, v)]
  | (k', v') :: rest, k, v => if k' = k then (k, v) :: rest else (k', v') :: assign rest k v

/-- Index properties `i, i+1, …` of the elements of an array or the characters of a string. -/
def indexed {α : Type} (i : Nat) : List α → List (String × α)
  | [] => []
  | x :: xs => (toString i, x) :: indexed (i + 1) xs

namespace Value

/-- Test `v == null`: `null` or `undefined`. -/
def isNullish : Value → Bool
  | undefined => true
  | null => true
  | _ => false

/-- Test `Array.isArray(v)`. -/
def isArray : Value → Bool
  | arr _ => true
  | _ => false

/-- Test lodash `isObject(v)`: objects and arrays, not `null`. -/
def isObject : Value → Bool
  | arr _ => true
  | obj _ => true
  | _ => false

/-- Own enumerable properties, as `for (key in v)` filtered by `hasOwnProperty` lists them. -/
def entries : Value → Obj
  | obj fs => fs
  | arr xs => indexed 0 xs
  | str s => indexed 0 (s.data.map (fun c => str (String.singleton c)))
  | _ => []

/-- Test `v.hasOwnProperty(k)` (`length` is an own, non-enumerable property of arrays and strings). -/
def hasOwnProperty (v : Value) (k : String) : Bool :=
  hasOwn k v.entries ||
    (match v with
     | arr _ => k == "length"
     | str _ => k == "length"
     | _ => false)

/-- Property read `v[k]` on a value that is neither `null` nor `undefined`. -/
def get (v : Value) (k : String) : Value :=
  match lookup k v.entries with
  | some x => x
  | none =>
    match v with
    | arr xs => if k = "length" then num xs.length else undefined
    | str s => if k = "length" then num s.length else undefined
    | _ => undefined

mutual
/-- Conversion of a value to a property key (`ToString`). -/
def toKey : Value → String
  | undefined => "undefined"
  | null => "null"
  | bool true => "true"
  | bool false => "false"
  | num n => toString n
  | str s => s
  | arr xs => joinKeys xs
  | obj _ => "[object Object]"
/-- `Array.prototype.join(",")`: `null` and `undefined` elements print as the empty string. -/
def joinKeys : List Value → String
  | [] => ""
  | x :: xs =>
    (match x with
     | undefined => ""
     | null => ""
     | bool b => toKey (bool b)
     | num n => toKey (num n)
     | str s => toKey (str s)
     | arr ys => toKey (arr ys)
     | obj fs => toKey (obj fs)) ++
    (match xs with
     | [] => ""
     | _ => "," ++ joinKeys xs)
end

mutual
/-- Deep equality of lodash `isEqual` on JSON-like values: arrays are equal when they have the
same length and equal elements position by position, objects when they have the same own
property names and equal values under every name, whatever the order of the properties. -/
def isEqual : Value → Value → Bool
  | undefined, undefined => true
  | null, null => true
  | bool a, bool b => a == b
  | num a, num b => a == b
  | str a, str b => a == b
  | arr xs, arr ys => isEqualList xs ys
  | obj a, obj b => isEqualFields [] a b && (keys b).all (fun k => decide (k ∈ keys a))
  | _, _ => false
/-- Elementwise deep equality of two arrays. -/
def isEqualList : List Value → List Value → Bool
  | [], [] => true
  | x :: xs, y :: ys => isEqual x y && isEqualList xs ys
  | _, _ => false
/-- Every property of the first list that is not shadowed by an earlier one (`seen`) is a
property of the second list with a deeply equal value. -/
def isEqualFields (seen : List String) : Obj → Obj → Bool
  | [], _ => true
  | (k, v) :: rest, b =>
    (if k ∈ seen then true
     else
      match lookup k b with
      | some w => isEqual v w
      | none => false) &&
    isEqualFields (k :: seen) rest b
end

end Value

open Value

/-! ## Schema descriptors -/

/-- Modelled from the spec: the schema descriptors (`EntitySchema`, `IterableSchema`,
`UnionSchema` of `./EntitySchema`, `./IterableSchema`, `./UnionSchema`, which `index.js`
imports) together with the plain values that can stand where a schema is expected.
An entity schema has a type key, an id-extraction function and a mapping from field name
to child schema; an iterable schema wraps an item schema and, when polymorphic, a
discriminator function; a union schema has a mapping from discriminator key to schema
and a discriminator function. A field-to-schema mapping is a function that sends the
names without a schema to `absent`. -/
inductive Schema where
  /-- No schema: `undefined`, or any value that is not an object. -/
  | absent
  | entity (key : String) (getId : Value → Value) (fields : String → Schema)
  | iterable (itemSchema : Schema) (getSchemaKey : Option (Value → Value))
  | union (itemSchema : String → Schema) (getSchemaKey : Value → Value)
  /-- A plain object used as an implicit schema: field name to schema. -/
  | fieldMap (fields : String → Schema)
  /-- A JavaScript array standing where a schema is expected: index to schema. -/
  | array (items : String → Schema)

/-- Modelled from the spec: an `idAttribute` or `schemaAttribute` option, either a field
name to read or a function of the record. -/
inductive Attr where
  | name (field : String)
  | fn (f : Value → Value)

/-- The extraction function an attribute option denotes (`x => x[attribute]` for a name). -/
def Attr.read : Attr → Value → Value
  | .name field => fun x => x.get field
  | .fn f => f

namespace Schema

/-- Test lodash `isObject(schema)`. -/
def isObject : Schema → Bool
  | absent => false
  | _ => true

/-- Test `Array.isArray(schema)`. -/
def isArray : Schema → Bool
  | array _ => true
  | _ => false

/-- Test `schema instanceof IterableSchema`. -/
def isIterable : Schema → Bool
  | iterable _ _ => true
  | _ => false

/-- Property read `schema[key]` on a schema used as a mapping. -/
def prop : Schema → String → Schema
  | fieldMap fields, k => fields k
  | array items, k => items k
  | entity _ _ fields, k => fields k
  | _, _ => absent

/-- The field-to-schema mapping given by a finite list of entries. -/
def fieldsOf (l : List (String × Schema)) : String → Schema :=
  fun k => (lookup k l).getD absent

/-- The mapping that gives no field a schema. -/
def noFields : String → Schema := fun _ => absent

end Schema

/-- Modelled from the spec: `entity(typeKey, fieldSchemas, {idAttribute})`, the constructor of
an entity schema (`new Schema(key, options)` followed by `define`). -/
def entitySchema (typeKey : String) (fields : String → Schema) (idAttribute : Attr) : Schema :=
  .entity typeKey idAttribute.read fields

/-- Modelled from the spec: `arrayOf(schema, options)` is `new IterableSchema(schema, options)`
(line 123), and the class `IterableSchema` is not in `src/`. An iterable schema wraps "a single
schema applied uniformly, or a mapping from discriminator value to schema for polymorphic
items, and, when polymorphic, a discriminator function". `visitIterable` hands every item to
`visit` with what `getItemSchema()` returns (lines 49-50), so the item schema of a polymorphic
iterable, a plain mapping given with a `schemaAttribute`, is the mapping together with its
discriminator: the descriptor `visitUnion` works on. Any other item schema is wrapped as it
is. -/
def arrayOf (schema : Schema) (schemaAttribute : Option Attr) : Schema :=
  match schema with
  | .fieldMap fields =>
    match schemaAttribute with
    | some attr => .iterable (.union fields attr.read) (some attr.read)
    | none => .iterable (.fieldMap fields) none
  | _ => .iterable schema (schemaAttribute.map Attr.read)

/-- Modelled from the spec: `valuesOf(schema, options)` is `new IterableSchema(schema, options)`
(line 127), the same descriptor as `arrayOf` builds. -/
def valuesOf (schema : Schema) (schemaAttribute : Option Attr) : Schema :=
  match schema with
  | .fieldMap fields =>
    match schemaAttribute with
    | some attr => .iterable (.union fields attr.read) (some attr.read)
    | none => .iterable (.fieldMap fields) none
  | _ => .iterable schema (schemaAttribute.map Attr.read)

/-- `unionOf(schema, options)`: `new UnionSchema(schema, options)`. -/
def unionOf (schema : Schema) (schemaAttribute : Attr) : Schema :=
  .union schema.prop schemaAttribute.read

/-! ## Bag, diagnostics and options -/

/-- The entity bag: type key to id to stored record. -/
abbrev Bag := List (String × List (String × Obj))

/-- One `console.warn` call of the default merge policy. -/
structure Warning where
  entityKey : String
  key : String
  existing : Value
  incoming : Value

/-- The state a traversal mutates: the bag and the diagnostics emitted so far. -/
structure St where
  bag : Bag
  log : List Warning

/-- The `options` argument: the two optional policies, as pure functions returning the
container (or the existing record) after the call. -/
structure Options where
  assignEntity : Option (Obj → String → Value → Obj)
  mergeIntoEntity : Option (Obj → Obj → String → Obj)

/-- The empty `options` object. -/
def defaultOptions : Options := ⟨none, none⟩

/-- The stored record `bag[entityKey][id]` (the empty record when the slot is missing). -/
def getSlot (bag : Bag) (entityKey id : String) : Obj :=
  ((lookup entityKey bag).bind (lookup id)).getD []

/-- Assignment `bag[entityKey][id] = record`. -/
def putSlot (bag : Bag) (entityKey id : String) (record : Obj) : Bag :=
  assign bag entityKey (assign ((lookup entityKey bag).getD []) id record)

/-- Lines 88-94 of `visitEntity`: create `bag[entityKey]` and `bag[entityKey][id]` when missing. -/
def ensureSlot (bag : Bag) (entityKey id : String) : Bag :=
  let bag1 := if hasOwn entityKey bag then bag else assign bag entityKey []
  if hasOwn id ((lookup entityKey bag1).getD []) then bag1 else putSlot bag1 entityKey id []

/-! ## The visitor -/

/-- `defaultAssignEntity(normalized, key, entity)`. -/
def defaultAssignEntity (normalized : Obj) (key : String) (entity : Value) : Obj :=
  assign normalized key entity

/-- The assignment policy in force: `const { assignEntity = defaultAssignEntity } = options`. -/
def Options.assign (options : Options) : Obj → String → Value → Obj :=
  options.assignEntity.getD defaultAssignEntity

/-- One round of a `for (key in …)` loop of `visitObject`: visit the property against
`schema[key]` and attach the result to `normalized`. -/
def visitProp (child : String → Value → St → Value × St) (options : Options)
    (acc : Obj × St) (kv : String × Value) : Obj × St :=
  let r := child kv.1 kv.2 acc.2
  (options.assign acc.1 kv.1 r.1, r.2)

/-- `visitObject(obj, schema, bag, options)`; `child key` is `visit(·, schema[key], bag, options)`. -/
def visitObject (child : String → Value → St → Value × St) (obj : Value) (options : Options)
    (st : St) : Obj × St :=
  let main := (obj.entries.filter (fun kv => kv.1 != "embedded")).foldl
    (visitProp child options) ([], st)
  if obj.hasOwnProperty "embedded" then
    (obj.get "embedded").entries.foldl (visitProp child options) main
  else main

/-- Threading of the state through `Array.prototype.map`. -/
def mapArray (f : Value → St → Value × St) : List Value → St → List Value × St
  | [], st => ([], st)
  | x :: xs, st =>
    let r := f x st
    let rs := mapArray f xs r.2
    (r.1 :: rs.1, rs.2)

/-- Threading of the state through lodash `mapValues`. -/
def mapValues (f : Value → St → Value × St) : Obj → St → Obj × St
  | [], st => ([], st)
  | (k, x) :: xs, st =>
    let r := f x st
    let rs := mapValues f xs r.2
    ((k, r.1) :: rs.1, rs.2)

/-- `defaultMapper(iterableSchema, itemSchema, bag, options)`; `visitItem` is
`visit(·, itemSchema, bag, options)`. -/
def defaultMapper (visitItem : Value → St → Value × St) : Value → St → Value × St :=
  fun obj st => visitItem obj st

/-- `polymorphicMapper(iterableSchema, itemSchema, bag, options)`; `visitKeyed key` is
`visit(·, itemSchema[key], bag, options)`. -/
def polymorphicMapper (getSchemaKey : Value → Value)
    (visitKeyed : String → Value → St → Value × St) : Value → St → Value × St :=
  fun obj st =>
    let schemaKey := getSchemaKey obj
    let result := visitKeyed (toKey schemaKey) obj st
    (.obj [("id", result.1), ("schema", schemaKey)], result.2)

/-- `visitIterable(obj, iterableSchema, bag, options)`. -/
def visitIterable (visitItem : Value → St → Value × St) (obj : Value) (st : St) : Value × St :=
  let curriedItemMapper := defaultMapper visitItem
  match obj with
  | .arr xs =>
    let r := mapArray curriedItemMapper xs st
    (.arr r.1, r.2)
  | _ =>
    let r := mapValues curriedItemMapper obj.entries st
    (.obj r.1, r.2)

/-- `visitUnion(obj, unionSchema, bag, options)`. -/
def visitUnion (getSchemaKey : Value → Value) (visitKeyed : String → Value → St → Value × St)
    (obj : Value) (st : St) : Value × St :=
  polymorphicMapper getSchemaKey visitKeyed obj st

/-- One round of the loop of `defaultMergeIntoEntity` on the property `kv` of `entityB`. -/
def mergeStep (entityKey : String) (acc : Obj × List Warning) (kv : String × Value) :
    Obj × List Warning :=
  match lookup kv.1 acc.1 with
  | none => (assign acc.1 kv.1 kv.2, acc.2)
  | some a =>
    if isEqual a kv.2 then (assign acc.1 kv.1 kv.2, acc.2)
    else (acc.1, acc.2 ++ [⟨entityKey, kv.1, a, kv.2⟩])

/-- `defaultMergeIntoEntity(entityA, entityB, entityKey)`: the record `entityA` after the call
and the diagnostics emitted. -/
def defaultMergeIntoEntity (entityA entityB : Obj) (entityKey : String) : Obj × List Warning :=
  entityB.foldl (mergeStep entityKey) (entityA, [])

/-- The merge policy in force: `const { mergeIntoEntity = defaultMergeIntoEntity } = options`. -/
def Options.merge (options : Options) (entityA entityB : Obj) (entityKey : String) :
    Obj × List Warning :=
  match options.mergeIntoEntity with
  | some f => (f entityA entityB entityKey, [])
  | none => defaultMergeIntoEntity entityA entityB entityKey

/-- `visitEntity(entity, entitySchema, bag, options)`; `child key` is
`visit(·, entitySchema[key], bag, options)`. The record `stored` is a reference into the bag,
so it is read back after the fields have been visited. -/
def visitEntity (entityKey : String) (getId : Value → Value)
    (child : String → Value → St → Value × St) (entity : Value) (options : Options) (st : St) :
    Value × St :=
  let id := getId entity
  if !id.isNullish then
    let st1 : St := ⟨ensureSlot st.bag entityKey (toKey id), st.log⟩
    let normalized := visitObject child entity options st1
    let stored := getSlot normalized.2.bag entityKey (toKey id)
    let merged := options.merge stored normalized.1 entityKey
    (id, ⟨putSlot normalized.2.bag entityKey (toKey id) merged.1, normalized.2.log ++ merged.2⟩)
  else
    let normalized := visitObject child entity options st
    (.obj normalized.1, normalized.2)

/-- `visit(obj, schema, bag, options)`. -/
def visit (options : Options) : Schema → Value → St → Value × St
  | .absent, value, st => (value, st)
  | .entity key getId fields, value, st =>
    if !value.isObject then (value, st)
    else visitEntity key getId (fun k => visit options (fields k)) value options st
  | .iterable itemSchema _, value, st =>
    if !value.isObject then (value, st)
    else visitIterable (visit options itemSchema) value st
  | .union itemSchema getSchemaKey, value, st =>
    if !value.isObject then (value, st)
    else visitUnion getSchemaKey (fun k => visit options (itemSchema k)) value st
  | .fieldMap fields, value, st =>
    if !value.isObject then (value, st)
    else
      let r := visitObject (fun k => visit options (fields k)) value options st
      (.obj r.1, r.2)
  | .array items, value, st =>
    if !value.isObject then (value, st)
    else
      let r := visitObject (fun k => visit options (items k)) value options st
      (.obj r.1, r.2)

/-! ## The entry point -/

/-- The ways `normalize` can throw. -/
inductive NormalizeError where
  /-- The error `Normalize accepts an object or an array as its input.` -/
  | inputKind
  /-- The error `Normalize accepts an object for schema.` -/
  | schemaKind
  /-- A `TypeError` of the JavaScript runtime in lines 148-149. -/
  | typeError
  deriving DecidableEq

/-- The value `normalize` returns. -/
structure Output where
  entities : Bag
  result : Value

/-- The fresh state of one `normalize` call. -/
def St.empty : St := ⟨[], []⟩

/-- Lines 147-152 of `normalize`: the value the traversal starts at. With an iterable schema
and an input that has an own `embedded` property it is
`obj.embedded[schema.getItemSchema().getKey()]`; only an entity schema has `getKey`, and a
property of `null` or `undefined` cannot be read. -/
def traversalRoot (obj : Value) (schema : Schema) : Except NormalizeError Value :=
  match schema with
  | .iterable itemSchema _ =>
    if obj.hasOwnProperty "embedded" then
      match itemSchema with
      | .entity key _ _ =>
        if (obj.get "embedded").isNullish then .error .typeError
        else .ok ((obj.get "embedded").get key)
      | _ => .error .typeError
    else .ok obj
  | _ => .ok obj

/-- The body of `normalize(obj, schema, options)`, returning the final state with the result. -/
def run (obj : Value) (schema : Schema) (options : Options) : Except NormalizeError (Value × St) :=
  if !obj.isObject && !obj.isArray then .error .inputKind
  else if !schema.isObject || schema.isArray then .error .schemaKind
  else (traversalRoot obj schema).map (fun root => visit options schema root St.empty)

/-- `normalize(obj, schema, options)`. -/
def normalize (obj : Value) (schema : Schema) (options : Options) : Except NormalizeError Output :=
  (run obj schema options).map (fun r => ⟨r.2.bag, r.1⟩)

/-! ## Notions used in the statements and proofs -/

/-- What one merge does to a single field: `old` is the stored value (if any), `new` the
incoming one (if any). -/
def mergeCell (old : Option Value) (new : Option Value) : Option Value :=
  match old, new with
  | x, none => x
  | none, some b => some b
  | some a, some b => if isEqual a b then some b else some a

/-- Lines 85-97 of `visitEntity` for a record with a non-null id: the normalized record
returned by `visitObject`, and the state at that point, just before the merge of line 98. -/
def normalizedBeforeMerge (options : Options) (key : String) (getId : Value → Value)
    (fields : String → Schema) (entity : Value) (st : St) : Obj × St :=
  visitObject (fun f => visit options (fields f)) entity options
    ⟨ensureSlot st.bag key (toKey (getId entity)), st.log⟩

/-- The stored value `bag[entityKey][id][field]`, if there is one. -/
def cell (bag : Bag) (entityKey id field : String) : Option Value :=
  ((lookup entityKey bag).bind (lookup id)).bind (lookup field)

/-- The two ways a traversal changes the bag: `visitEntity` creates the slot of a record
(lines 88-94), and later merges the normalized record into it (line 98). -/
inductive Op where
  | ensure (entityKey id : String)
  | merge (entityKey id : String) (normalized : Obj)

/-- The bag after one change, under the default merge policy. -/
def applyOp (bag : Bag) : Op → Bag
  | .ensure k i => ensureSlot bag k i
  | .merge k i normalized =>
    putSlot bag k i (defaultMergeIntoEntity (getSlot bag k i) normalized k).1

/-- The bag after a sequence of changes. -/
def applyOps (ops : List Op) (bag : Bag) : Bag := ops.foldl applyOp bag

/-- Every merged record of the sequence has pairwise different field names. -/
def OpsOk (ops : List Op) : Prop :=
  ∀ k i normalized, Op.merge k i normalized ∈ ops → (keys normalized).Nodup

/-- A stateful computation whose result does not depend on the state it starts from and whose
effect on the bag is a fixed sequence of changes. -/
def Traced {α : Type} (f : St → α × St) : Prop :=
  ∃ res ops, OpsOk ops ∧ ∀ st, (f st).1 = res ∧ (f st).2.bag = applyOps ops st.bag

/-- The records stored under a type key, `bag[entityKey]` (none when the key is missing). -/
def slotsOf (bag : Bag) (entityKey : String) : List (String × Obj) :=
  (lookup entityKey bag).getD []

/-- The values that the merges of a sequence of changes bring, in order, for the field `f` of
the record `bag[k][i]`. -/
def cands (k i f : String) : List Op → List Value
  | [] => []
  | .ensure _ _ :: ops => cands k i f ops
  | .merge k' i' normalized :: ops =>
    if k' = k ∧ i' = i then
      match lookup f normalized with
      | some c => c :: cands k i f ops
      | none => cands k i f ops
    else cands k i f ops

/-- A stored field after the default merge of a sequence of incoming values. -/
def runCell (x : Option Value) (cs : List Value) : Option Value :=
  cs.foldl (fun y c => mergeCell y (some c)) x

/-- No name occurs twice among the type keys of the bag, the ids under a type key, or the
fields of a stored record. -/
def BagWF (bag : Bag) : Prop :=
  (keys bag).Nodup ∧ (∀ k, (keys (slotsOf bag k)).Nodup) ∧ (∀ k i, (keys (getSlot bag k i)).Nodup)

/-- Two bags have the same type keys, ids and field names, in the same order. -/
def SameKeys (b b' : Bag) : Prop :=
  keys b = keys b' ∧ (∀ k, keys (slotsOf b k) = keys (slotsOf b' k)) ∧
    (∀ k i, keys (getSlot b k i) = keys (getSlot b' k i))

/-- The bag already has the slot a change creates and the fields a change merges. -/
def Covers (bag : Bag) : Op → Prop
  | .ensure k i => k ∈ keys bag ∧ i ∈ keys (slotsOf bag k)
  | .merge k i normalized =>
    k ∈ keys bag ∧ i ∈ keys (slotsOf bag k) ∧ ∀ f ∈ keys normalized, f ∈ keys (getSlot bag k i)

/-- The diagnostic the default merge policy emits for the property `kv` of the incoming
record, the existing record being `entityA`: one when the property is present in `entityA`
with a value that is not deeply equal, none otherwise. -/
def conflictOf (entityKey : String) (entityA : Obj) (kv : String × Value) : Option Warning :=
  match lookup kv.1 entityA with
  | some a => if isEqual a kv.2 then none else some ⟨entityKey, kv.1, a, kv.2⟩
  | none => none

/-- The bag `b'` has every type key, every record and every field of the bag `b`, each field
with a value deeply equal to the one it has in `b`. -/
def Grows (b b' : Bag) : Prop :=
  (∀ k, k ∈ keys b → k ∈ keys b') ∧
  (∀ k i, i ∈ keys (slotsOf b k) → i ∈ keys (slotsOf b' k)) ∧
  (∀ k i f a, cell b k i f = some a → ∃ a', cell b' k i f = some a' ∧ isEqual a a' = true)

/-! ## The visitor with a bounded call stack -/

mutual
/-- Nesting depth of a value: 0 for a scalar, one more than its deepest element or field value
for an array or object. -/
def Value.depth : Value → Nat
  | .arr xs => Value.depthList xs + 1
  | .obj fs => Value.depthFields fs + 1
  | _ => 0
/-- The largest nesting depth among the elements of an array. -/
def Value.depthList : List Value → Nat
  | [] => 0
  | x :: xs => max (Value.depth x) (Value.depthList xs)
/-- The largest nesting depth among the field values of an object. -/
def Value.depthFields : List (String × Value) → Nat
  | [] => 0
  | (_, x) :: rest => max (Value.depth x) (Value.depthFields rest)
end

/-- On every path from the root of the schema there are at most `n` union schemas. -/
def Schema.UnionRankLe : Schema → Nat → Prop
  | .absent, _ => True
  | .entity _ _ fields, n => ∀ k, (fields k).UnionRankLe n
  | .iterable itemSchema _, n => itemSchema.UnionRankLe n
  | .union itemSchema _, n =>
    match n with
    | 0 => False
    | m + 1 => ∀ k, (itemSchema k).UnionRankLe m
  | .fieldMap fields, n => ∀ k, (fields k).UnionRankLe n
  | .array items, n => ∀ k, (items k).UnionRankLe n

/-- One round of a loop of `visitObject` when a nested call of `visit` can exhaust the stack
(`none`). -/
def visitPropF (child : String → Value → St → Option (Value × St)) (options : Options)
    (acc : Option (Obj × St)) (kv : String × Value) : Option (Obj × St) :=
  match acc with
  | none => none
  | some a =>
    match child kv.1 kv.2 a.2 with
    | none => none
    | some r => some (options.assign a.1 kv.1 r.1, r.2)

/-- `visitObject` when a nested call of `visit` can exhaust the stack. -/
def visitObjectF (child : String → Value → St → Option (Value × St)) (obj : Value)
    (options : Options) (st : St) : Option (Obj × St) :=
  let main := (obj.entries.filter (fun kv => kv.1 != "embedded")).foldl
    (visitPropF child options) (some ([], st))
  if obj.hasOwnProperty "embedded" then
    (obj.get "embedded").entries.foldl (visitPropF child options) main
  else main

/-- `Array.prototype.map` when the mapper can exhaust the stack. -/
def mapArrayF (f : Value → St → Option (Value × St)) : List Value → St → Option (List Value × St)
  | [], st => some ([], st)
  | x :: xs, st =>
    match f x st with
    | none => none
    | some r =>
      match mapArrayF f xs r.2 with
      | none => none
      | some rs => some (r.1 :: rs.1, rs.2)

/-- Lodash `mapValues` when the mapper can exhaust the stack. -/
def mapValuesF (f : Value → St → Option (Value × St)) : Obj → St → Option (Obj × St)
  | [], st => some ([], st)
  | (k, x) :: xs, st =>
    match f x st with
    | none => none
    | some r =>
      match mapValuesF f xs r.2 with
      | none => none
      | some rs => some ((k, r.1) :: rs.1, rs.2)

/-- `visitIterable` when a nested call of `visit` can exhaust the stack. -/
def visitIterableF (visitItem : Value → St → Option (Value × St)) (obj : Value) (st : St) :
    Option (Value × St) :=
  match obj with
  | .arr xs => (mapArrayF visitItem xs st).map (fun r => (.arr r.1, r.2))
  | _ => (mapValuesF visitItem obj.entries st).map (fun r => (.obj r.1, r.2))

/-- `visitUnion` when the nested call of `visit` can exhaust the stack. -/
def visitUnionF (getSchemaKey : Value → Value)
    (visitKeyed : String → Value → St → Option (Value × St)) (obj : Value) (st : St) :
    Option (Value × St) :=
  (visitKeyed (toKey (getSchemaKey obj)) obj st).map
    (fun result => (.obj [("id", result.1), ("schema", getSchemaKey obj)], result.2))

/-- `visitEntity` when a nested call of `visit` can exhaust the stack. -/
def visitEntityF (entityKey : String) (getId : Value → Value)
    (child : String → Value → St → Option (Value × St)) (entity : Value) (options : Options)
    (st : St) : Option (Value × St) :=
  let id := getId entity
  if !id.isNullish then
    let st1 : St := ⟨ensureSlot st.bag entityKey (toKey id), st.log⟩
    (visitObjectF child entity options st1).map (fun normalized =>
      let stored := getSlot normalized.2.bag entityKey (toKey id)
      let merged := options.merge stored normalized.1 entityKey
      (id, ⟨putSlot normalized.2.bag entityKey (toKey id) merged.1,
        normalized.2.log ++ merged.2⟩))
  else
    (visitObjectF child entity options st).map (fun normalized =>
      (.obj normalized.1, normalized.2))

/-- `visit` on a call stack with room for `fuel` nested calls of `visit`: every call takes one
frame, and `none` is the exhausted stack. -/
def visitF (options : Options) : Nat → Schema → Value → St → Option (Value × St)
  | 0, _, _, _ => none
  | _ + 1, .absent, value, st => some (value, st)
  | fuel + 1, .entity key getId fields, value, st =>
    if !value.isObject then some (value, st)
    else visitEntityF key getId (fun k => visitF options fuel (fields k)) value options st
  | fuel + 1, .iterable itemSchema _, value, st =>
    if !value.isObject then some (value, st)
    else visitIterableF (visitF options fuel itemSchema) value st
  | fuel + 1, .union itemSchema getSchemaKey, value, st =>
    if !value.isObject then some (value, st)
    else visitUnionF getSchemaKey (fun k => visitF options fuel (itemSchema k)) value st
  | fuel + 1, .fieldMap fields, value, st =>
    if !value.isObject then some (value, st)
    else (visitObjectF (fun k => visitF options fuel (fields k)) value options st).map
      (fun r => (.obj r.1, r.2))
  | fuel + 1, .array items, value, st =>
    if !value.isObject then some (value, st)
    else (visitObjectF (fun k => visitF options fuel (items k)) value options st).map
      (fun r => (.obj r.1, r.2))

/-! ## The changes a traversal makes, as a list -/

/-- The changes made while the properties of a list are visited in order, `childOps key value`
being the changes of the visit of one property. -/
def opsOfEntries (childOps : String → Value → List Op) : Obj → List Op
  | [] => []
  | kv :: rest => childOps kv.1 kv.2 ++ opsOfEntries childOps rest

/-- The changes made while the elements of an array are visited in order. -/
def opsOfList (itemOps : Value → List Op) : List Value → List Op
  | [] => []
  | x :: xs => itemOps x ++ opsOfList itemOps xs

/-- The changes made by `visitObject`: those of the own fields other than `embedded`, then
those of the fields of `embedded`. -/
def objectOps (childOps : String → Value → List Op) (obj : Value) : List Op :=
  opsOfEntries childOps (obj.entries.filter (fun kv => kv.1 != "embedded")) ++
    (if obj.hasOwnProperty "embedded" then opsOfEntries childOps (obj.get "embedded").entries
     else [])

/-- The changes `visit(value, schema)` makes to the bag under the default policies, in order:
for a record with a non-null id the creation of its slot, the changes of its fields, and the
merge of its normalized record. -/
def visitOps : Schema → Value → List Op
  | .absent, _ => []
  | .entity key getId fields, value =>
    if !value.isObject then []
    else if !(getId value).isNullish then
      .ensure key (toKey (getId value)) ::
        (objectOps (fun k => visitOps (fields k)) value ++
          [.merge key (toKey (getId value))
            (visitObject (fun k => visit defaultOptions (fields k)) value defaultOptions
              St.empty).1])
    else objectOps (fun k => visitOps (fields k)) value
  | .iterable itemSchema _, value =>
    if !value.isObject then []
    else
      match value with
      | .arr xs => opsOfList (visitOps itemSchema) xs
      | _ => opsOfEntries (fun _ => visitOps itemSchema) value.entries
  | .union itemSchema getSchemaKey, value =>
    if !value.isObject then [] else visitOps (itemSchema (toKey (getSchemaKey value))) value
  | .fieldMap fields, value =>
    if !value.isObject then [] else objectOps (fun k => visitOps (fields k)) value
  | .array items, value =>
    if !value.isObject then [] else objectOps (fun k => visitOps (items k)) value

/-- The diagnostics one change emits on a bag. -/
def opLog (bag : Bag) : Op → List Warning
  | .ensure _ _ => []
  | .merge k i normalized => (defaultMergeIntoEntity (getSlot bag k i) normalized k).2

/-- The diagnostics a sequence of changes emits, starting from a bag. -/
def opsLog : List Op → Bag → List Warning
  | [], _ => []
  | op :: rest, bag => opLog bag op ++ opsLog rest (applyOp bag op)

/-- The state after a sequence of changes. -/
def afterOps (ops : List Op) (st : St) : St :=
  ⟨applyOps ops st.bag, st.log ++ opsLog ops st.bag⟩

/-! ## Notions for the comparison of two inputs -/

/-- The number a list of decimal digits denotes. -/
def decimalValue : List Char → Nat
  | [] => 0
  | c :: cs => (c.toNat - 48) * 10 ^ cs.length + decimalValue cs

mutual
/-- No object inside the value has two fields of the same name, as it is for every value of
JavaScript: the list of an object then is one enumeration order of its fields. -/
def Value.distinctNames : Value → Bool
  | .arr xs => Value.distinctNamesList xs
  | .obj fs => decide (keys fs).Nodup && Value.distinctNamesFields fs
  | _ => true
/-- Every element of an array has fields of different names. -/
def Value.distinctNamesList : List Value → Bool
  | [] => true
  | x :: xs => Value.distinctNames x && Value.distinctNamesList xs
/-- Every value of a property list has fields of different names. -/
def Value.distinctNamesFields : Obj → Bool
  | [] => true
  | (_, v) :: rest => Value.distinctNames v && Value.distinctNamesFields rest
end

/-- Two optional values are both absent, or both present and deeply equal. -/
def CellEq : Option Value → Option Value → Prop
  | some a, some b => isEqual a b = true
  | none, none => True
  | _, _ => False

/-- The id and discriminator functions of the schema give deeply equal values on deeply equal
records: what they extract does not depend on the enumeration order of the fields. -/
def Schema.Respects : Schema → Prop
  | .absent => True
  | .entity _ getId fields =>
    (∀ a b, isEqual a b = true → isEqual (getId a) (getId b) = true) ∧
      ∀ k, (fields k).Respects
  | .iterable itemSchema _ => itemSchema.Respects
  | .union itemSchema getSchemaKey =>
    (∀ a b, isEqual a b = true → isEqual (getSchemaKey a) (getSchemaKey b) = true) ∧
      ∀ k, (itemSchema k).Respects
  | .fieldMap fields => ∀ k, (fields k).Respects
  | .array items => ∀ k, (items k).Respects

/-- Two changes are the same up to deep equality of the merged record. -/
def OpEq : Op → Op → Prop
  | .ensure k i, .ensure k' i' => k = k' ∧ i = i'
  | .merge k i n, .merge k' i' n' => k = k' ∧ i = i' ∧ isEqual (.obj n) (.obj n') = true
  | _, _ => False

/-- One sequence of changes is a rearrangement of the other, up to deep equality of the merged
records. -/
def OpsPerm (ops ops' : List Op) : Prop :=
  ∃ mid, List.Perm ops mid ∧ List.Forall₂ OpEq mid ops'

/-- Two bags have the same type keys, the same ids under every type key and the same field
names in every record, in whatever order. -/
def SameNames (b b' : Bag) : Prop :=
  (∀ k, k ∈ keys b ↔ k ∈ keys b') ∧
  (∀ k i, i ∈ keys (slotsOf b k) ↔ i ∈ keys (slotsOf b' k)) ∧
  (∀ k i f, f ∈ keys (getSlot b k i) ↔ f ∈ keys (getSlot b' k i))

/-- The polymorphic item mapper in the words of the spec,
`item → {id: visit(item, M[discriminator(item)]), schema: discriminator(item)}`, for an item
that is an object or an array; any other item is returned as it is. -/
def polymorphicItem (options : Options) (itemSchemaMap : String → Schema)
    (discriminator : Value → Value) (item : Value) (st : St) : Value × St :=
  if item.isObject then
    ((.obj [("id", (visit options (itemSchemaMap (toKey (discriminator item))) item st).1),
        ("schema", discriminator item)]),
      (visit options (itemSchemaMap (toKey (discriminator item))) item st).2)
  else (item, st)

/-! # Properties -/

theorem arrayOf_entity (key : String) (getId : Value → Value) (fields : String → Schema)
    (schemaAttribute : Option Attr) :
    arrayOf (.entity key getId fields) schemaAttribute =
      .iterable (.entity key getId fields) (schemaAttribute.map Attr.read) := rfl

theorem valuesOf_entity (key : String) (getId : Value → Value) (fields : String → Schema)
    (schemaAttribute : Option Attr) :
    valuesOf (.entity key getId fields) schemaAttribute =
      .iterable (.entity key getId fields) (schemaAttribute.map Attr.read) := rfl

/-! ## Property lists -/

theorem lookup_assign_self {α : Type} (o : List (String × α)) (k : String) (v : α) :
    lookup k (assign o k v) = some v := by
  induction o with
  | nil => simp [assign, lookup]
  | cons kv rest ih =>
    obtain ⟨k', v'⟩ := kv
    by_cases h : k' = k <;> simp [assign, lookup, h, ih]

theorem lookup_assign_ne {α : Type} (o : List (String × α)) {k k' : String} (v : α)
    (h : k' ≠ k) : lookup k' (assign o k v) = lookup k' o := by
  induction o with
  | nil => simp [assign, lookup, Ne.symm h]
  | cons kv rest ih =>
    obtain ⟨k0, v0⟩ := kv
    by_cases h0 : k0 = k
    · subst h0
      simp [assign, lookup, Ne.symm h]
    · by_cases h1 : k0 = k'
      · subst h1
        simp [assign, lookup, h0]
      · simp [assign, lookup, h0, h1, ih]

theorem lookup_isSome_iff {α : Type} (o : List (String × α)) (k : String) :
    (lookup k o).isSome = true ↔ k ∈ keys o := by
  induction o with
  | nil => simp [lookup, keys]
  | cons kv rest ih =>
    obtain ⟨k0, v0⟩ := kv
    by_cases h0 : k0 = k
    · simp [lookup, keys, h0]
    · simp only [lookup, h0, if_false, ih]
      simp [keys, Ne.symm h0]

theorem lookup_eq_none_iff {α : Type} (o : List (String × α)) (k : String) :
    lookup k o = none ↔ k ∉ keys o := by
  rw [← lookup_isSome_iff]
  cases lookup k o <;> simp

theorem mem_of_lookup {α : Type} {o : List (String × α)} {k : String} {v : α}
    (h : lookup k o = some v) : (k, v) ∈ o := by
  induction o with
  | nil => simp [lookup] at h
  | cons kv rest ih =>
    obtain ⟨k0, v0⟩ := kv
    by_cases h0 : k0 = k
    · simp [lookup, h0] at h
      simp [h0, h]
    · simp only [lookup, h0, if_false] at h
      exact List.mem_cons_of_mem _ (ih h)

theorem lookup_of_mem {α : Type} {o : List (String × α)} {k : String} {v : α}
    (hn : (keys o).Nodup) (h : (k, v) ∈ o) : lookup k o = some v := by
  induction o with
  | nil => simp at h
  | cons kv rest ih =>
    obtain ⟨k0, v0⟩ := kv
    simp only [keys, List.map_cons, List.nodup_cons] at hn
    rcases List.mem_cons.1 h with h1 | h1
    · cases h1
      simp [lookup]
    · have hk : k0 ≠ k := by
        rintro rfl
        exact hn.1 (List.mem_map.2 ⟨(k0, v), h1, rfl⟩)
      simp only [lookup, hk, if_false]
      exact ih hn.2 h1

theorem keys_assign {α : Type} (o : List (String × α)) (k : String) (v : α) :
    keys (assign o k v) = if k ∈ keys o then keys o else keys o ++ [k] := by
  induction o with
  | nil => simp [assign, keys]
  | cons kv rest ih =>
    obtain ⟨k0, v0⟩ := kv
    by_cases h0 : k0 = k
    · simp [assign, keys, h0]
    · have ih' := ih
      simp only [keys] at ih'
      simp only [assign, h0, if_false, keys, List.map_cons, List.mem_cons, Ne.symm h0, false_or, ih']
      split <;> simp

theorem mem_keys_assign {α : Type} (o : List (String × α)) (k k' : String) (v : α) :
    k' ∈ keys (assign o k v) ↔ k' = k ∨ k' ∈ keys o := by
  rw [keys_assign]
  split
  · constructor
    · exact Or.inr
    · rintro (rfl | h)
      · assumption
      · exact h
  · simp [or_comm]

theorem nodup_keys_assign {α : Type} (o : List (String × α)) (k : String) (v : α)
    (h : (keys o).Nodup) : (keys (assign o k v)).Nodup := by
  rw [keys_assign]
  split
  · exact h
  · rename_i hk
    exact List.nodup_append.2 ⟨h, List.nodup_singleton k, by
      intro a ha hb
      simp at hb
      exact hk (hb ▸ ha)⟩

/-! ## Deep equality is an equivalence -/

mutual
theorem Value.induct (P : Value → Prop) (hu : P undefined) (hn : P null)
    (hb : ∀ b, P (bool b)) (hnum : ∀ n, P (num n)) (hs : ∀ s, P (str s))
    (ha : ∀ xs, (∀ x ∈ xs, P x) → P (arr xs))
    (ho : ∀ fs, (∀ kv ∈ fs, P kv.2) → P (obj fs)) : ∀ v, P v
  | undefined => hu
  | null => hn
  | bool b => hb b
  | num n => hnum n
  | str s => hs s
  | arr xs => ha xs (Value.induct_list P hu hn hb hnum hs ha ho xs)
  | obj fs => ho fs (Value.induct_fields P hu hn hb hnum hs ha ho fs)
theorem Value.induct_list (P : Value → Prop) (hu : P undefined) (hn : P null)
    (hb : ∀ b, P (bool b)) (hnum : ∀ n, P (num n)) (hs : ∀ s, P (str s))
    (ha : ∀ xs, (∀ x ∈ xs, P x) → P (arr xs))
    (ho : ∀ fs, (∀ kv ∈ fs, P kv.2) → P (obj fs)) : ∀ xs : List Value, ∀ x ∈ xs, P x
  | [] => fun _ h => absurd h (List.not_mem_nil _)
  | y :: ys => fun x h =>
    (List.mem_cons.1 h).elim (fun e => e ▸ Value.induct P hu hn hb hnum hs ha ho y)
      (fun h' => Value.induct_list P hu hn hb hnum hs ha ho ys x h')
theorem Value.induct_fields (P : Value → Prop) (hu : P undefined) (hn : P null)
    (hb : ∀ b, P (bool b)) (hnum : ∀ n, P (num n)) (hs : ∀ s, P (str s))
    (ha : ∀ xs, (∀ x ∈ xs, P x) → P (arr xs))
    (ho : ∀ fs, (∀ kv ∈ fs, P kv.2) → P (obj fs)) :
    ∀ fs : List (String × Value), ∀ kv ∈ fs, P kv.2
  | [] => fun _ h => absurd h (List.not_mem_nil _)
  | (_, y) :: ys => fun kv h =>
    (List.mem_cons.1 h).elim (fun e => e ▸ Value.induct P hu hn hb hnum hs ha ho y)
      (fun h' => Value.induct_fields P hu hn hb hnum hs ha ho ys kv h')
end

theorem isEqualFields_iff (seen : List String) (a b : Obj) :
    isEqualFields seen a b = true ↔
      ∀ k, k ∉ seen → ∀ v, lookup k a = some v →
        ∃ w, lookup k b = some w ∧ isEqual v w = true := by
  induction a generalizing seen with
  | nil => simp [isEqualFields, lookup]
  | cons kv rest ih =>
    obtain ⟨k0, v0⟩ := kv
    simp only [isEqualFields, Bool.and_eq_true, ih]
    constructor
    · rintro ⟨h1, h2⟩ k hk v hv
      by_cases h0 : k0 = k
      · subst h0
        simp only [lookup, if_true, Option.some.injEq] at hv
        subst hv
        simp only [hk, if_false] at h1
        cases hb : lookup k0 b with
        | none => simp [hb] at h1
        | some w => exact ⟨w, rfl, by simpa [hb] using h1⟩
      · simp only [lookup, h0, if_false] at hv
        exact h2 k (by simp [hk, Ne.symm h0]) v hv
    · intro h
      refine ⟨?_, ?_⟩
      · by_cases hk : k0 ∈ seen
        · simp [hk]
        · obtain ⟨w, hw, he⟩ := h k0 hk v0 (by simp [lookup])
          simp [hk, hw, he]
      · intro k hk v hv
        have hk0 : k0 ≠ k := fun e => hk (by simp [e])
        exact h k (fun hm => hk (List.mem_cons_of_mem _ hm)) v (by simpa [lookup, hk0] using hv)

theorem isEqual_obj_iff (a b : Obj) :
    isEqual (obj a) (obj b) = true ↔
      (∀ k v, lookup k a = some v → ∃ w, lookup k b = some w ∧ isEqual v w = true) ∧
      (∀ k, k ∈ keys b → k ∈ keys a) := by
  simp only [isEqual, Bool.and_eq_true, isEqualFields_iff, List.all_eq_true,
    decide_eq_true_eq]
  simp

theorem isEqual_refl (v : Value) : isEqual v v = true := by
  induction v using Value.induct with
  | hu => simp [isEqual]
  | hn => simp [isEqual]
  | hb b => simp [isEqual]
  | hnum n => simp [isEqual]
  | hs s => simp [isEqual]
  | ha xs ih =>
    simp only [isEqual]
    induction xs with
    | nil => simp [isEqualList]
    | cons x xs ihx =>
      simp only [isEqualList, Bool.and_eq_true]
      exact ⟨ih x (by simp), ihx (fun y hy => ih y (List.mem_cons_of_mem _ hy))⟩
  | ho fs ih =>
    rw [isEqual_obj_iff]
    exact ⟨fun k v hv => ⟨v, hv, ih (k, v) (mem_of_lookup hv)⟩, fun k hk => hk⟩

theorem isEqual_symm (v : Value) : ∀ w, isEqual v w = true → isEqual w v = true := by
  induction v using Value.induct with
  | hu => intro w h; cases w <;> simp_all [isEqual]
  | hn => intro w h; cases w <;> simp_all [isEqual]
  | hb b => intro w h; cases w <;> simp_all [isEqual]
  | hnum n => intro w h; cases w <;> simp_all [isEqual]
  | hs s => intro w h; cases w <;> simp_all [isEqual]
  | ha xs ih =>
    intro w h
    cases w with
    | arr ys =>
      simp only [isEqual] at h ⊢
      induction xs generalizing ys with
      | nil => cases ys <;> simp_all [isEqualList]
      | cons x xs ihx =>
        cases ys with
        | nil => simp [isEqualList] at h
        | cons y ys =>
          simp only [isEqualList, Bool.and_eq_true] at h ⊢
          exact ⟨ih x (by simp) y h.1, ihx (fun z hz => ih z (List.mem_cons_of_mem _ hz)) ys h.2⟩
    | _ => simp [isEqual] at h
  | ho fs ih =>
    intro w h
    cases w with
    | obj gs =>
      rw [isEqual_obj_iff] at h ⊢
      refine ⟨fun k w hw => ?_, fun k hk => ?_⟩
      · have hk : k ∈ keys fs := h.2 k ((lookup_isSome_iff gs k).1 (by simp [hw]))
        cases hv : lookup k fs with
        | none => exact absurd hk ((lookup_eq_none_iff fs k).1 hv)
        | some v =>
          obtain ⟨w', hw', he⟩ := h.1 k v hv
          rw [hw] at hw'
          cases hw'
          exact ⟨v, rfl, ih (k, v) (mem_of_lookup hv) w he⟩
      · cases hv : lookup k fs with
        | none => exact absurd hk ((lookup_eq_none_iff fs k).1 hv)
        | some v =>
          obtain ⟨w', hw', _⟩ := h.1 k v hv
          exact (lookup_isSome_iff gs k).1 (by simp [hw'])
    | _ => simp [isEqual] at h

theorem isEqual_trans (v : Value) :
    ∀ w u, isEqual v w = true → isEqual w u = true → isEqual v u = true := by
  induction v using Value.induct with
  | hu => intro w u h1 h2; cases w <;> cases u <;> simp_all [isEqual]
  | hn => intro w u h1 h2; cases w <;> cases u <;> simp_all [isEqual]
  | hb b => intro w u h1 h2; cases w <;> cases u <;> simp_all [isEqual]
  | hnum n => intro w u h1 h2; cases w <;> cases u <;> simp_all [isEqual]
  | hs s => intro w u h1 h2; cases w <;> cases u <;> simp_all [isEqual]
  | ha xs ih =>
    intro w u h1 h2
    cases w with
    | arr ys =>
      cases u with
      | arr zs =>
        simp only [isEqual] at h1 h2 ⊢
        induction xs generalizing ys zs with
        | nil => cases ys <;> cases zs <;> simp_all [isEqualList]
        | cons x xs ihx =>
          cases ys with
          | nil => simp [isEqualList] at h1
          | cons y ys =>
            cases zs with
            | nil => simp [isEqualList] at h2
            | cons z zs =>
              simp only [isEqualList, Bool.and_eq_true] at h1 h2 ⊢
              exact ⟨ih x (by simp) y z h1.1 h2.1,
                ihx (fun t ht => ih t (List.mem_cons_of_mem _ ht)) ys h1.2 zs h2.2⟩
      | _ => simp [isEqual] at h2
    | _ => simp [isEqual] at h1
  | ho fs ih =>
    intro w u h1 h2
    cases w with
    | obj gs =>
      cases u with
      | obj hs =>
        rw [isEqual_obj_iff] at h1 h2 ⊢
        refine ⟨fun k v hv => ?_, fun k hk => h1.2 k (h2.2 k hk)⟩
        obtain ⟨w, hw, e1⟩ := h1.1 k v hv
        obtain ⟨u, hu, e2⟩ := h2.1 k w hw
        exact ⟨u, hu, ih (k, v) (mem_of_lookup hv) w u e1 e2⟩
      | _ => simp [isEqual] at h2
    | _ => simp [isEqual] at h1

/-! ## The default merge policy, field by field -/

theorem lookup_mergeStep (entityKey : String) (acc : Obj × List Warning) (kv : String × Value)
    (f : String) :
    lookup f (mergeStep entityKey acc kv).1 =
      if kv.1 = f then mergeCell (lookup f acc.1) (some kv.2) else lookup f acc.1 := by
  obtain ⟨k, v⟩ := kv
  by_cases h : k = f
  · subst h
    simp only [mergeStep, if_true]
    cases ha : lookup k acc.1 with
    | none => simp [mergeCell, lookup_assign_self]
    | some a =>
      by_cases he : isEqual a v = true
      · simp [mergeCell, he, lookup_assign_self]
      · simp [mergeCell, he, ha]
  · simp only [mergeStep, h, if_false]
    cases ha : lookup k acc.1 with
    | none => simp [lookup_assign_ne _ _ (Ne.symm h)]
    | some a =>
      by_cases he : isEqual a v = true
      · simp [he, lookup_assign_ne _ _ (Ne.symm h)]
      · simp [he]

theorem mem_keys_mergeStep (entityKey : String) (acc : Obj × List Warning)
    (kv : String × Value) (f : String) :
    f ∈ keys (mergeStep entityKey acc kv).1 ↔ f = kv.1 ∨ f ∈ keys acc.1 := by
  obtain ⟨k, v⟩ := kv
  simp only [mergeStep]
  cases ha : lookup k acc.1 with
  | none => simp [mem_keys_assign]
  | some a =>
    have hk : k ∈ keys acc.1 := (lookup_isSome_iff _ _).1 (by simp [ha])
    by_cases he : isEqual a v = true
    · simp [he, mem_keys_assign]
    · simp only [he]
      constructor
      · exact Or.inr
      · rintro (rfl | h)
        · exact hk
        · exact h

theorem mem_keys_merge_fold (entityKey : String) (B : Obj) (acc : Obj × List Warning)
    (f : String) :
    f ∈ keys (B.foldl (mergeStep entityKey) acc).1 ↔ f ∈ keys acc.1 ∨ f ∈ keys B := by
  induction B generalizing acc with
  | nil => simp [keys]
  | cons kv rest ih =>
    rw [List.foldl_cons, ih, mem_keys_mergeStep]
    simp only [keys, List.map_cons, List.mem_cons]
    tauto

theorem lookup_merge_fold (entityKey : String) (B : Obj) (acc : Obj × List Warning)
    (f : String) (hB : (keys B).Nodup) :
    lookup f (B.foldl (mergeStep entityKey) acc).1 = mergeCell (lookup f acc.1) (lookup f B) := by
  induction B generalizing acc with
  | nil => simp [lookup, mergeCell]
  | cons kv rest ih =>
    obtain ⟨k, v⟩ := kv
    simp only [keys, List.map_cons, List.nodup_cons] at hB
    rw [List.foldl_cons, ih _ hB.2, lookup_mergeStep]
    by_cases h : k = f
    · subst h
      have hr : lookup k rest = none := (lookup_eq_none_iff _ _).2 hB.1
      simp [lookup, hr, mergeCell]
    · simp [lookup, h]

theorem lookup_merge_fold_kept (entityKey : String) (B : Obj) (acc : Obj × List Warning)
    (f : String) (a : Value) (h : lookup f acc.1 = some a) :
    ∃ a', lookup f (B.foldl (mergeStep entityKey) acc).1 = some a' ∧ isEqual a a' = true := by
  induction B generalizing acc a with
  | nil => exact ⟨a, h, isEqual_refl a⟩
  | cons kv rest ih =>
    rw [List.foldl_cons]
    have hs := lookup_mergeStep entityKey acc kv f
    by_cases hk : kv.1 = f
    · simp only [hk, if_true, h, mergeCell] at hs
      by_cases he : isEqual a kv.2 = true
      · simp only [he, if_true] at hs
        obtain ⟨a', h1, h2⟩ := ih _ kv.2 hs
        exact ⟨a', h1, isEqual_trans _ _ _ he h2⟩
      · simp only [he] at hs
        exact ih _ a hs
    · simp only [hk, if_false, h] at hs
      exact ih _ a hs

/-- The stored record after `defaultMergeIntoEntity`, field by field. -/
theorem lookup_defaultMerge (A B : Obj) (entityKey f : String) (hB : (keys B).Nodup) :
    lookup f (defaultMergeIntoEntity A B entityKey).1 = mergeCell (lookup f A) (lookup f B) :=
  lookup_merge_fold entityKey B (A, []) f hB

theorem mem_keys_defaultMerge (A B : Obj) (entityKey f : String) :
    f ∈ keys (defaultMergeIntoEntity A B entityKey).1 ↔ f ∈ keys A ∨ f ∈ keys B :=
  mem_keys_merge_fold entityKey B (A, []) f

theorem nodup_keys_merge_fold (entityKey : String) (B : Obj) (acc : Obj × List Warning)
    (h : (keys acc.1).Nodup) : (keys (B.foldl (mergeStep entityKey) acc).1).Nodup := by
  induction B generalizing acc with
  | nil => exact h
  | cons kv rest ih =>
    rw [List.foldl_cons]
    apply ih
    simp only [mergeStep]
    cases lookup kv.1 acc.1 with
    | none => exact nodup_keys_assign _ _ _ h
    | some a =>
      by_cases he : isEqual a kv.2 = true
      · simp only [he, if_true]
        exact nodup_keys_assign _ _ _ h
      · simp only [he]
        exact h

/-! ## The entry point: failures -/

theorem run_inputKind (input : Value) (schema : Schema) (options : Options)
    (h : input.isObject = false) : run input schema options = .error .inputKind := by
  have h2 : input.isArray = false := by cases input <;> simp_all [Value.isObject, Value.isArray]
  simp [run, h, h2]

theorem run_schemaKind (input : Value) (schema : Schema) (options : Options)
    (h : input.isObject = true) (hs : ¬ (schema.isObject = true ∧ schema.isArray = false)) :
    run input schema options = .error .schemaKind := by
  have hs2 : (!schema.isObject || schema.isArray) = true := by
    cases h1 : schema.isObject <;> cases h2 : schema.isArray <;> simp_all
  simp only [run, h, Bool.not_true, Bool.false_and, hs2]
  simp

theorem run_valid (input : Value) (schema : Schema) (options : Options)
    (h : input.isObject = true) (hs1 : schema.isObject = true) (hs2 : schema.isArray = false) :
    run input schema options =
      (traversalRoot input schema).map (fun root => visit options schema root St.empty) := by
  simp only [run, h, hs1, hs2]
  simp

theorem traversalRoot_ne_kind (input : Value) (schema : Schema) :
    traversalRoot input schema ≠ .error .inputKind ∧
      traversalRoot input schema ≠ .error .schemaKind := by
  unfold traversalRoot
  split
  · split
    · split
      · split <;> simp
      · simp
    · simp
  · simp

theorem run_ne_inputKind (input : Value) (schema : Schema) (options : Options)
    (h : input.isObject = true) : run input schema options ≠ .error .inputKind := by
  by_cases hs : schema.isObject = true ∧ schema.isArray = false
  · rw [run_valid input schema options h hs.1 hs.2]
    have := (traversalRoot_ne_kind input schema).1
    cases hr : traversalRoot input schema <;> simp_all [Except.map]
  · rw [run_schemaKind input schema options h hs]
    simp

theorem run_valid_ne_schemaKind (input : Value) (schema : Schema) (options : Options)
    (h : input.isObject = true) (hs1 : schema.isObject = true) (hs2 : schema.isArray = false) :
    run input schema options ≠ .error .schemaKind := by
  rw [run_valid input schema options h hs1 hs2]
  have := (traversalRoot_ne_kind input schema).2
  cases hr : traversalRoot input schema <;> simp_all [Except.map]

theorem normalize_eq_error_iff (input : Value) (schema : Schema) (options : Options)
    (e : NormalizeError) :
    normalize input schema options = .error e ↔ run input schema options = .error e := by
  unfold normalize
  cases run input schema options <;> simp [Except.map]

theorem isArray_isObject (input : Value) (h : input.isArray = true) : input.isObject = true := by
  cases input <;> simp_all [Value.isObject, Value.isArray]

/-- C2: `normalize` fails with the input-kind error exactly when the input is neither an object
nor an array, whatever the schema (the input is checked first); and it fails with the
schema-kind error exactly when the input is an object or an array and the schema is not a
non-array object. -/
theorem normalize_error_kinds (input : Value) (schema : Schema) (options : Options) :
    (normalize input schema options = .error .inputKind ↔
      (input.isObject = false ∧ input.isArray = false)) ∧
    (normalize input schema options = .error .schemaKind ↔
      ((input.isObject = true ∨ input.isArray = true) ∧
        ¬ (schema.isObject = true ∧ schema.isArray = false))) := by
  simp only [normalize_eq_error_iff]
  cases h : input.isObject with
  | false =>
    have h2 : input.isArray = false := by
      cases h3 : input.isArray with
      | false => rfl
      | true => rw [isArray_isObject input h3] at h; cases h
    rw [run_inputKind input schema options h]
    simp [h2]
  | true =>
    refine ⟨⟨fun he => absurd he (run_ne_inputKind input schema options h), fun he => by simp at he⟩, ?_⟩
    by_cases hs : schema.isObject = true ∧ schema.isArray = false
    · constructor
      · intro he
        exact absurd he (run_valid_ne_schemaKind input schema options h hs.1 hs.2)
      · intro he
        exact absurd hs he.2
    · rw [run_schemaKind input schema options h hs]
      simp [hs]

/-- C3 (counterexample): the input `{embedded: null}` is an object and `arrayOf(users)` is a
non-array schema object built from the schema constructors, yet `normalize` does not return:
reading `obj.embedded[key]` in line 149 throws a `TypeError`. -/
theorem normalize_typeError_counterexample :
    (Value.obj [("embedded", .null)]).isObject = true ∧
    (arrayOf (entitySchema "users" Schema.noFields (.name "id")) none).isObject = true ∧
    (arrayOf (entitySchema "users" Schema.noFields (.name "id")) none).isArray = false ∧
    normalize (.obj [("embedded", .null)])
      (arrayOf (entitySchema "users" Schema.noFields (.name "id")) none) defaultOptions =
        .error .typeError ∧
    ¬ ∃ out, normalize (.obj [("embedded", .null)])
      (arrayOf (entitySchema "users" Schema.noFields (.name "id")) none) defaultOptions =
        .ok out := by
  refine ⟨rfl, rfl, rfl, rfl, ?_⟩
  rintro ⟨out, h⟩
  have h2 : normalize (.obj [("embedded", .null)])
      (arrayOf (entitySchema "users" Schema.noFields (.name "id")) none) defaultOptions =
        .error .typeError := rfl
  rw [h2] at h
  cases h

theorem traversalRoot_ok (input : Value) (schema : Schema)
    (hroot : schema.isIterable = false ∨ input.hasOwnProperty "embedded" = false ∨
      (∃ key getId fields g, schema = .iterable (.entity key getId fields) g ∧
        (input.get "embedded").isNullish = false)) :
    ∃ root, traversalRoot input schema = .ok root := by
  rcases hroot with h | h | ⟨key, getId, fields, g, rfl, h⟩
  · cases schema <;> simp_all [traversalRoot, Schema.isIterable]
  · cases schema <;> simp_all [traversalRoot]
  · by_cases he : input.hasOwnProperty "embedded" = true <;> simp [traversalRoot, he, h]

/-- C3 (amended): when the schema is not an iterable schema, or the input has no own
`embedded` property, or the item schema is an entity schema and `input.embedded` is neither
`null` nor `undefined`, the only failures of `normalize` are the input-kind error (raised
exactly for an input that is not an object or array) and the schema-kind error (raised for a
schema that is not a non-array object); for any other input and schema `normalize` returns
the bag and the result of one traversal started on the empty bag. -/
theorem normalize_completes (input : Value) (schema : Schema) (options : Options)
    (hroot : schema.isIterable = false ∨ input.hasOwnProperty "embedded" = false ∨
      (∃ key getId fields g, schema = .iterable (.entity key getId fields) g ∧
        (input.get "embedded").isNullish = false)) :
    (∀ e, normalize input schema options = .error e →
      (e = .inputKind ∧ input.isObject = false) ∨
      (e = .schemaKind ∧ ¬ (schema.isObject = true ∧ schema.isArray = false))) ∧
    (input.isObject = true → schema.isObject = true → schema.isArray = false →
      ∃ root, traversalRoot input schema = .ok root ∧
        normalize input schema options =
          .ok ⟨(visit options schema root St.empty).2.bag,
            (visit options schema root St.empty).1⟩) := by
  obtain ⟨root, hr⟩ := traversalRoot_ok input schema hroot
  have hvalid : input.isObject = true → schema.isObject = true → schema.isArray = false →
      normalize input schema options =
          .ok ⟨(visit options schema root St.empty).2.bag,
            (visit options schema root St.empty).1⟩ := by
    intro h hs1 hs2
    simp [normalize, run_valid input schema options h hs1 hs2, hr, Except.map]
  refine ⟨fun e he => ?_, fun h hs1 hs2 => ⟨root, hr, hvalid h hs1 hs2⟩⟩
  rw [normalize_eq_error_iff] at he
  cases h : input.isObject with
  | false =>
    rw [run_inputKind input schema options h] at he
    cases he
    exact Or.inl ⟨rfl, rfl⟩
  | true =>
    by_cases hs : schema.isObject = true ∧ schema.isArray = false
    · have := hvalid h hs.1 hs.2
      rw [← normalize_eq_error_iff, this] at he
      cases he
    · rw [run_schemaKind input schema options h hs] at he
      cases he
      exact Or.inr ⟨rfl, hs⟩

/-- C3 (witness): the amended statement at the input `{id: 1}` under the entity schema
`users`. -/
theorem normalize_completes_witness :
    ∃ root, traversalRoot (.obj [("id", .num 1)])
        (entitySchema "users" Schema.noFields (.name "id")) = .ok root ∧
      normalize (.obj [("id", .num 1)]) (entitySchema "users" Schema.noFields (.name "id"))
          defaultOptions =
        .ok ⟨(visit defaultOptions (entitySchema "users" Schema.noFields (.name "id")) root
              St.empty).2.bag,
          (visit defaultOptions (entitySchema "users" Schema.noFields (.name "id")) root
              St.empty).1⟩ :=
  (normalize_completes (.obj [("id", .num 1)])
    (entitySchema "users" Schema.noFields (.name "id")) defaultOptions (Or.inl rfl)).2 rfl rfl rfl

/-- C4: after `defaultMergeIntoEntity(A, B, key)` the fields of `A` are those of `A` before
together with those of `B`; a field that `A` had keeps a value deeply equal to the one it had;
and a field of the record `B` that `A` did not have holds the value of `B`. -/
theorem defaultMergeIntoEntity_postcondition (A B : Obj) (entityKey : String) :
    (∀ f, f ∈ keys (defaultMergeIntoEntity A B entityKey).1 ↔ f ∈ keys A ∨ f ∈ keys B) ∧
    (∀ f a, lookup f A = some a →
      ∃ a', lookup f (defaultMergeIntoEntity A B entityKey).1 = some a' ∧
        isEqual a a' = true) ∧
    ((keys B).Nodup → ∀ f b, lookup f A = none → lookup f B = some b →
      lookup f (defaultMergeIntoEntity A B entityKey).1 = some b) := by
  refine ⟨mem_keys_defaultMerge A B entityKey, fun f a h => ?_, fun hB f b hA hb => ?_⟩
  · exact lookup_merge_fold_kept entityKey B (A, []) f a h
  · rw [lookup_defaultMerge A B entityKey f hB, hA, hb]
    rfl

/-- C4 (witness): merging `{id: 1, name: "B", age: 3}` into `{id: 1, name: "A"}` adds `age`. -/
theorem defaultMergeIntoEntity_postcondition_witness :
    lookup "age" (defaultMergeIntoEntity [("id", .num 1), ("name", .str "A")]
      [("id", .num 1), ("name", .str "B"), ("age", .num 3)] "users").1 = some (.num 3) :=
  (defaultMergeIntoEntity_postcondition [("id", .num 1), ("name", .str "A")]
    [("id", .num 1), ("name", .str "B"), ("age", .num 3)] "users").2.2 (by decide) "age" (.num 3)
    rfl rfl

/-! ## Index properties are never `embedded` -/

theorem digitChar_isDigit (m : Nat) (h : m < 10) : (Nat.digitChar m).isDigit = true := by
  interval_cases m <;> decide

theorem toDigitsCore_isDigit (fuel n : Nat) (ds : List Char)
    (h : ∀ c ∈ ds, c.isDigit = true) : ∀ c ∈ Nat.toDigitsCore 10 fuel n ds, c.isDigit = true := by
  induction fuel generalizing n ds with
  | zero => simpa [Nat.toDigitsCore] using h
  | succ fuel ih =>
    have hd : ∀ c ∈ Nat.digitChar (n % 10) :: ds, c.isDigit = true := by
      intro c hc
      rcases List.mem_cons.1 hc with rfl | hc
      · exact digitChar_isDigit _ (Nat.mod_lt _ (by decide))
      · exact h c hc
    simp only [Nat.toDigitsCore]
    split
    · exact hd
    · exact ih _ _ hd

theorem toString_nat_ne_embedded (i : Nat) : toString i ≠ "embedded" := by
  intro h
  have h1 : (toString i).data = "embedded".data := by rw [h]
  have h2 : ∀ c ∈ (toString i).data, c.isDigit = true := by
    show ∀ c ∈ (Nat.repr i).data, c.isDigit = true
    simp only [Nat.repr, List.asString]
    exact toDigitsCore_isDigit _ _ _ (by simp)
  rw [h1] at h2
  exact absurd (h2 'e' (by decide)) (by decide)

theorem lookup_embedded_indexed {α : Type} (xs : List α) (i : Nat) :
    lookup "embedded" (indexed i xs) = none := by
  induction xs generalizing i with
  | nil => rfl
  | cons x xs ih => simp [indexed, lookup, toString_nat_ne_embedded, ih]

theorem hasOwnProperty_embedded_arr (xs : List Value) :
    (Value.arr xs).hasOwnProperty "embedded" = false := by
  simp [Value.hasOwnProperty, hasOwn, Value.entries, lookup_embedded_indexed]

theorem hasOwnProperty_embedded_obj (fs : Obj) :
    (Value.obj fs).hasOwnProperty "embedded" = hasOwn "embedded" fs := by
  simp [Value.hasOwnProperty, Value.entries]

/-! ## Basic facts about the visitor -/

theorem visit_of_not_isObject (options : Options) (schema : Schema) (value : Value) (st : St)
    (h : value.isObject = false) : visit options schema value st = (value, st) := by
  cases schema <;> simp [visit, h]

theorem visit_absent (options : Options) (value : Value) (st : St) :
    visit options .absent value st = (value, st) := by
  simp [visit]

theorem visit_entity (options : Options) (key : String) (getId : Value → Value)
    (fields : String → Schema) (value : Value) (st : St) (h : value.isObject = true) :
    visit options (.entity key getId fields) value st =
      visitEntity key getId (fun k => visit options (fields k)) value options st := by
  rw [visit]
  simp [h]

theorem visit_iterable (options : Options) (itemSchema : Schema)
    (g : Option (Value → Value)) (value : Value) (st : St) (h : value.isObject = true) :
    visit options (.iterable itemSchema g) value st =
      visitIterable (visit options itemSchema) value st := by
  rw [visit]
  simp [h]

theorem visit_union (options : Options) (itemSchema : String → Schema)
    (getSchemaKey : Value → Value) (value : Value) (st : St) (h : value.isObject = true) :
    visit options (.union itemSchema getSchemaKey) value st =
      visitUnion getSchemaKey (fun k => visit options (itemSchema k)) value st := by
  rw [visit]
  simp [h]

theorem visit_fieldMap (options : Options) (fields : String → Schema) (value : Value) (st : St)
    (h : value.isObject = true) :
    visit options (.fieldMap fields) value st =
      (.obj (visitObject (fun k => visit options (fields k)) value options st).1,
        (visitObject (fun k => visit options (fields k)) value options st).2) := by
  rw [visit]
  simp [h]

theorem visit_array (options : Options) (items : String → Schema) (value : Value) (st : St)
    (h : value.isObject = true) :
    visit options (.array items) value st =
      (.obj (visitObject (fun k => visit options (items k)) value options st).1,
        (visitObject (fun k => visit options (items k)) value options st).2) := by
  rw [visit]
  simp [h]

theorem visitEntity_fst (key : String) (getId : Value → Value)
    (child : String → Value → St → Value × St) (entity : Value) (options : Options) (st : St)
    (h : (getId entity).isNullish = false) :
    (visitEntity key getId child entity options st).1 = getId entity := by
  simp [visitEntity, h]

theorem mapArray_fst (f : Value → St → Value × St) (g : Value → Value) (xs : List Value)
    (st : St) (h : ∀ x ∈ xs, ∀ s, (f x s).1 = g x) : (mapArray f xs st).1 = xs.map g := by
  induction xs generalizing st with
  | nil => rfl
  | cons x xs ih =>
    simp only [mapArray, List.map_cons]
    rw [h x (by simp), ih _ (fun y hy => h y (List.mem_cons_of_mem _ hy))]

theorem mapValues_fst (f : Value → St → Value × St) (g : Value → Value) (fs : Obj)
    (st : St) (h : ∀ kv ∈ fs, ∀ s, (f kv.2 s).1 = g kv.2) :
    (mapValues f fs st).1 = fs.map (fun kv => (kv.1, g kv.2)) := by
  induction fs generalizing st with
  | nil => rfl
  | cons kv fs ih =>
    obtain ⟨k, x⟩ := kv
    simp only [mapValues, List.map_cons]
    rw [h (k, x) (by simp), ih _ (fun y hy => h y (List.mem_cons_of_mem _ hy))]

theorem normalize_of_root (input : Value) (schema : Schema) (options : Options) (root : Value)
    (h : input.isObject = true) (hs1 : schema.isObject = true) (hs2 : schema.isArray = false)
    (hr : traversalRoot input schema = .ok root) :
    normalize input schema options =
      .ok ⟨(visit options schema root St.empty).2.bag, (visit options schema root St.empty).1⟩ := by
  simp [normalize, run_valid input schema options h hs1 hs2, hr, Except.map]

/-- C7: under `arrayOf(S)` with `S` an entity schema, the result for a sequence of records with
non-null ids is the sequence of their ids, in the same order and of the same length. -/
theorem arrayOf_result_ids (key : String) (getId : Value → Value) (fields : String → Schema)
    (schemaAttribute : Option Attr) (options : Options) (xs : List Value)
    (hx : ∀ x ∈ xs, x.isObject = true ∧ (getId x).isNullish = false) :
    ∃ out, normalize (.arr xs) (arrayOf (.entity key getId fields) schemaAttribute) options =
        .ok out ∧
      out.result = .arr (xs.map getId) ∧
      (∀ ids, out.result = .arr ids →
        ids.length = xs.length ∧ ∀ n, ids.get? n = (xs.get? n).map getId) := by
  have hr : traversalRoot (.arr xs) (arrayOf (.entity key getId fields) schemaAttribute) =
      .ok (.arr xs) := by
    simp [traversalRoot, arrayOf_entity, hasOwnProperty_embedded_arr]
  have hres : (visit options (arrayOf (.entity key getId fields) schemaAttribute) (.arr xs)
      St.empty).1 = .arr (xs.map getId) := by
    rw [arrayOf_entity, visit_iterable options _ _ (.arr xs) _ rfl]
    simp only [visitIterable]
    rw [mapArray_fst _ getId]
    intro x hx' s
    simp only [defaultMapper]
    rw [visit_entity _ _ _ _ _ _ (hx x hx').1, visitEntity_fst _ _ _ _ _ _ (hx x hx').2]
  refine ⟨_, normalize_of_root _ _ options _ rfl rfl rfl hr, hres, ?_⟩
  intro ids hids
  rw [hres] at hids
  cases hids
  simp

/-- C7 (witness): three records under `arrayOf(users)`. -/
theorem arrayOf_result_ids_witness :
    ∃ out, normalize (.arr [.obj [("id", .num 3)], .obj [("id", .num 1)], .obj [("id", .num 3)]])
        (arrayOf (.entity "users" (Attr.read (.name "id")) Schema.noFields) none)
        defaultOptions = .ok out ∧
      out.result = .arr ([.obj [("id", .num 3)], .obj [("id", .num 1)],
        .obj [("id", .num 3)]].map (Attr.read (.name "id"))) ∧
      (∀ ids, out.result = .arr ids →
        ids.length = [Value.obj [("id", .num 3)], .obj [("id", .num 1)],
            .obj [("id", .num 3)]].length ∧
          ∀ n, ids.get? n = ([Value.obj [("id", .num 3)], .obj [("id", .num 1)],
            .obj [("id", .num 3)]].get? n).map (Attr.read (.name "id"))) :=
  arrayOf_result_ids "users" (Attr.read (.name "id")) Schema.noFields none defaultOptions
    [.obj [("id", .num 3)], .obj [("id", .num 1)], .obj [("id", .num 3)]]
    (by
      intro x hx
      simp only [List.mem_cons, List.mem_singleton, List.not_mem_nil, or_false] at hx
      rcases hx with rfl | rfl | rfl <;> exact ⟨rfl, rfl⟩)

/-- C8 (counterexample): the keyed collection `{embedded: {id: 1}}` holds one record with a
non-null id, but under `valuesOf(users)` the result is `undefined`, not a keyed collection with
the key `embedded`: `normalize` starts the traversal at `input.embedded["users"]`. -/
theorem valuesOf_embedded_counterexample :
    (∀ kv ∈ [("embedded", Value.obj [("id", .num 1)])],
      kv.2.isObject = true ∧ (Attr.read (.name "id") kv.2).isNullish = false) ∧
    normalize (.obj [("embedded", .obj [("id", .num 1)])])
      (valuesOf (.entity "users" (Attr.read (.name "id")) Schema.noFields) none)
      defaultOptions = .ok ⟨[], .undefined⟩ := by
  refine ⟨?_, rfl⟩
  intro kv hkv
  simp only [List.mem_singleton] at hkv
  subst hkv
  exact ⟨rfl, rfl⟩

/-- C8 (amended): under `valuesOf(S)` with `S` an entity schema, the result for a keyed
collection that has no own key `embedded` and whose values are records with non-null ids is
the keyed collection with the same keys, each mapped to the id of its record. -/
theorem valuesOf_result_ids (key : String) (getId : Value → Value) (fields : String → Schema)
    (schemaAttribute : Option Attr) (options : Options) (fs : Obj)
    (he : hasOwn "embedded" fs = false)
    (hx : ∀ kv ∈ fs, kv.2.isObject = true ∧ (getId kv.2).isNullish = false) :
    ∃ out, normalize (.obj fs) (valuesOf (.entity key getId fields) schemaAttribute) options =
        .ok out ∧
      out.result = .obj (fs.map (fun kv => (kv.1, getId kv.2))) := by
  have hr : traversalRoot (.obj fs) (valuesOf (.entity key getId fields) schemaAttribute) =
      .ok (.obj fs) := by
    simp [traversalRoot, valuesOf_entity, hasOwnProperty_embedded_obj, he]
  refine ⟨_, normalize_of_root _ _ options _ rfl rfl rfl hr, ?_⟩
  show (visit options (valuesOf (.entity key getId fields) schemaAttribute) (.obj fs)
      St.empty).1 = _
  rw [valuesOf_entity, visit_iterable options _ _ (.obj fs) _ rfl]
  simp only [visitIterable, Value.entries]
  rw [mapValues_fst _ getId]
  intro kv hkv s
  simp only [defaultMapper]
  rw [visit_entity _ _ _ _ _ _ (hx kv hkv).1, visitEntity_fst _ _ _ _ _ _ (hx kv hkv).2]

/-- C8 (witness): the collection `{a: {id: 1}, b: {id: 2}}` under `valuesOf(users)`. -/
theorem valuesOf_result_ids_witness :
    ∃ out, normalize (.obj [("a", .obj [("id", .num 1)]), ("b", .obj [("id", .num 2)])])
        (valuesOf (.entity "users" (Attr.read (.name "id")) Schema.noFields) none)
        defaultOptions = .ok out ∧
      out.result = .obj ([("a", Value.obj [("id", .num 1)]), ("b", .obj [("id", .num 2)])].map
        (fun kv => (kv.1, Attr.read (.name "id") kv.2))) :=
  valuesOf_result_ids "users" (Attr.read (.name "id")) Schema.noFields none defaultOptions
    [("a", .obj [("id", .num 1)]), ("b", .obj [("id", .num 2)])] rfl
    (by
      intro kv hkv
      simp only [List.mem_cons, List.mem_singleton, List.not_mem_nil, or_false] at hkv
      rcases hkv with rfl | rfl <;> exact ⟨rfl, rfl⟩)

/-! ## Slots of the bag and normalized records -/

theorem lookup_putSlot (bag : Bag) (k i : String) (record : Obj) :
    (lookup k (putSlot bag k i record)).bind (lookup i) = some record := by
  simp [putSlot, lookup_assign_self]

theorem getSlot_putSlot (bag : Bag) (k i : String) (record : Obj) :
    getSlot (putSlot bag k i record) k i = record := by
  simp [getSlot, lookup_putSlot]

theorem assign_of_not_mem {α : Type} (o : List (String × α)) (k : String) (v : α)
    (h : k ∉ keys o) : assign o k v = o ++ [(k, v)] := by
  induction o with
  | nil => rfl
  | cons kv rest ih =>
    obtain ⟨k0, v0⟩ := kv
    simp only [keys, List.map_cons, List.mem_cons, not_or] at h
    simp only [assign, Ne.symm h.1, if_false, List.cons_append]
    rw [ih h.2]

theorem merge_fold_disjoint (entityKey : String) (B : Obj) (A : Obj) (log : List Warning)
    (hB : (keys B).Nodup) (hd : ∀ k ∈ keys B, k ∉ keys A) :
    B.foldl (mergeStep entityKey) (A, log) = (A ++ B, log) := by
  induction B generalizing A with
  | nil => simp
  | cons kv rest ih =>
    obtain ⟨k, v⟩ := kv
    simp only [keys, List.map_cons, List.nodup_cons] at hB
    have hk : k ∉ keys A := hd k (by simp [keys])
    have hl : lookup k A = none := (lookup_eq_none_iff _ _).2 hk
    rw [List.foldl_cons]
    simp only [mergeStep, hl]
    rw [assign_of_not_mem _ _ _ hk, ih _ hB.2]
    · simp
    · intro k' hk' hm
      simp only [keys, List.map_append, List.mem_append, List.map_cons, List.map_nil,
        List.mem_singleton] at hm
      rcases hm with hm | rfl
      · exact hd k' (by simp [keys] at hk' ⊢; exact Or.inr hk') hm
      · exact hB.1 hk'

/-- Merging a record into the empty record stores the record itself. -/
theorem defaultMerge_nil (B : Obj) (entityKey : String) (hB : (keys B).Nodup) :
    defaultMergeIntoEntity [] B entityKey = (B, []) := by
  have := merge_fold_disjoint entityKey B [] [] hB (by simp [keys])
  simpa [defaultMergeIntoEntity] using this

theorem assign_defaultOptions : defaultOptions.assign = assign := rfl

theorem merge_defaultOptions (A B : Obj) (k : String) :
    defaultOptions.merge A B k = defaultMergeIntoEntity A B k := rfl

theorem nodup_keys_visitProp_fold (child : String → Value → St → Value × St) (L : Obj)
    (acc : Obj × St) (h : (keys acc.1).Nodup) :
    (keys (L.foldl (visitProp child defaultOptions) acc).1).Nodup := by
  induction L generalizing acc with
  | nil => exact h
  | cons kv rest ih =>
    rw [List.foldl_cons]
    apply ih
    simp only [visitProp, assign_defaultOptions]
    exact nodup_keys_assign _ _ _ h

theorem nodup_keys_visitObject (child : String → Value → St → Value × St) (value : Value)
    (st : St) : (keys (visitObject child value defaultOptions st).1).Nodup := by
  unfold visitObject
  have h1 := nodup_keys_visitProp_fold child
    (value.entries.filter (fun kv => kv.1 != "embedded")) ([], st) (by simp [keys])
  split
  · exact nodup_keys_visitProp_fold child _ _ h1
  · exact h1

theorem visitEntity_default (key : String) (getId : Value → Value) (fields : String → Schema)
    (entity : Value) (st : St) (h : (getId entity).isNullish = false) :
    visitEntity key getId (fun f => visit defaultOptions (fields f)) entity defaultOptions st =
      (getId entity,
        ⟨putSlot (normalizedBeforeMerge defaultOptions key getId fields entity st).2.bag key
            (toKey (getId entity))
            (defaultMergeIntoEntity
              (getSlot (normalizedBeforeMerge defaultOptions key getId fields entity st).2.bag
                key (toKey (getId entity)))
              (normalizedBeforeMerge defaultOptions key getId fields entity st).1 key).1,
          (normalizedBeforeMerge defaultOptions key getId fields entity st).2.log ++
            (defaultMergeIntoEntity
              (getSlot (normalizedBeforeMerge defaultOptions key getId fields entity st).2.bag
                key (toKey (getId entity)))
              (normalizedBeforeMerge defaultOptions key getId fields entity st).1 key).2⟩) := by
  simp [visitEntity, h, normalizedBeforeMerge, merge_defaultOptions]

/-- C9: under `unionOf(M, {schemaAttribute})`, a record whose discriminator selects an entity
schema of type key `key` and whose id under it is non-null gives the result
`{id, schema: discriminator}`, and the bag has a record under `entities[key][id]`; that record
has every field of the normalized record, field by field the outcome of the default merge of
the normalized record into what the nested fields had stored there, and it is the normalized
record itself when they had stored nothing. -/
theorem unionOf_tagging (M : Schema) (schemaAttribute : Attr) (v : Value) (key : String)
    (getId : Value → Value) (fields : String → Schema) (hv : v.isObject = true)
    (hM : M.prop (toKey (schemaAttribute.read v)) = .entity key getId fields)
    (hi : (getId v).isNullish = false) :
    ∃ out, normalize v (unionOf M schemaAttribute) defaultOptions = .ok out ∧
      out.result = .obj [("id", getId v), ("schema", schemaAttribute.read v)] ∧
      ∃ record, (lookup key out.entities).bind (lookup (toKey (getId v))) = some record ∧
        (∀ f, f ∈ keys (normalizedBeforeMerge defaultOptions key getId fields v St.empty).1 →
          f ∈ keys record) ∧
        (∀ f, lookup f record =
          mergeCell
            (lookup f (getSlot
              (normalizedBeforeMerge defaultOptions key getId fields v St.empty).2.bag key
              (toKey (getId v))))
            (lookup f (normalizedBeforeMerge defaultOptions key getId fields v St.empty).1)) ∧
        (getSlot (normalizedBeforeMerge defaultOptions key getId fields v St.empty).2.bag key
            (toKey (getId v)) = [] →
          record = (normalizedBeforeMerge defaultOptions key getId fields v St.empty).1) := by
  have hr : traversalRoot v (unionOf M schemaAttribute) = .ok v := by
    simp [traversalRoot, unionOf]
  have hvis : visit defaultOptions (unionOf M schemaAttribute) v St.empty =
      (.obj [("id", getId v), ("schema", schemaAttribute.read v)],
        (visitEntity key getId (fun f => visit defaultOptions (fields f)) v defaultOptions
          St.empty).2) := by
    rw [unionOf, visit_union _ _ _ _ _ hv]
    simp only [visitUnion, polymorphicMapper]
    rw [hM, visit_entity _ _ _ _ _ _ hv, visitEntity_fst _ _ _ _ _ _ hi]
  have hn : (keys (normalizedBeforeMerge defaultOptions key getId fields v St.empty).1).Nodup :=
    nodup_keys_visitObject (fun f => visit defaultOptions (fields f)) v
      ⟨ensureSlot St.empty.bag key (toKey (getId v)), St.empty.log⟩
  refine ⟨_, normalize_of_root _ _ defaultOptions _ hv rfl rfl hr, ?_, ?_⟩
  · rw [hvis]
  · simp only [hvis, visitEntity_default key getId fields v St.empty hi]
    refine ⟨_, lookup_putSlot _ _ _ _, fun f hf => ?_, fun f => ?_, fun he => ?_⟩
    · exact (mem_keys_defaultMerge _ _ _ _).2 (Or.inr hf)
    · exact lookup_defaultMerge _ _ _ _ hn
    · rw [he, defaultMerge_nil _ _ hn]

/-- C9 (witness): `unionOf({post: posts, comment: comments}, {schemaAttribute: "type"})` on
the record `{type: "post", id: 5}`. -/
theorem unionOf_tagging_witness :
    ∃ out, normalize (.obj [("type", .str "post"), ("id", .num 5)])
        (unionOf (.fieldMap (Schema.fieldsOf
          [("post", entitySchema "posts" Schema.noFields (.name "id")),
           ("comment", entitySchema "comments" Schema.noFields (.name "id"))]))
          (.name "type")) defaultOptions = .ok out ∧
      out.result = .obj [("id", .num 5), ("schema", .str "post")] ∧
      (lookup "posts" out.entities).bind (lookup "5") =
        some [("type", .str "post"), ("id", .num 5)] := by
  obtain ⟨out, h1, h2, record, h3, _, _, h6⟩ :=
    unionOf_tagging (.fieldMap (Schema.fieldsOf
        [("post", entitySchema "posts" Schema.noFields (.name "id")),
         ("comment", entitySchema "comments" Schema.noFields (.name "id"))]))
      (.name "type") (.obj [("type", .str "post"), ("id", .num 5)]) "posts"
      (Attr.read (.name "id")) Schema.noFields rfl rfl rfl
  refine ⟨out, h1, h2, ?_⟩
  rw [h6 rfl] at h3
  exact h3

/-! ## Objects whose fields pass through -/

theorem visitProp_fold_pass (child : String → Value → St → Value × St) (L : Obj) (acc : Obj)
    (st : St) (h : ∀ kv ∈ L, child kv.1 kv.2 st = (kv.2, st)) :
    L.foldl (visitProp child defaultOptions) (acc, st) =
      (L.foldl (fun a kv => assign a kv.1 kv.2) acc, st) := by
  induction L generalizing acc with
  | nil => rfl
  | cons kv rest ih =>
    simp only [List.foldl_cons, visitProp, assign_defaultOptions]
    rw [h kv (by simp)]
    exact ih _ (fun kv' hkv' => h kv' (List.mem_cons_of_mem _ hkv'))

theorem assign_fold_disjoint (L : Obj) (acc : Obj) (hL : (keys L).Nodup)
    (hd : ∀ k ∈ keys L, k ∉ keys acc) :
    L.foldl (fun a kv => assign a kv.1 kv.2) acc = acc ++ L := by
  induction L generalizing acc with
  | nil => simp
  | cons kv rest ih =>
    obtain ⟨k, v⟩ := kv
    simp only [keys, List.map_cons, List.nodup_cons] at hL
    have hk : k ∉ keys acc := hd k (by simp [keys])
    rw [List.foldl_cons, assign_of_not_mem _ _ _ hk, ih _ hL.2]
    · simp
    · intro k' hk' hm
      simp only [keys, List.map_append, List.mem_append, List.map_cons, List.map_nil,
        List.mem_singleton] at hm
      rcases hm with hm | rfl
      · exact hd k' (by simp [keys] at hk' ⊢; exact Or.inr hk') hm
      · exact hL.1 hk'

theorem filter_not_embedded (fs : Obj) (he : hasOwn "embedded" fs = false) :
    fs.filter (fun kv => kv.1 != "embedded") = fs := by
  induction fs with
  | nil => rfl
  | cons kv rest ih =>
    obtain ⟨k, v⟩ := kv
    by_cases hk : k = "embedded"
    · simp [hasOwn, lookup, hk] at he
    · have he2 : hasOwn "embedded" rest = false := by simpa [hasOwn, lookup, hk] using he
      simp [List.filter_cons, hk, ih he2]

/-- A record without `embedded` whose fields all pass through is returned as it is. -/
theorem visitObject_pass (child : String → Value → St → Value × St) (fs : Obj) (st : St)
    (he : hasOwn "embedded" fs = false) (hn : (keys fs).Nodup)
    (h : ∀ kv ∈ fs, child kv.1 kv.2 st = (kv.2, st)) :
    visitObject child (.obj fs) defaultOptions st = (fs, st) := by
  simp only [visitObject, hasOwnProperty_embedded_obj, he, Value.entries,
    filter_not_embedded fs he]
  rw [visitProp_fold_pass child fs [] st h, assign_fold_disjoint fs [] hn (by simp [keys])]
  simp

theorem visit_pass (options : Options) (schema : Schema) (value : Value) (st : St)
    (h : value.isObject = false ∨ schema = .absent) :
    visit options schema value st = (value, st) := by
  rcases h with h | h
  · exact visit_of_not_isObject options schema value st h
  · rw [h, visit_absent]

theorem assign_split {α : Type} (L1 L2 : List (String × α)) (k : String) (v w : α)
    (h : k ∉ keys L1) : assign (L1 ++ (k, v) :: L2) k w = L1 ++ (k, w) :: L2 := by
  induction L1 with
  | nil => simp [assign]
  | cons kv rest ih =>
    obtain ⟨k0, v0⟩ := kv
    simp only [keys, List.map_cons, List.mem_cons, not_or] at h
    have e : assign ((k0, v0) :: (rest ++ (k, v) :: L2)) k w =
        (k0, v0) :: assign (rest ++ (k, v) :: L2) k w := by
      simp [assign, Ne.symm h.1]
    rw [List.cons_append, e, ih h.2, List.cons_append]

theorem split_of_lookup {α : Type} (fs : List (String × α)) (k : String) (v : α)
    (h : lookup k fs = some v) :
    ∃ L1 L2, fs = L1 ++ (k, v) :: L2 ∧ k ∉ keys L1 := by
  induction fs with
  | nil => simp [lookup] at h
  | cons kv rest ih =>
    obtain ⟨k0, v0⟩ := kv
    by_cases h0 : k0 = k
    · simp only [lookup, h0, if_true, Option.some.injEq] at h
      exact ⟨[], rest, by simp [h0, h], by simp [keys]⟩
    · simp only [lookup, h0, if_false] at h
      obtain ⟨L1, L2, h1, h2⟩ := ih h
      refine ⟨(k0, v0) :: L1, L2, by simp [h1], ?_⟩
      simp only [keys, List.map_cons, List.mem_cons, not_or]
      exact ⟨Ne.symm h0, h2⟩

/-- An entity record without `embedded` whose fields all pass through: the record itself is
merged into its slot. -/
theorem visit_entity_pass (k : String) (getId : Value → Value) (fields : String → Schema)
    (fs : Obj) (st : St) (hi : (getId (.obj fs)).isNullish = false)
    (he : hasOwn "embedded" fs = false) (hn : (keys fs).Nodup)
    (hp : ∀ kv ∈ fs, kv.2.isObject = false ∨ fields kv.1 = .absent) :
    visit defaultOptions (.entity k getId fields) (.obj fs) st =
      (getId (.obj fs),
        ⟨putSlot (ensureSlot st.bag k (toKey (getId (.obj fs)))) k (toKey (getId (.obj fs)))
            (defaultMergeIntoEntity
              (getSlot (ensureSlot st.bag k (toKey (getId (.obj fs)))) k
                (toKey (getId (.obj fs)))) fs k).1,
          st.log ++ (defaultMergeIntoEntity
              (getSlot (ensureSlot st.bag k (toKey (getId (.obj fs)))) k
                (toKey (getId (.obj fs)))) fs k).2⟩) := by
  have hnb : normalizedBeforeMerge defaultOptions k getId fields (.obj fs) st =
      (fs, ⟨ensureSlot st.bag k (toKey (getId (.obj fs))), st.log⟩) := by
    unfold normalizedBeforeMerge
    exact visitObject_pass _ fs _ he hn (fun kv hkv => visit_pass _ _ _ _ (hp kv hkv))
  rw [visit_entity defaultOptions k getId fields (.obj fs) st rfl,
    visitEntity_default k getId fields _ st hi, hnb]

theorem ensureSlot_nil (k i : String) : ensureSlot [] k i = [(k, [(i, [])])] := by
  simp [ensureSlot, hasOwn, lookup, assign, putSlot]

theorem ensureSlot_present (bag : Bag) (k i : String) (slots : List (String × Obj))
    (h1 : lookup k bag = some slots) (h2 : hasOwn i slots = true) : ensureSlot bag k i = bag := by
  simp only [hasOwn] at h2
  simp [ensureSlot, hasOwn, h1, h2]

/-- C5 (counterexample): `{id: 1, name: "A", embedded: {name: "Z"}}` and `{id: 1, name: "B"}`
have the same id and disagree on `name`, but the stored name is `"Z"`, not the first
record's `"A"`: the fields of `embedded` are folded over the record's own. -/
theorem merge_keeps_first_counterexample :
    lookup "name" [("id", Value.num 1), ("name", .str "A"),
      ("embedded", .obj [("name", .str "Z")])] = some (.str "A") ∧
    lookup "name" [("id", Value.num 1), ("name", .str "B")] = some (.str "B") ∧
    isEqual (.str "A") (.str "B") = false ∧
    ∃ out, normalize
        (.arr [.obj [("id", .num 1), ("name", .str "A"), ("embedded", .obj [("name", .str "Z")])],
          .obj [("id", .num 1), ("name", .str "B")]])
        (arrayOf (.entity "users" (Attr.read (.name "id")) Schema.noFields) none)
        defaultOptions = .ok out ∧
      cell out.entities "users" "1" "name" = some (.str "Z") :=
  ⟨rfl, rfl, rfl, _, rfl, rfl⟩

/-- C5 (amended): for an entity schema without field schemas and two records with the same
non-null id, neither with an own `embedded` field, that disagree on the field `f`, normalizing
`[r1, r2]` under `arrayOf(S)` stores the first record's value of `f`, and every field that only
the second record has is stored with the second record's value. -/
theorem merge_keeps_first (k : String) (getId : Value → Value) (a b : Obj) (f : String)
    (x y : Value) (hi : (getId (.obj a)).isNullish = false)
    (hid : getId (.obj b) = getId (.obj a))
    (hna : (keys a).Nodup) (hnb : (keys b).Nodup)
    (hea : hasOwn "embedded" a = false) (heb : hasOwn "embedded" b = false)
    (hx : lookup f a = some x) (hy : lookup f b = some y) (hxy : isEqual x y = false) :
    ∃ out, normalize (.arr [.obj a, .obj b]) (arrayOf (.entity k getId Schema.noFields) none)
        defaultOptions = .ok out ∧
      out.result = .arr [getId (.obj a), getId (.obj a)] ∧
      cell out.entities k (toKey (getId (.obj a))) f = some x ∧
      (∀ g c, lookup g a = none → lookup g b = some c →
        cell out.entities k (toKey (getId (.obj a))) g = some c) := by
  have hr : traversalRoot (.arr [.obj a, .obj b])
      (arrayOf (.entity k getId Schema.noFields) none) = .ok (.arr [.obj a, .obj b]) := by
    simp [traversalRoot, arrayOf_entity, hasOwnProperty_embedded_arr]
  have hib : (getId (.obj b)).isNullish = false := by rw [hid]; exact hi
  have hvis : visit defaultOptions (arrayOf (.entity k getId Schema.noFields) none)
      (.arr [.obj a, .obj b]) St.empty =
      (.arr [getId (.obj a), getId (.obj a)],
        ⟨[(k, [(toKey (getId (.obj a)), (defaultMergeIntoEntity a b k).1)])],
          (defaultMergeIntoEntity a b k).2⟩) := by
    rw [arrayOf_entity, visit_iterable defaultOptions _ _ (.arr [.obj a, .obj b]) _ rfl]
    simp only [visitIterable, mapArray, defaultMapper]
    rw [visit_entity_pass k getId _ a _ hi hea hna (fun _ _ => Or.inr rfl)]
    simp only [St.empty, ensureSlot_nil]
    rw [visit_entity_pass k getId _ b _ hib heb hnb (fun _ _ => Or.inr rfl)]
    simp only [hid]
    simp [getSlot, putSlot, lookup, assign, defaultMerge_nil a k hna, ensureSlot, hasOwn]
  refine ⟨_, normalize_of_root _ _ defaultOptions _ rfl rfl rfl hr, ?_, ?_, ?_⟩
  · rw [hvis]
  · simp only [hvis, cell, lookup, if_true, Option.bind]
    rw [lookup_defaultMerge a b k f hnb, hx, hy]
    simp [mergeCell, hxy]
  · intro g c hg hc
    simp only [hvis, cell, lookup, if_true, Option.bind]
    rw [lookup_defaultMerge a b k g hnb, hg, hc]
    rfl

/-- C5 (witness): `{id: 1, name: "A"}` then `{id: 1, name: "B"}` leaves the name `"A"`. -/
theorem merge_keeps_first_witness :
    ∃ out, normalize (.arr [.obj [("id", .num 1), ("name", .str "A")],
          .obj [("id", .num 1), ("name", .str "B")]])
        (arrayOf (.entity "users" (Attr.read (.name "id")) Schema.noFields) none)
        defaultOptions = .ok out ∧
      cell out.entities "users" "1" "name" = some (.str "A") := by
  obtain ⟨out, h1, _, h3, _⟩ := merge_keeps_first "users" (Attr.read (.name "id"))
    [("id", .num 1), ("name", .str "A")] [("id", .num 1), ("name", .str "B")] "name"
    (.str "A") (.str "B") rfl rfl (by decide) (by decide) rfl rfl rfl rfl rfl
  exact ⟨out, h1, h3⟩

/-- C1 (counterexample): in `{id: 1, name: "Alice", friend: {id: "1", name: "Bob"}}` the
nested record has the id `"1"`, which is different from the id `1` of the enclosing record,
but both ids are the same property key of the bag: `entities.users` has one record, not two,
and it is not the enclosing record with `friend` replaced. -/
theorem nested_entity_counterexample :
    Value.num 1 ≠ Value.str "1" ∧
    normalize
      (.obj [("id", .num 1), ("name", .str "Alice"),
        ("friend", .obj [("id", .str "1"), ("name", .str "Bob")])])
      (entitySchema "users"
        (Schema.fieldsOf [("friend", entitySchema "users" Schema.noFields (.name "id"))])
        (.name "id"))
      defaultOptions =
    .ok ⟨[("users", [("1", [("id", .str "1"), ("name", .str "Bob"), ("friend", .str "1")])])],
      .num 1⟩ := by
  refine ⟨?_, rfl⟩
  intro h
  cases h

/-- C1 (amended): let `U` be an entity schema of type key `k` whose field map sends `f` to an
entity schema of the same type key, `r` a record with non-null id `i` whose field `f` holds a
record `r'` with non-null id `j`, the property keys of `i` and `j` being different; every
other field of `r` and every field of `r'` is a scalar or has no schema, and neither record
has an own `embedded` field. Then `normalize(r, U)` returns the result `i` and a bag whose only
type key is `k`, with exactly two records: `r` with `f` replaced by `j` under `i`, and `r'`
under `j`. -/
theorem normalize_nested_entity (k : String) (getId getId' : Value → Value)
    (fields fields' : String → Schema) (f : String) (fs fs' : Obj)
    (hU : fields f = .entity k getId' fields')
    (hf : lookup f fs = some (.obj fs'))
    (hi : (getId (.obj fs)).isNullish = false) (hj : (getId' (.obj fs')).isNullish = false)
    (hij : toKey (getId (.obj fs)) ≠ toKey (getId' (.obj fs')))
    (hn : (keys fs).Nodup) (hn' : (keys fs').Nodup)
    (he : hasOwn "embedded" fs = false) (he' : hasOwn "embedded" fs' = false)
    (hs : ∀ kv ∈ fs, kv.1 ≠ f → kv.2.isObject = false ∨ fields kv.1 = .absent)
    (hs' : ∀ kv ∈ fs', kv.2.isObject = false ∨ fields' kv.1 = .absent) :
    normalize (.obj fs) (.entity k getId fields) defaultOptions =
      .ok ⟨[(k, [(toKey (getId (.obj fs)), assign fs f (getId' (.obj fs'))),
                 (toKey (getId' (.obj fs')), fs')])],
        getId (.obj fs)⟩ := by
  obtain ⟨L1, L2, hsplit, hL1⟩ := split_of_lookup fs f _ hf
  subst hsplit
  have hr : traversalRoot (.obj (L1 ++ (f, .obj fs') :: L2)) (.entity k getId fields) =
      .ok (.obj (L1 ++ (f, .obj fs') :: L2)) := by
    simp [traversalRoot]
  -- the nested record
  have hnested : ∀ log, visit defaultOptions (fields f) (.obj fs')
        ⟨[(k, [(toKey (getId (.obj (L1 ++ (f, .obj fs') :: L2))), [])])], log⟩ =
      (getId' (.obj fs'),
        ⟨[(k, [(toKey (getId (.obj (L1 ++ (f, .obj fs') :: L2))), []),
          (toKey (getId' (.obj fs')), fs')])], log⟩) := by
    intro log
    rw [hU, visit_entity_pass k getId' fields' fs' _ hj he' hn' hs']
    simp [ensureSlot, hasOwn, lookup, assign, putSlot, getSlot, hij, Ne.symm hij,
      defaultMerge_nil fs' k hn']
  -- the fields of the enclosing record
  have hkeys : keys (L1 ++ (f, Value.obj fs') :: L2) = keys L1 ++ f :: keys L2 := by
    simp [keys]
  have hnod := hn
  rw [hkeys] at hnod
  have hL2 : f ∉ keys L2 := by
    have := (List.nodup_append.1 hnod).2.1
    exact (List.nodup_cons.1 this).1
  have hnb : normalizedBeforeMerge defaultOptions k getId fields
        (.obj (L1 ++ (f, .obj fs') :: L2)) St.empty =
      (assign (L1 ++ (f, .obj fs') :: L2) f (getId' (.obj fs')),
        ⟨[(k, [(toKey (getId (.obj (L1 ++ (f, .obj fs') :: L2))), []),
          (toKey (getId' (.obj fs')), fs')])], []⟩) := by
    simp only [normalizedBeforeMerge, visitObject, hasOwnProperty_embedded_obj, he,
      Value.entries, filter_not_embedded _ he, St.empty, ensureSlot_nil]
    have hp1 : ∀ st, ∀ kv ∈ L1, (fun g => visit defaultOptions (fields g)) kv.1 kv.2 st =
        (kv.2, st) := by
      intro st kv hkv
      refine visit_pass _ _ _ _ (hs kv (by simp [hkv]) ?_)
      rintro rfl
      exact hL1 (List.mem_map.2 ⟨kv, hkv, rfl⟩)
    have hp2 : ∀ st, ∀ kv ∈ L2, (fun g => visit defaultOptions (fields g)) kv.1 kv.2 st =
        (kv.2, st) := by
      intro st kv hkv
      refine visit_pass _ _ _ _ (hs kv (by simp [hkv]) ?_)
      rintro rfl
      exact hL2 (List.mem_map.2 ⟨kv, hkv, rfl⟩)
    have hn1 : (keys L1).Nodup := (List.nodup_append.1 hnod).1
    have hn2 : (keys L2).Nodup := (List.nodup_cons.1 (List.nodup_append.1 hnod).2.1).2
    have hd2 : ∀ g ∈ keys L2, g ∉ keys (L1 ++ [(f, getId' (.obj fs'))]) := by
      intro g hg hm
      simp only [keys, List.map_append, List.mem_append, List.map_cons, List.map_nil,
        List.mem_singleton] at hm
      rcases hm with hm | rfl
      · exact (List.nodup_append.1 hnod).2.2 hm (List.mem_cons_of_mem _ hg)
      · exact hL2 hg
    rw [List.foldl_append, visitProp_fold_pass _ L1 [] _ (hp1 _),
      assign_fold_disjoint L1 [] hn1 (by simp [keys]), List.foldl_cons]
    simp only [visitProp, assign_defaultOptions, List.nil_append, hnested]
    rw [assign_of_not_mem _ _ _ hL1, visitProp_fold_pass _ L2 _ _ (hp2 _),
      assign_fold_disjoint L2 _ hn2 hd2, assign_split _ _ _ _ _ hL1]
    simp
  have hnn : (keys (assign (L1 ++ (f, Value.obj fs') :: L2) f (getId' (.obj fs')))).Nodup :=
    nodup_keys_assign _ _ _ hn
  rw [normalize_of_root (.obj (L1 ++ (f, .obj fs') :: L2)) (.entity k getId fields)
      defaultOptions _ rfl rfl rfl hr,
    visit_entity defaultOptions k getId fields (.obj (L1 ++ (f, .obj fs') :: L2)) St.empty rfl,
    visitEntity_default k getId fields _ St.empty hi, hnb]
  simp [getSlot, putSlot, lookup, assign, hij, defaultMerge_nil _ k hnn]

/-- C1 (witness): `{id: 1, name: "Alice", friend: {id: 2, name: "Bob"}}` with `friend` mapped
to the `users` schema. -/
theorem normalize_nested_entity_witness :
    normalize
      (.obj [("id", .num 1), ("name", .str "Alice"),
        ("friend", .obj [("id", .num 2), ("name", .str "Bob")])])
      (.entity "users" (Attr.read (.name "id"))
        (Schema.fieldsOf [("friend", .entity "users" (Attr.read (.name "id")) Schema.noFields)]))
      defaultOptions =
    .ok ⟨[("users", [("1", [("id", .num 1), ("name", .str "Alice"), ("friend", .num 2)]),
        ("2", [("id", .num 2), ("name", .str "Bob")])])], .num 1⟩ :=
  normalize_nested_entity "users" (Attr.read (.name "id")) (Attr.read (.name "id"))
    (Schema.fieldsOf [("friend", .entity "users" (Attr.read (.name "id")) Schema.noFields)])
    Schema.noFields "friend"
    [("id", .num 1), ("name", .str "Alice"),
      ("friend", .obj [("id", .num 2), ("name", .str "Bob")])]
    [("id", .num 2), ("name", .str "Bob")]
    rfl rfl rfl rfl (by decide) (by decide) (by decide) rfl rfl
    (by
      intro kv hkv hne
      simp only [List.mem_cons, List.mem_singleton, List.not_mem_nil, or_false] at hkv
      rcases hkv with rfl | rfl | rfl
      · exact Or.inl rfl
      · exact Or.inl rfl
      · exact absurd rfl hne)
    (fun _ _ => Or.inr rfl)

/-! ## A traversal is a fixed sequence of changes of the bag -/

theorem applyOps_append (ops1 ops2 : List Op) (bag : Bag) :
    applyOps (ops1 ++ ops2) bag = applyOps ops2 (applyOps ops1 bag) := by
  simp [applyOps, List.foldl_append]

theorem OpsOk_append {ops1 ops2 : List Op} (h1 : OpsOk ops1) (h2 : OpsOk ops2) :
    OpsOk (ops1 ++ ops2) := by
  intro k i N h
  rcases List.mem_append.1 h with h | h
  · exact h1 k i N h
  · exact h2 k i N h

theorem OpsOk_nil : OpsOk [] := by
  intro k i N h
  simp at h

theorem traced_pure {α : Type} (x : α) : Traced (fun st : St => (x, st)) :=
  ⟨x, [], OpsOk_nil, fun _ => ⟨rfl, rfl⟩⟩

theorem traced_bind {α β : Type} {f : St → α × St} {g : α → St → β × St}
    (hf : Traced f) (hg : ∀ a, Traced (g a)) : Traced (fun st => g (f st).1 (f st).2) := by
  obtain ⟨a, ops1, ok1, h1⟩ := hf
  obtain ⟨b, ops2, ok2, h2⟩ := hg a
  refine ⟨b, ops1 ++ ops2, OpsOk_append ok1 ok2, fun st => ?_⟩
  show (g (f st).1 (f st).2).1 = b ∧ (g (f st).1 (f st).2).2.bag = applyOps (ops1 ++ ops2) st.bag
  rw [(h1 st).1, applyOps_append, ← (h1 st).2]
  exact h2 _

theorem traced_map {α β : Type} {f : St → α × St} (hf : Traced f) (m : α → β) :
    Traced (fun st => (m (f st).1, (f st).2)) :=
  traced_bind hf (fun a => traced_pure (m a))

theorem traced_congr {α : Type} {f g : St → α × St} (hf : Traced f) (h : ∀ st, g st = f st) :
    Traced g := by
  have : g = f := funext h
  rw [this]
  exact hf

theorem traced_visitProp_fold (child : String → Value → St → Value × St)
    (hc : ∀ key x, Traced (child key x)) (L : Obj) (acc : Obj) :
    Traced (fun st => L.foldl (visitProp child defaultOptions) (acc, st)) := by
  induction L generalizing acc with
  | nil => exact traced_pure acc
  | cons kv rest ih =>
    have := traced_bind (hc kv.1 kv.2) (fun a => ih (assign acc kv.1 a))
    exact traced_congr this (fun st => by simp [visitProp, assign_defaultOptions])

theorem traced_visitObject (child : String → Value → St → Value × St)
    (hc : ∀ key x, Traced (child key x)) (value : Value) :
    Traced (visitObject child value defaultOptions) := by
  have hmain := traced_visitProp_fold child hc
    (value.entries.filter (fun kv => kv.1 != "embedded")) []
  by_cases he : value.hasOwnProperty "embedded" = true
  · have := traced_bind hmain
      (fun a => traced_visitProp_fold child hc (value.get "embedded").entries a)
    exact traced_congr this (fun st => by simp [visitObject, he])
  · exact traced_congr hmain (fun st => by simp [visitObject, he])

theorem traced_mapArray (f : Value → St → Value × St) (hf : ∀ x, Traced (f x))
    (xs : List Value) : Traced (mapArray f xs) := by
  induction xs with
  | nil => exact traced_congr (traced_pure []) (fun _ => rfl)
  | cons x xs ih =>
    have := traced_bind (hf x) (fun a => traced_map ih (fun rs => a :: rs))
    exact traced_congr this (fun _ => rfl)

theorem traced_mapValues (f : Value → St → Value × St) (hf : ∀ x, Traced (f x))
    (fs : Obj) : Traced (mapValues f fs) := by
  induction fs with
  | nil => exact traced_congr (traced_pure []) (fun _ => rfl)
  | cons kv fs ih =>
    obtain ⟨k, x⟩ := kv
    have := traced_bind (hf x) (fun a => traced_map ih (fun rs => (k, a) :: rs))
    exact traced_congr this (fun _ => rfl)

theorem traced_visitIterable (visitItem : Value → St → Value × St)
    (hf : ∀ x, Traced (visitItem x)) (value : Value) :
    Traced (visitIterable visitItem value) := by
  cases value with
  | arr xs =>
    exact traced_congr (traced_map (traced_mapArray (defaultMapper visitItem) hf xs) Value.arr)
      (fun _ => rfl)
  | undefined =>
    exact traced_congr (traced_map (traced_mapValues (defaultMapper visitItem) hf
      Value.undefined.entries) Value.obj) (fun _ => rfl)
  | null =>
    exact traced_congr (traced_map (traced_mapValues (defaultMapper visitItem) hf
      Value.null.entries) Value.obj) (fun _ => rfl)
  | bool b =>
    exact traced_congr (traced_map (traced_mapValues (defaultMapper visitItem) hf
      (Value.bool b).entries) Value.obj) (fun _ => rfl)
  | num n =>
    exact traced_congr (traced_map (traced_mapValues (defaultMapper visitItem) hf
      (Value.num n).entries) Value.obj) (fun _ => rfl)
  | str s =>
    exact traced_congr (traced_map (traced_mapValues (defaultMapper visitItem) hf
      (Value.str s).entries) Value.obj) (fun _ => rfl)
  | obj fs =>
    exact traced_congr (traced_map (traced_mapValues (defaultMapper visitItem) hf
      (Value.obj fs).entries) Value.obj) (fun _ => rfl)

theorem traced_visitUnion (getSchemaKey : Value → Value)
    (visitKeyed : String → Value → St → Value × St) (hf : ∀ key x, Traced (visitKeyed key x))
    (value : Value) : Traced (visitUnion getSchemaKey visitKeyed value) :=
  traced_congr (traced_map (hf (toKey (getSchemaKey value)) value)
    (fun r => Value.obj [("id", r), ("schema", getSchemaKey value)])) (fun _ => rfl)

theorem traced_visitEntity (key : String) (getId : Value → Value)
    (child : String → Value → St → Value × St) (hc : ∀ k x, Traced (child k x))
    (entity : Value) : Traced (visitEntity key getId child entity defaultOptions) := by
  by_cases hi : (getId entity).isNullish = true
  · exact traced_congr (traced_map (traced_visitObject child hc entity) Value.obj)
      (fun st => by simp [visitEntity, hi])
  · obtain ⟨N, ops, ok, h⟩ := traced_visitObject child hc entity
    have hN : (keys N).Nodup := by
      rw [← (h St.empty).1]
      exact nodup_keys_visitObject child entity St.empty
    refine ⟨getId entity,
      Op.ensure key (toKey (getId entity)) :: (ops ++ [Op.merge key (toKey (getId entity)) N]),
      ?_, fun st => ?_⟩
    · intro k i M hM
      simp only [List.mem_cons, List.mem_append, List.mem_singleton, List.not_mem_nil,
        or_false] at hM
      rcases hM with hM | hM | hM
      · cases hM
      · exact ok k i M hM
      · cases hM
        exact hN
    · have h1 := h ⟨ensureSlot st.bag key (toKey (getId entity)), st.log⟩
      simp only [visitEntity, hi, merge_defaultOptions]
      refine ⟨by simp, ?_⟩
      simp only [Bool.not_false, if_true, applyOps, List.foldl_cons, List.foldl_append,
        List.foldl_nil, applyOp]
      rw [h1.1, h1.2]
      rfl

/-- Every traversal under the default policies returns a result that does not depend on the
bag, and changes the bag by a fixed sequence of slot creations and merges. -/
theorem traced_visit (schema : Schema) : ∀ value, Traced (visit defaultOptions schema value) := by
  induction schema with
  | absent => exact fun value => traced_congr (traced_pure value) (fun _ => by simp [visit])
  | entity key getId fields ih =>
    intro value
    by_cases hv : value.isObject = true
    · exact traced_congr (traced_visitEntity key getId _ (fun k x => ih k x) value)
        (fun st => visit_entity _ _ _ _ _ _ hv)
    · exact traced_congr (traced_pure value)
        (fun st => visit_of_not_isObject _ _ _ _ (by simpa using hv))
  | iterable itemSchema g ih =>
    intro value
    by_cases hv : value.isObject = true
    · exact traced_congr (traced_visitIterable _ ih value)
        (fun st => visit_iterable _ _ _ _ _ hv)
    · exact traced_congr (traced_pure value)
        (fun st => visit_of_not_isObject _ _ _ _ (by simpa using hv))
  | union itemSchema getSchemaKey ih =>
    intro value
    by_cases hv : value.isObject = true
    · exact traced_congr (traced_visitUnion getSchemaKey _ (fun k x => ih k x) value)
        (fun st => visit_union _ _ _ _ _ hv)
    · exact traced_congr (traced_pure value)
        (fun st => visit_of_not_isObject _ _ _ _ (by simpa using hv))
  | fieldMap fields ih =>
    intro value
    by_cases hv : value.isObject = true
    · exact traced_congr (traced_map (traced_visitObject _ (fun k x => ih k x) value) Value.obj)
        (fun st => visit_fieldMap _ _ _ _ hv)
    · exact traced_congr (traced_pure value)
        (fun st => visit_of_not_isObject _ _ _ _ (by simpa using hv))
  | array items ih =>
    intro value
    by_cases hv : value.isObject = true
    · exact traced_congr (traced_map (traced_visitObject _ (fun k x => ih k x) value) Value.obj)
        (fun st => visit_array _ _ _ _ hv)
    · exact traced_congr (traced_pure value)
        (fun st => visit_of_not_isObject _ _ _ _ (by simpa using hv))

/-! ## The bag, slot by slot and field by field -/

theorem getSlot_eq (bag : Bag) (k i : String) :
    getSlot bag k i = (lookup i (slotsOf bag k)).getD [] := by
  unfold getSlot slotsOf
  cases lookup k bag <;> simp [lookup]

theorem cell_eq (bag : Bag) (k i f : String) : cell bag k i f = lookup f (getSlot bag k i) := by
  unfold cell getSlot
  cases (lookup k bag).bind (lookup i) <;> simp [lookup]

theorem slotsOf_assign (bag : Bag) (k k' : String) (s : List (String × Obj)) :
    slotsOf (assign bag k s) k' = if k' = k then s else slotsOf bag k' := by
  unfold slotsOf
  by_cases h : k' = k
  · subst h
    simp [lookup_assign_self]
  · simp [lookup_assign_ne _ _ h, h]

theorem slotsOf_putSlot (bag : Bag) (k i k' : String) (record : Obj) :
    slotsOf (putSlot bag k i record) k' =
      if k' = k then assign (slotsOf bag k) i record else slotsOf bag k' := by
  unfold putSlot
  rw [slotsOf_assign]
  rfl

theorem getSlot_putSlot_eq (bag : Bag) (k i k' i' : String) (record : Obj) :
    getSlot (putSlot bag k i record) k' i' =
      if k' = k ∧ i' = i then record else getSlot bag k' i' := by
  rw [getSlot_eq, slotsOf_putSlot, getSlot_eq]
  by_cases hk : k' = k
  · subst hk
    by_cases hi : i' = i
    · subst hi
      simp [lookup_assign_self]
    · simp [hi, lookup_assign_ne _ _ hi]
  · simp [hk]

theorem keys_putSlot (bag : Bag) (k i : String) (record : Obj) :
    keys (putSlot bag k i record) = if k ∈ keys bag then keys bag else keys bag ++ [k] := by
  unfold putSlot
  rw [keys_assign]

theorem hasOwn_eq_decide {α : Type} (k : String) (o : List (String × α)) :
    hasOwn k o = decide (k ∈ keys o) := by
  unfold hasOwn
  by_cases h : k ∈ keys o
  · simp [h, (lookup_isSome_iff o k).2 h]
  · have : lookup k o = none := (lookup_eq_none_iff o k).2 h
    simp [h, this]

theorem slotsOf_of_not_mem (bag : Bag) (k : String) (h : k ∉ keys bag) : slotsOf bag k = [] := by
  unfold slotsOf
  rw [(lookup_eq_none_iff bag k).2 h]
  rfl

theorem slotsOf_ensureSlot (bag : Bag) (k i k' : String) :
    slotsOf (ensureSlot bag k i) k' =
      if k' = k ∧ i ∉ keys (slotsOf bag k) then assign (slotsOf bag k) i [] else slotsOf bag k' := by
  have h1 : ∀ k'', slotsOf (if k ∈ keys bag then bag else assign bag k []) k'' =
      slotsOf bag k'' := by
    intro k''
    by_cases hk : k ∈ keys bag
    · simp [hk]
    · simp only [hk, if_false, slotsOf_assign]
      split
      · rename_i e
        rw [e, slotsOf_of_not_mem bag k hk]
      · rfl
  have h2 : ensureSlot bag k i =
      if i ∈ keys (slotsOf (if k ∈ keys bag then bag else assign bag k []) k) then
        (if k ∈ keys bag then bag else assign bag k [])
      else putSlot (if k ∈ keys bag then bag else assign bag k []) k i [] := by
    simp [ensureSlot, hasOwn_eq_decide, slotsOf]
  rw [h2, h1 k]
  by_cases hi : i ∈ keys (slotsOf bag k)
  · simp [hi, h1]
  · simp [hi, slotsOf_putSlot, h1]

theorem getSlot_ensureSlot (bag : Bag) (k i k' i' : String) :
    getSlot (ensureSlot bag k i) k' i' = getSlot bag k' i' := by
  rw [getSlot_eq, getSlot_eq, slotsOf_ensureSlot]
  split
  · rename_i h
    obtain ⟨rfl, hi⟩ := h
    by_cases e : i' = i
    · subst e
      rw [lookup_assign_self, (lookup_eq_none_iff _ _).2 hi]
      rfl
    · rw [lookup_assign_ne _ _ e]
  · rfl

theorem keys_ensureSlot (bag : Bag) (k i : String) :
    keys (ensureSlot bag k i) = if k ∈ keys bag then keys bag else keys bag ++ [k] := by
  unfold ensureSlot
  simp only []
  by_cases hk : k ∈ keys bag
  · simp only [hasOwn_eq_decide, hk, decide_True, if_true]
    split
    · rfl
    · rw [keys_putSlot, if_pos hk]
  · have hk2 : k ∈ keys (assign bag k ([] : List (String × Obj))) :=
      (mem_keys_assign _ _ _ _).2 (Or.inl rfl)
    simp only [hasOwn_eq_decide, hk, decide_False, Bool.false_eq_true, if_false]
    split
    · rw [keys_assign, if_neg hk]
    · rw [keys_putSlot, if_pos hk2, keys_assign, if_neg hk]

theorem cell_applyOp (bag : Bag) (op : Op) (k i f : String) (hop : OpsOk [op]) :
    cell (applyOp bag op) k i f = runCell (cell bag k i f) (cands k i f [op]) := by
  cases op with
  | ensure k' i' =>
    simp [applyOp, cell_eq, getSlot_ensureSlot, cands, runCell]
  | merge k' i' N =>
    have hN : (keys N).Nodup := hop k' i' N (by simp)
    simp only [applyOp, cell_eq, getSlot_putSlot_eq, cands]
    by_cases h : k = k' ∧ i = i'
    · obtain ⟨rfl, rfl⟩ := h
      simp only [and_self, if_true]
      rw [lookup_defaultMerge _ _ _ _ hN]
      cases lookup f N <;> simp [runCell, mergeCell]
    · have h' : ¬ (k' = k ∧ i' = i) := fun e => h ⟨e.1.symm, e.2.symm⟩
      simp [h, h', runCell]

theorem cands_append (k i f : String) (ops1 ops2 : List Op) :
    cands k i f (ops1 ++ ops2) = cands k i f ops1 ++ cands k i f ops2 := by
  induction ops1 with
  | nil => rfl
  | cons op rest ih =>
    cases op with
    | ensure k' i' => simpa [cands] using ih
    | merge k' i' N =>
      simp only [List.cons_append, cands]
      split
      · split <;> simp [ih]
      · exact ih

theorem runCell_append (x : Option Value) (cs1 cs2 : List Value) :
    runCell x (cs1 ++ cs2) = runCell (runCell x cs1) cs2 := by
  simp [runCell, List.foldl_append]

theorem OpsOk_cons {op : Op} {ops : List Op} (h : OpsOk (op :: ops)) :
    OpsOk [op] ∧ OpsOk ops :=
  ⟨fun k i N hm => h k i N (by simp at hm; simp [hm]),
    fun k i N hm => h k i N (List.mem_cons_of_mem _ hm)⟩

/-- A stored field after a sequence of changes is the default merge of the values the
sequence brings for it. -/
theorem cell_applyOps (ops : List Op) (bag : Bag) (k i f : String) (hops : OpsOk ops) :
    cell (applyOps ops bag) k i f = runCell (cell bag k i f) (cands k i f ops) := by
  induction ops generalizing bag with
  | nil => rfl
  | cons op rest ih =>
    have h := OpsOk_cons hops
    have e : applyOps (op :: rest) bag = applyOps rest (applyOp bag op) := rfl
    rw [e, ih _ h.2, cell_applyOp bag op k i f h.1,
      show op :: rest = [op] ++ rest from rfl, cands_append, runCell_append]

/-! ## Merging the same values twice -/

theorem runCell_some_equiv (cs : List Value) (a : Value) :
    ∃ w, runCell (some a) cs = some w ∧ isEqual a w = true := by
  induction cs generalizing a with
  | nil => exact ⟨a, rfl, isEqual_refl a⟩
  | cons c cs ih =>
    by_cases h : isEqual a c = true
    · obtain ⟨w, h1, h2⟩ := ih c
      exact ⟨w, by simpa [runCell, mergeCell, h] using h1, isEqual_trans _ _ _ h h2⟩
    · obtain ⟨w, h1, h2⟩ := ih a
      exact ⟨w, by simpa [runCell, mergeCell, h] using h1, h2⟩

theorem runCell_congr (cs : List Value) (u v : Value) (h : isEqual u v = true) :
    runCell (some u) cs = runCell (some v) cs ∨
      (runCell (some u) cs = some u ∧ runCell (some v) cs = some v) := by
  induction cs generalizing u v with
  | nil => exact Or.inr ⟨rfl, rfl⟩
  | cons c cs ih =>
    by_cases hu : isEqual u c = true
    · have hv : isEqual v c = true := isEqual_trans _ _ _ (isEqual_symm _ _ h) hu
      left
      simp [runCell, mergeCell, hu, hv]
    · have hv : ¬ isEqual v c = true := fun e => hu (isEqual_trans _ _ _ h e)
      have := ih u v h
      simpa [runCell, mergeCell, hu, hv] using this

/-- Merging a sequence of incoming values a second time changes nothing. -/
theorem runCell_idem (cs : List Value) : runCell (runCell none cs) cs = runCell none cs := by
  cases cs with
  | nil => rfl
  | cons c cs =>
    obtain ⟨w, h1, h2⟩ := runCell_some_equiv cs c
    have e1 : runCell none (c :: cs) = some w := by
      simpa [runCell, mergeCell] using h1
    rw [e1]
    have e2 : runCell (some w) (c :: cs) = runCell (some c) cs := by
      simp [runCell, mergeCell, isEqual_symm _ _ h2]
    rw [e2, h1]

/-! ## The names in the bag -/

theorem ext_of_keys {α : Type} (a b : List (String × α)) (hk : keys a = keys b)
    (hn : (keys a).Nodup) (hl : ∀ k, lookup k a = lookup k b) : a = b := by
  induction a generalizing b with
  | nil =>
    cases b with
    | nil => rfl
    | cons kv rest => simp [keys] at hk
  | cons kv rest ih =>
    obtain ⟨k, v⟩ := kv
    cases b with
    | nil => simp [keys] at hk
    | cons kv' rest' =>
      obtain ⟨k', v'⟩ := kv'
      simp only [keys, List.map_cons, List.cons.injEq] at hk
      obtain ⟨rfl, hk2⟩ := hk
      simp only [keys, List.map_cons, List.nodup_cons] at hn
      have hv := hl k
      simp only [lookup, if_true, Option.some.injEq] at hv
      subst hv
      have hrest : rest = rest' := by
        refine ih rest' hk2 hn.2 (fun x => ?_)
        by_cases hx : k = x
        · subst hx
          have h1 : lookup k rest = none := (lookup_eq_none_iff _ _).2 hn.1
          have h2 : lookup k rest' = none :=
            (lookup_eq_none_iff _ _).2 (by simpa [keys, ← hk2] using hn.1)
          rw [h1, h2]
        · have := hl x
          simpa [lookup, hx] using this
      rw [hrest]

theorem lookup_slotsOf_of_mem (bag : Bag) (k i : String) (h : i ∈ keys (slotsOf bag k)) :
    lookup i (slotsOf bag k) = some (getSlot bag k i) := by
  rw [getSlot_eq]
  cases hl : lookup i (slotsOf bag k) with
  | none => exact absurd h ((lookup_eq_none_iff _ _).1 hl)
  | some r => rfl

theorem lookup_of_mem_keys_bag (bag : Bag) (k : String) (h : k ∈ keys bag) :
    lookup k bag = some (slotsOf bag k) := by
  unfold slotsOf
  cases hl : lookup k bag with
  | none => exact absurd h ((lookup_eq_none_iff _ _).1 hl)
  | some r => rfl

/-- Bags with the same names and the same stored values are equal. -/
theorem bag_ext (b b' : Bag) (hs : SameKeys b b') (hw : BagWF b)
    (hc : ∀ k i f, cell b k i f = cell b' k i f) : b = b' := by
  obtain ⟨hs1, hs2, hs3⟩ := hs
  obtain ⟨hw1, hw2, hw3⟩ := hw
  have h3 : ∀ k i, getSlot b k i = getSlot b' k i := fun k i =>
    ext_of_keys _ _ (hs3 k i) (hw3 k i) (fun f => by rw [← cell_eq, ← cell_eq, hc])
  have h2 : ∀ k, slotsOf b k = slotsOf b' k := fun k =>
    ext_of_keys _ _ (hs2 k) (hw2 k) (fun i => by
      by_cases hi : i ∈ keys (slotsOf b k)
      · rw [lookup_slotsOf_of_mem b k i hi, lookup_slotsOf_of_mem b' k i (hs2 k ▸ hi), h3]
      · rw [(lookup_eq_none_iff _ _).2 hi, (lookup_eq_none_iff _ _).2 (hs2 k ▸ hi)])
  exact ext_of_keys _ _ hs1 hw1 (fun k => by
    by_cases hk : k ∈ keys b
    · rw [lookup_of_mem_keys_bag b k hk, lookup_of_mem_keys_bag b' k (hs1 ▸ hk), h2]
    · rw [(lookup_eq_none_iff _ _).2 hk, (lookup_eq_none_iff _ _).2 (hs1 ▸ hk)])

theorem nodup_append_singleton (l : List String) (k : String) (h : l.Nodup) (hk : k ∉ l) :
    (l ++ [k]).Nodup :=
  List.nodup_append.2 ⟨h, List.nodup_singleton k, by
    intro a ha hb
    simp at hb
    exact hk (hb ▸ ha)⟩

theorem BagWF_nil : BagWF [] := by
  refine ⟨by simp [keys], fun k => by simp [slotsOf, lookup, keys], fun k i => ?_⟩
  simp [getSlot, lookup, keys]

theorem BagWF_applyOp (bag : Bag) (op : Op) (h : BagWF bag) : BagWF (applyOp bag op) := by
  obtain ⟨h1, h2, h3⟩ := h
  cases op with
  | ensure k i =>
    refine ⟨?_, fun k' => ?_, fun k' i' => ?_⟩
    · simp only [applyOp, keys_ensureSlot]
      split
      · exact h1
      · rename_i hk
        exact nodup_append_singleton _ _ h1 hk
    · simp only [applyOp, slotsOf_ensureSlot]
      split
      · exact nodup_keys_assign _ _ _ (h2 k)
      · exact h2 k'
    · simp only [applyOp, getSlot_ensureSlot]
      exact h3 k' i'
  | merge k i N =>
    refine ⟨?_, fun k' => ?_, fun k' i' => ?_⟩
    · simp only [applyOp, keys_putSlot]
      split
      · exact h1
      · rename_i hk
        exact nodup_append_singleton _ _ h1 hk
    · simp only [applyOp, slotsOf_putSlot]
      split
      · exact nodup_keys_assign _ _ _ (h2 k)
      · exact h2 k'
    · simp only [applyOp, getSlot_putSlot_eq]
      split
      · exact nodup_keys_merge_fold k N (getSlot bag k i, []) (h3 k i)
      · exact h3 k' i'

theorem BagWF_applyOps (ops : List Op) (bag : Bag) (h : BagWF bag) :
    BagWF (applyOps ops bag) := by
  induction ops generalizing bag with
  | nil => exact h
  | cons op rest ih => exact ih _ (BagWF_applyOp bag op h)

theorem keys_merge_fold_of_subset (entityKey : String) (B : Obj) (acc : Obj × List Warning)
    (h : ∀ f ∈ keys B, f ∈ keys acc.1) :
    keys (B.foldl (mergeStep entityKey) acc).1 = keys acc.1 := by
  induction B generalizing acc with
  | nil => rfl
  | cons kv rest ih =>
    have hk : kv.1 ∈ keys acc.1 := h kv.1 (by simp [keys])
    have hstep : keys (mergeStep entityKey acc kv).1 = keys acc.1 := by
      simp only [mergeStep]
      cases hl : lookup kv.1 acc.1 with
      | none => exact absurd hk ((lookup_eq_none_iff _ _).1 hl)
      | some a =>
        by_cases he : isEqual a kv.2 = true
        · simp only [he, if_true]
          rw [keys_assign, if_pos hk]
        · simp [he]
    rw [List.foldl_cons, ih, hstep]
    intro f hf
    rw [hstep]
    exact h f (by simp only [keys, List.map_cons, List.mem_cons] at hf ⊢; exact Or.inr hf)

theorem SameKeys_of_covers (bag : Bag) (op : Op) (h : Covers bag op) :
    SameKeys (applyOp bag op) bag := by
  cases op with
  | ensure k i =>
    obtain ⟨hk, hi⟩ := h
    refine ⟨?_, fun k' => ?_, fun k' i' => ?_⟩
    · simp [applyOp, keys_ensureSlot, hk]
    · simp [applyOp, slotsOf_ensureSlot, hi]
    · simp [applyOp, getSlot_ensureSlot]
  | merge k i N =>
    obtain ⟨hk, hi, hf⟩ := h
    refine ⟨?_, fun k' => ?_, fun k' i' => ?_⟩
    · simp [applyOp, keys_putSlot, hk]
    · simp only [applyOp, slotsOf_putSlot]
      split
      · rename_i e
        rw [keys_assign, if_pos hi, e]
      · rfl
    · simp only [applyOp, getSlot_putSlot_eq]
      split
      · rename_i e
        rw [e.1, e.2]
        exact keys_merge_fold_of_subset k N (getSlot bag k i, []) hf
      · rfl

theorem mem_keys_applyOp (bag : Bag) (op : Op) (x : String) (h : x ∈ keys bag) :
    x ∈ keys (applyOp bag op) := by
  cases op with
  | ensure k i =>
    simp only [applyOp, keys_ensureSlot]
    split
    · exact h
    · exact List.mem_append_left _ h
  | merge k i N =>
    simp only [applyOp, keys_putSlot]
    split
    · exact h
    · exact List.mem_append_left _ h

theorem mem_slots_applyOp (bag : Bag) (op : Op) (k x : String)
    (h : x ∈ keys (slotsOf bag k)) : x ∈ keys (slotsOf (applyOp bag op) k) := by
  cases op with
  | ensure k' i =>
    simp only [applyOp, slotsOf_ensureSlot]
    split
    · rename_i e
      rw [e.1] at h
      exact (mem_keys_assign _ _ _ _).2 (Or.inr h)
    · exact h
  | merge k' i N =>
    simp only [applyOp, slotsOf_putSlot]
    split
    · rename_i e
      rw [e] at h
      exact (mem_keys_assign _ _ _ _).2 (Or.inr h)
    · exact h

theorem mem_fields_applyOp (bag : Bag) (op : Op) (k i x : String)
    (h : x ∈ keys (getSlot bag k i)) : x ∈ keys (getSlot (applyOp bag op) k i) := by
  cases op with
  | ensure k' i' =>
    simp only [applyOp, getSlot_ensureSlot]
    exact h
  | merge k' i' N =>
    simp only [applyOp, getSlot_putSlot_eq]
    split
    · rename_i e
      rw [e.1, e.2] at h
      exact (mem_keys_merge_fold _ _ _ _).2 (Or.inl h)
    · exact h

theorem Covers_mono (bag : Bag) (op op' : Op) (h : Covers bag op') :
    Covers (applyOp bag op) op' := by
  cases op' with
  | ensure k i =>
    exact ⟨mem_keys_applyOp _ _ _ h.1, mem_slots_applyOp _ _ _ _ h.2⟩
  | merge k i N =>
    exact ⟨mem_keys_applyOp _ _ _ h.1, mem_slots_applyOp _ _ _ _ h.2.1,
      fun f hf => mem_fields_applyOp _ _ _ _ _ (h.2.2 f hf)⟩

theorem mem_keys_slot (bag : Bag) (k i : String) (record : Obj) :
    k ∈ keys (putSlot bag k i record) ∧ i ∈ keys (slotsOf (putSlot bag k i record) k) := by
  refine ⟨?_, ?_⟩
  · rw [keys_putSlot]
    split
    · assumption
    · simp
  · rw [slotsOf_putSlot, if_pos rfl]
    exact (mem_keys_assign _ _ _ _).2 (Or.inl rfl)

theorem Covers_self (bag : Bag) (op : Op) : Covers (applyOp bag op) op := by
  cases op with
  | ensure k i =>
    refine ⟨?_, ?_⟩
    · simp only [applyOp, keys_ensureSlot]
      split
      · assumption
      · simp
    · simp only [applyOp, slotsOf_ensureSlot]
      by_cases hi : i ∈ keys (slotsOf bag k)
      · simp [hi]
      · simp only [hi, not_false_eq_true, and_self, if_true]
        exact (mem_keys_assign _ _ _ _).2 (Or.inl rfl)
  | merge k i N =>
    refine ⟨(mem_keys_slot _ _ _ _).1, (mem_keys_slot _ _ _ _).2, fun f hf => ?_⟩
    simp only [applyOp, getSlot_putSlot_eq, and_self, if_true]
    exact (mem_keys_defaultMerge _ _ _ _).2 (Or.inr hf)

theorem Covers_applyOps_mono (ops : List Op) (bag : Bag) (op : Op) (h : Covers bag op) :
    Covers (applyOps ops bag) op := by
  induction ops generalizing bag with
  | nil => exact h
  | cons op' rest ih => exact ih _ (Covers_mono bag op' op h)

theorem Covers_applyOps (ops : List Op) (bag : Bag) :
    ∀ op ∈ ops, Covers (applyOps ops bag) op := by
  induction ops generalizing bag with
  | nil => intro op h; simp at h
  | cons op' rest ih =>
    intro op h
    rcases List.mem_cons.1 h with rfl | h
    · exact Covers_applyOps_mono rest _ _ (Covers_self bag op)
    · exact ih _ op h

theorem SameKeys_applyOps (ops : List Op) (bag : Bag) (h : ∀ op ∈ ops, Covers bag op) :
    SameKeys (applyOps ops bag) bag := by
  induction ops generalizing bag with
  | nil => exact ⟨rfl, fun _ => rfl, fun _ _ => rfl⟩
  | cons op rest ih =>
    have h1 := SameKeys_of_covers bag op (h op (by simp))
    have h2 := ih (applyOp bag op)
      (fun op' hop' => Covers_mono bag op op' (h op' (List.mem_cons_of_mem _ hop')))
    exact ⟨h2.1.trans h1.1, fun k => (h2.2.1 k).trans (h1.2.1 k),
      fun k i => (h2.2.2 k i).trans (h1.2.2 k i)⟩

/-- Applying the changes of a traversal a second time leaves the bag as it is. -/
theorem applyOps_idem (ops : List Op) (hops : OpsOk ops) :
    applyOps ops (applyOps ops []) = applyOps ops [] := by
  refine bag_ext _ _ (SameKeys_applyOps ops _ (Covers_applyOps ops []))
    (BagWF_applyOps ops _ (BagWF_applyOps ops _ BagWF_nil)) (fun k i f => ?_)
  rw [cell_applyOps ops _ k i f hops, cell_applyOps ops [] k i f hops]
  have : cell [] k i f = none := rfl
  rw [this, runCell_idem]

/-- C6: for an entity schema `S` of type key `k` and a record `r` with non-null id `i`,
normalizing `[r, r]` under `arrayOf(S)` gives exactly the bag that normalizing `[r]` gives,
with the results `[i, i]` and `[i]`; that bag has no repeated type key, id or field name, and
it has a record under `entities[k][i]`. -/
theorem idempotent_identity (k : String) (getId : Value → Value) (fields : String → Schema)
    (r : Value) (hr : r.isObject = true) (hi : (getId r).isNullish = false) :
    ∃ bag,
      normalize (.arr [r]) (arrayOf (.entity k getId fields) none) defaultOptions =
        .ok ⟨bag, .arr [getId r]⟩ ∧
      normalize (.arr [r, r]) (arrayOf (.entity k getId fields) none) defaultOptions =
        .ok ⟨bag, .arr [getId r, getId r]⟩ ∧
      BagWF bag ∧
      ∃ record, (lookup k bag).bind (lookup (toKey (getId r))) = some record := by
  obtain ⟨res, ops, ok, h⟩ := traced_visit (.entity k getId fields) r
  have hres : res = getId r := by
    rw [← (h St.empty).1, visit_entity _ _ _ _ _ _ hr, visitEntity_fst _ _ _ _ _ _ hi]
  subst hres
  have hroot : ∀ xs, traversalRoot (.arr xs) (arrayOf (.entity k getId fields) none) =
      .ok (.arr xs) := by
    intro xs
    simp [traversalRoot, arrayOf_entity, hasOwnProperty_embedded_arr]
  have h1 : visit defaultOptions (arrayOf (.entity k getId fields) none) (.arr [r]) St.empty =
      (.arr [getId r], (visit defaultOptions (.entity k getId fields) r St.empty).2) := by
    rw [arrayOf_entity, visit_iterable defaultOptions _ _ (.arr [r]) _ rfl]
    simp only [visitIterable, mapArray, defaultMapper, (h _).1]
  have h2 : visit defaultOptions (arrayOf (.entity k getId fields) none) (.arr [r, r])
      St.empty =
      (.arr [getId r, getId r],
        (visit defaultOptions (.entity k getId fields) r
          (visit defaultOptions (.entity k getId fields) r St.empty).2).2) := by
    rw [arrayOf_entity, visit_iterable defaultOptions _ _ (.arr [r, r]) _ rfl]
    simp only [visitIterable, mapArray, defaultMapper, (h _).1]
  have hb1 : (visit defaultOptions (.entity k getId fields) r St.empty).2.bag =
      applyOps ops [] := (h St.empty).2
  have hb2 : (visit defaultOptions (.entity k getId fields) r
      (visit defaultOptions (.entity k getId fields) r St.empty).2).2.bag = applyOps ops [] := by
    rw [(h _).2, hb1, applyOps_idem ops ok]
  refine ⟨applyOps ops [], ?_, ?_, BagWF_applyOps ops _ BagWF_nil, ?_⟩
  · rw [normalize_of_root (.arr [r]) (arrayOf (.entity k getId fields) none) defaultOptions _
      rfl rfl rfl (hroot _), h1, hb1]
  · rw [normalize_of_root (.arr [r, r]) (arrayOf (.entity k getId fields) none) defaultOptions _
      rfl rfl rfl (hroot _), h2, hb2]
  · rw [← hb1, visit_entity _ _ _ _ _ _ hr, visitEntity_default k getId fields r St.empty hi]
    exact ⟨_, lookup_putSlot _ _ _ _⟩

/-- C6 (witness): the record `{id: 1, name: "A", self: {id: 1, name: "B"}}`, whose field
`self` is again a `users` record with the id 1. -/
theorem idempotent_identity_witness :
    ∃ bag,
      normalize (.arr [.obj [("id", .num 1), ("name", .str "A"),
          ("self", .obj [("id", .num 1), ("name", .str "B")])]])
        (arrayOf (.entity "users" (Attr.read (.name "id"))
          (Schema.fieldsOf [("self", .entity "users" (Attr.read (.name "id")) Schema.noFields)]))
          none) defaultOptions = .ok ⟨bag, .arr [.num 1]⟩ ∧
      normalize (.arr [.obj [("id", .num 1), ("name", .str "A"),
          ("self", .obj [("id", .num 1), ("name", .str "B")])],
          .obj [("id", .num 1), ("name", .str "A"),
          ("self", .obj [("id", .num 1), ("name", .str "B")])]])
        (arrayOf (.entity "users" (Attr.read (.name "id"))
          (Schema.fieldsOf [("self", .entity "users" (Attr.read (.name "id")) Schema.noFields)]))
          none) defaultOptions = .ok ⟨bag, .arr [.num 1, .num 1]⟩ := by
  obtain ⟨bag, h1, h2, _⟩ := idempotent_identity "users" (Attr.read (.name "id"))
    (Schema.fieldsOf [("self", .entity "users" (Attr.read (.name "id")) Schema.noFields)])
    (.obj [("id", .num 1), ("name", .str "A"),
      ("self", .obj [("id", .num 1), ("name", .str "B")])]) rfl rfl
  exact ⟨bag, h1, h2⟩

end Halnormalizr

namespace Halnormalizr
open Value

/-! ## Fields that leave the state alone -/

theorem visitProp_fold_snd (child : String → Value → St → Value × St) (options : Options)
    (L : Obj) (acc : Obj × St) (h : ∀ kv ∈ L, ∀ s, (child kv.1 kv.2 s).2 = s) :
    (L.foldl (visitProp child options) acc).2 = acc.2 := by
  induction L generalizing acc with
  | nil => rfl
  | cons kv rest ih =>
    rw [List.foldl_cons, ih _ (fun kv' hkv' => h kv' (List.mem_cons_of_mem _ hkv'))]
    exact h kv (by simp) acc.2

theorem visitObject_snd (child : String → Value → St → Value × St) (options : Options)
    (value : Value) (st : St) (h : ∀ k x s, (child k x s).2 = s) :
    (visitObject child value options st).2 = st := by
  unfold visitObject
  simp only []
  split
  · rw [visitProp_fold_snd child options _ _ (fun kv _ s => h kv.1 kv.2 s),
      visitProp_fold_snd child options _ _ (fun kv _ s => h kv.1 kv.2 s)]
  · rw [visitProp_fold_snd child options _ _ (fun kv _ s => h kv.1 kv.2 s)]

/-- C12: for an entity schema `S` and a record `r` whose id under `S` is `null` or
`undefined`, `visit(r, S)` returns what `visitObject(r, S)` returns, with the state
`visitObject` leaves (no slot is created for `r`; the bag changes only through the nested
fields), and with no field schemas the state is unchanged. -/
theorem visit_entity_without_id (options : Options) (k : String) (getId : Value → Value)
    (fields : String → Schema) (r : Value) (st : St) (hr : r.isObject = true)
    (hid : (getId r).isNullish = true) :
    visit options (.entity k getId fields) r st =
      (.obj (visitObject (fun f => visit options (fields f)) r options st).1,
        (visitObject (fun f => visit options (fields f)) r options st).2) ∧
    ((∀ f, fields f = .absent) → (visit options (.entity k getId fields) r st).2 = st) := by
  have h1 : visit options (.entity k getId fields) r st =
      (.obj (visitObject (fun f => visit options (fields f)) r options st).1,
        (visitObject (fun f => visit options (fields f)) r options st).2) := by
    rw [visit_entity options k getId fields r st hr]
    simp [visitEntity, hid]
  refine ⟨h1, fun hf => ?_⟩
  rw [h1]
  exact visitObject_snd _ options r st (fun f x s => by
    show (visit options (fields f) x s).2 = s
    rw [hf f, visit_absent])

/-- C12 (witness): the record `{name: "x"}` has no `id`; under the schema `users` without
field schemas it is returned as it is and the state is unchanged. -/
theorem visit_entity_without_id_witness :
    visit defaultOptions (.entity "users" (Attr.read (.name "id")) Schema.noFields)
        (.obj [("name", .str "x")]) St.empty =
      (.obj (visitObject (fun f => visit defaultOptions (Schema.noFields f))
          (.obj [("name", .str "x")]) defaultOptions St.empty).1,
        (visitObject (fun f => visit defaultOptions (Schema.noFields f))
          (.obj [("name", .str "x")]) defaultOptions St.empty).2) ∧
    (visit defaultOptions (.entity "users" (Attr.read (.name "id")) Schema.noFields)
        (.obj [("name", .str "x")]) St.empty).2 = St.empty :=
  ⟨(visit_entity_without_id defaultOptions "users" (Attr.read (.name "id")) Schema.noFields
      (.obj [("name", .str "x")]) St.empty rfl rfl).1,
    (visit_entity_without_id defaultOptions "users" (Attr.read (.name "id")) Schema.noFields
      (.obj [("name", .str "x")]) St.empty rfl rfl).2 (fun _ => rfl)⟩

/-- C14: with an iterable schema `arrayOf(S)` or `valuesOf(S)`, `S` an entity schema of type
key `k`, and an input that has an own field `embedded` holding an object, `normalize` returns
the bag and the result of visiting `input.embedded[k]` under the iterable schema; with a
schema that is not iterable, or an input without an own field `embedded`, it returns the bag
and the result of visiting the input itself. -/
theorem normalize_traversal_root (input : Value) (options : Options)
    (hin : input.isObject = true) :
    (∀ k getId fields a, input.hasOwnProperty "embedded" = true →
      (input.get "embedded").isObject = true →
      normalize input (arrayOf (.entity k getId fields) a) options =
        .ok ⟨(visit options (arrayOf (.entity k getId fields) a)
              ((input.get "embedded").get k) St.empty).2.bag,
            (visit options (arrayOf (.entity k getId fields) a)
              ((input.get "embedded").get k) St.empty).1⟩ ∧
      normalize input (valuesOf (.entity k getId fields) a) options =
        .ok ⟨(visit options (valuesOf (.entity k getId fields) a)
              ((input.get "embedded").get k) St.empty).2.bag,
            (visit options (valuesOf (.entity k getId fields) a)
              ((input.get "embedded").get k) St.empty).1⟩) ∧
    (∀ schema, schema.isObject = true → schema.isArray = false →
      (schema.isIterable = false ∨ input.hasOwnProperty "embedded" = false) →
      normalize input schema options =
        .ok ⟨(visit options schema input St.empty).2.bag,
          (visit options schema input St.empty).1⟩) := by
  refine ⟨fun k getId fields a he ho => ?_, fun schema hs1 hs2 hc => ?_⟩
  · have hn : (input.get "embedded").isNullish = false := by
      cases h : input.get "embedded" <;> simp_all [Value.isObject, Value.isNullish]
    have hr1 : traversalRoot input (arrayOf (.entity k getId fields) a) =
        .ok ((input.get "embedded").get k) := by
      simp [traversalRoot, arrayOf_entity, he, hn]
    have hr2 : traversalRoot input (valuesOf (.entity k getId fields) a) =
        .ok ((input.get "embedded").get k) := by
      simp [traversalRoot, valuesOf_entity, he, hn]
    exact ⟨normalize_of_root input _ options _ hin rfl rfl hr1,
      normalize_of_root input _ options _ hin rfl rfl hr2⟩
  · have hr : traversalRoot input schema = .ok input := by
      rcases hc with h | h
      · cases schema <;> simp_all [traversalRoot, Schema.isIterable]
      · cases schema <;> simp_all [traversalRoot]
    exact normalize_of_root input schema options _ hin hs1 hs2 hr

/-- C14 (witness): the envelope `{total: 2, embedded: {users: [{id: 1}, {id: 2}]}}` under
`arrayOf(users)` gives the ids of the wrapped collection. -/
theorem normalize_traversal_root_witness :
    normalize (.obj [("total", .num 2),
        ("embedded", .obj [("users", .arr [.obj [("id", .num 1)], .obj [("id", .num 2)]])])])
      (arrayOf (.entity "users" (Attr.read (.name "id")) Schema.noFields) none)
      defaultOptions =
    .ok ⟨[("users", [("1", [("id", .num 1)]), ("2", [("id", .num 2)])])],
      .arr [.num 1, .num 2]⟩ :=
  ((normalize_traversal_root (.obj [("total", .num 2),
      ("embedded", .obj [("users", .arr [.obj [("id", .num 1)], .obj [("id", .num 2)]])])])
    defaultOptions rfl).1 "users" (Attr.read (.name "id")) Schema.noFields none rfl rfl).1

end Halnormalizr

namespace Halnormalizr
open Value

/-! ## The fields of a normalized object -/

theorem assign_of_none (options : Options) (h : options.assignEntity = none) :
    options.assign = assign := by
  funext normalized key entity
  simp [Options.assign, h, defaultAssignEntity]

theorem lookup_visitProp_fold_not_mem (child : String → Value → St → Value × St)
    (options : Options) (ha : options.assign = assign) (L : Obj) (acc : Obj × St) (g : String)
    (hg : g ∉ keys L) :
    lookup g (L.foldl (visitProp child options) acc).1 = lookup g acc.1 := by
  induction L generalizing acc with
  | nil => rfl
  | cons kv rest ih =>
    simp only [keys, List.map_cons, List.mem_cons, not_or] at hg
    rw [List.foldl_cons, ih _ hg.2]
    simp only [visitProp, ha]
    exact lookup_assign_ne _ _ hg.1

theorem lookup_visitProp_fold_mem (child : String → Value → St → Value × St)
    (options : Options) (ha : options.assign = assign) (L : Obj) (acc : Obj × St) (g : String)
    (x : Value) (hn : (keys L).Nodup) (hx : lookup g L = some x) :
    ∃ s, lookup g (L.foldl (visitProp child options) acc).1 = some (child g x s).1 := by
  induction L generalizing acc with
  | nil => simp [lookup] at hx
  | cons kv rest ih =>
    obtain ⟨k, y⟩ := kv
    simp only [keys, List.map_cons, List.nodup_cons] at hn
    by_cases hk : k = g
    · subst hk
      simp only [lookup, if_true, Option.some.injEq] at hx
      subst hx
      refine ⟨acc.2, ?_⟩
      rw [List.foldl_cons, lookup_visitProp_fold_not_mem child options ha rest _ k hn.1]
      simp only [visitProp, ha]
      exact lookup_assign_self _ _ _
    · simp only [lookup, hk, if_false] at hx
      rw [List.foldl_cons]
      exact ih _ hn.2 hx

theorem mem_keys_visitProp_fold (child : String → Value → St → Value × St)
    (options : Options) (ha : options.assign = assign) (L : Obj) (acc : Obj × St) (g : String) :
    g ∈ keys (L.foldl (visitProp child options) acc).1 ↔ g ∈ keys acc.1 ∨ g ∈ keys L := by
  induction L generalizing acc with
  | nil => simp [keys]
  | cons kv rest ih =>
    have h1 : g ∈ keys (visitProp child options acc kv).1 ↔ g = kv.1 ∨ g ∈ keys acc.1 := by
      simp only [visitProp, ha]
      exact mem_keys_assign _ _ _ _
    have h2 : g ∈ keys (kv :: rest) ↔ g = kv.1 ∨ g ∈ keys rest := by simp [keys]
    rw [List.foldl_cons, ih, h1, h2]
    tauto

theorem lookup_filter_not_embedded (L : Obj) (g : String) (hg : g ≠ "embedded") :
    lookup g (L.filter (fun kv => kv.1 != "embedded")) = lookup g L := by
  induction L with
  | nil => rfl
  | cons kv rest ih =>
    obtain ⟨k, y⟩ := kv
    by_cases hk : k = "embedded"
    · subst hk
      simp [List.filter_cons, lookup, Ne.symm hg, ih]
    · by_cases hkg : k = g
      · subst hkg
        simp [List.filter_cons, hk, lookup]
      · simp [List.filter_cons, hk, lookup, hkg, ih]

theorem mem_keys_filter_not_embedded (L : Obj) (g : String) :
    g ∈ keys (L.filter (fun kv => kv.1 != "embedded")) ↔ g ∈ keys L ∧ g ≠ "embedded" := by
  simp only [keys, List.mem_map, List.mem_filter, bne_iff_ne, ne_eq]
  constructor
  · rintro ⟨kv, ⟨h1, h2⟩, rfl⟩
    exact ⟨⟨kv, h1, rfl⟩, h2⟩
  · rintro ⟨⟨kv, h1, rfl⟩, h2⟩
    exact ⟨kv, ⟨h1, h2⟩, rfl⟩

theorem nodup_keys_filter (L : Obj) (p : String × Value → Bool) (h : (keys L).Nodup) :
    (keys (L.filter p)).Nodup := by
  induction L with
  | nil => simp [keys]
  | cons kv rest ih =>
    simp only [keys, List.map_cons, List.nodup_cons] at h
    by_cases hp : p kv = true
    · simp only [List.filter_cons, hp, if_true, keys, List.map_cons, List.nodup_cons]
      refine ⟨fun hm => h.1 ?_, ih h.2⟩
      obtain ⟨kv', hkv', e⟩ := List.mem_map.1 hm
      exact List.mem_map.2 ⟨kv', (List.mem_filter.1 hkv').1, e⟩
    · simp only [List.filter_cons, hp]
      exact ih h.2

/-! ## The result of a traversal does not depend on the bag -/

theorem visitProp_fold_fst_indep (child : String → Value → St → Value × St)
    (options : Options) (hc : ∀ k x s s', (child k x s).1 = (child k x s').1) (L : Obj)
    (acc : Obj) (st st' : St) :
    (L.foldl (visitProp child options) (acc, st)).1 =
      (L.foldl (visitProp child options) (acc, st')).1 := by
  induction L generalizing acc st st' with
  | nil => rfl
  | cons kv rest ih =>
    simp only [List.foldl_cons, visitProp]
    rw [hc kv.1 kv.2 st st']
    exact ih _ _ _

theorem visitObject_fst_indep (child : String → Value → St → Value × St)
    (options : Options) (hc : ∀ k x s s', (child k x s).1 = (child k x s').1) (value : Value)
    (st st' : St) :
    (visitObject child value options st).1 = (visitObject child value options st').1 := by
  have hmain := visitProp_fold_fst_indep child options hc
    (value.entries.filter (fun kv => kv.1 != "embedded")) [] st st'
  unfold visitObject
  simp only []
  split
  · have e : ∀ p q : Obj × St, p.1 = q.1 →
        ((value.get "embedded").entries.foldl (visitProp child options) p).1 =
          ((value.get "embedded").entries.foldl (visitProp child options) q).1 := by
      rintro ⟨a, s⟩ ⟨b, s'⟩ h
      simp only at h
      subst h
      exact visitProp_fold_fst_indep child options hc _ a s s'
    exact e _ _ hmain
  · exact hmain

theorem mapArray_fst_indep (f : Value → St → Value × St)
    (hf : ∀ x s s', (f x s).1 = (f x s').1) (xs : List Value) (st st' : St) :
    (mapArray f xs st).1 = (mapArray f xs st').1 := by
  induction xs generalizing st st' with
  | nil => rfl
  | cons x xs ih =>
    simp only [mapArray]
    rw [hf x st st', ih (f x st).2 (f x st').2]

theorem mapValues_fst_indep (f : Value → St → Value × St)
    (hf : ∀ x s s', (f x s).1 = (f x s').1) (fs : Obj) (st st' : St) :
    (mapValues f fs st).1 = (mapValues f fs st').1 := by
  induction fs generalizing st st' with
  | nil => rfl
  | cons kv fs ih =>
    obtain ⟨k, x⟩ := kv
    simp only [mapValues]
    rw [hf x st st', ih (f x st).2 (f x st').2]

/-- The value `visit` returns does not depend on the state it starts from. -/
theorem visit_fst_indep (options : Options) (schema : Schema) :
    ∀ value st st', (visit options schema value st).1 = (visit options schema value st').1 := by
  induction schema with
  | absent => intro value st st'; simp [visit]
  | entity key getId fields ih =>
    intro value st st'
    by_cases hv : value.isObject = true
    · rw [visit_entity _ _ _ _ _ _ hv, visit_entity _ _ _ _ _ _ hv]
      by_cases hi : (getId value).isNullish = true
      · simp only [visitEntity, hi, Bool.not_true, Bool.false_eq_true, if_false]
        rw [visitObject_fst_indep _ options (fun k x s s' => ih k x s s') value st st']
      · simp [visitEntity, hi]
    · rw [visit_of_not_isObject _ _ _ _ (by simpa using hv),
        visit_of_not_isObject _ _ _ _ (by simpa using hv)]
  | iterable itemSchema g ih =>
    intro value st st'
    by_cases hv : value.isObject = true
    · rw [visit_iterable _ _ _ _ _ hv, visit_iterable _ _ _ _ _ hv]
      cases value with
      | arr xs =>
        exact congrArg Value.arr (mapArray_fst_indep (defaultMapper (visit options itemSchema))
          (fun x s s' => ih x s s') xs st st')
      | obj fs =>
        exact congrArg Value.obj (mapValues_fst_indep (defaultMapper (visit options itemSchema))
          (fun x s s' => ih x s s') fs st st')
      | _ => simp [Value.isObject] at hv
    · rw [visit_of_not_isObject _ _ _ _ (by simpa using hv),
        visit_of_not_isObject _ _ _ _ (by simpa using hv)]
  | union itemSchema getSchemaKey ih =>
    intro value st st'
    by_cases hv : value.isObject = true
    · rw [visit_union _ _ _ _ _ hv, visit_union _ _ _ _ _ hv]
      simp only [visitUnion, polymorphicMapper]
      rw [ih _ value st st']
    · rw [visit_of_not_isObject _ _ _ _ (by simpa using hv),
        visit_of_not_isObject _ _ _ _ (by simpa using hv)]
  | fieldMap fields ih =>
    intro value st st'
    by_cases hv : value.isObject = true
    · rw [visit_fieldMap _ _ _ _ hv, visit_fieldMap _ _ _ _ hv]
      simp only
      rw [visitObject_fst_indep _ options (fun k x s s' => ih k x s s') value st st']
    · rw [visit_of_not_isObject _ _ _ _ (by simpa using hv),
        visit_of_not_isObject _ _ _ _ (by simpa using hv)]
  | array items ih =>
    intro value st st'
    by_cases hv : value.isObject = true
    · rw [visit_array _ _ _ _ hv, visit_array _ _ _ _ hv]
      simp only
      rw [visitObject_fst_indep _ options (fun k x s s' => ih k x s s') value st st']
    · rw [visit_of_not_isObject _ _ _ _ (by simpa using hv),
        visit_of_not_isObject _ _ _ _ (by simpa using hv)]

end Halnormalizr

namespace Halnormalizr
open Value

theorem mem_keys_visitObject (child : String → Value → St → Value × St) (options : Options)
    (ha : options.assign = assign) (v : Value) (st : St) (g : String) :
    g ∈ keys (visitObject child v options st).1 ↔
      (g ∈ keys v.entries ∧ g ≠ "embedded") ∨
      (v.hasOwnProperty "embedded" = true ∧ g ∈ keys (v.get "embedded").entries) := by
  unfold visitObject
  simp only []
  split
  · rename_i he
    rw [mem_keys_visitProp_fold child options ha, mem_keys_visitProp_fold child options ha,
      mem_keys_filter_not_embedded]
    simp [keys, he]
  · rename_i he
    rw [mem_keys_visitProp_fold child options ha, mem_keys_filter_not_embedded]
    simp [keys, he]

theorem lookup_visitObject_main (child : String → Value → St → Value × St) (options : Options)
    (ha : options.assign = assign) (hc : ∀ k x s s', (child k x s).1 = (child k x s').1)
    (v : Value) (st : St) (g : String) (x : Value) (hn : (keys v.entries).Nodup)
    (hx : lookup g v.entries = some x) (hg : g ≠ "embedded")
    (hsh : v.hasOwnProperty "embedded" = false ∨ g ∉ keys (v.get "embedded").entries) (s : St) :
    lookup g (visitObject child v options st).1 = some (child g x s).1 := by
  obtain ⟨s0, h0⟩ := lookup_visitProp_fold_mem child options ha
    (v.entries.filter (fun kv => kv.1 != "embedded")) ([], st) g x
    (nodup_keys_filter _ _ hn) (by rw [lookup_filter_not_embedded _ _ hg]; exact hx)
  rw [hc g x s0 s] at h0
  unfold visitObject
  simp only []
  split
  · rename_i he
    rcases hsh with h | h
    · rw [h] at he
      cases he
    · rw [lookup_visitProp_fold_not_mem child options ha _ _ g h]
      exact h0
  · exact h0

theorem lookup_visitObject_embedded (child : String → Value → St → Value × St)
    (options : Options) (ha : options.assign = assign)
    (hc : ∀ k x s s', (child k x s).1 = (child k x s').1) (v : Value) (st : St) (g : String)
    (x : Value) (he : v.hasOwnProperty "embedded" = true)
    (hne : (keys (v.get "embedded").entries).Nodup)
    (hx : lookup g (v.get "embedded").entries = some x) (s : St) :
    lookup g (visitObject child v options st).1 = some (child g x s).1 := by
  unfold visitObject
  simp only [he, if_true]
  obtain ⟨s0, h0⟩ := lookup_visitProp_fold_mem child options ha (v.get "embedded").entries
    ((v.entries.filter (fun kv => kv.1 != "embedded")).foldl (visitProp child options) ([], st))
    g x hne hx
  rw [hc g x s0 s] at h0
  exact h0

/-- C11 (counterexample): under the empty field map neither the field `embedded` of
`{embedded: {x: 1}}` nor the field `a` of `{a: 1, embedded: {a: 2}}` has an entry in the field
map, yet the first is not in the normalized object and the second is stored as `2`. -/
theorem pass_through_counterexample :
    Schema.noFields "embedded" = .absent ∧ Schema.noFields "a" = .absent ∧
    visit defaultOptions (.fieldMap Schema.noFields) (.obj [("embedded", .obj [("x", .num 1)])])
      St.empty = (.obj [("x", .num 1)], St.empty) ∧
    visit defaultOptions (.fieldMap Schema.noFields)
      (.obj [("a", .num 1), ("embedded", .obj [("a", .num 2)])]) St.empty =
        (.obj [("a", .num 2)], St.empty) :=
  ⟨rfl, rfl, rfl, rfl⟩

/-- C11 (amended): when the value is not an object or array, or the schema is absent or a
scalar, `visit` returns the value and the state unchanged; and under the default assignment
policy a field other than `embedded` that has no entry in the field map is copied as it is
into the normalized object, provided the object has no own field `embedded` or `embedded`
has no field of that name. -/
theorem pass_through (options : Options) :
    (∀ schema value st, (value.isObject = false ∨ schema.isObject = false) →
      visit options schema value st = (value, st)) ∧
    (options.assignEntity = none → ∀ (fields : String → Schema) v g x st,
      (keys v.entries).Nodup → lookup g v.entries = some x → g ≠ "embedded" →
      fields g = .absent →
      (v.hasOwnProperty "embedded" = false ∨ g ∉ keys (v.get "embedded").entries) →
      lookup g (visitObject (fun k => visit options (fields k)) v options st).1 = some x) := by
  refine ⟨fun schema value st h => ?_, fun ha fields v g x st hn hx hg hf hsh => ?_⟩
  · rcases h with h | h
    · exact visit_of_not_isObject options schema value st h
    · cases schema with
      | absent => exact visit_absent options value st
      | _ => simp [Schema.isObject] at h
  · have := lookup_visitObject_main (fun k => visit options (fields k)) options
      (assign_of_none options ha) (fun k x s s' => visit_fst_indep options (fields k) x s s')
      v st g x hn hx hg hsh st
    rw [this]
    show some (visit options (fields g) x st).1 = some x
    rw [hf, visit_absent]

/-- C11 (witness): the field `meta` of `{id: 1, meta: {tags: ["a"]}}` has no schema and is
copied with its nested value. -/
theorem pass_through_witness :
    lookup "meta" (visitObject (fun k => visit defaultOptions (Schema.noFields k))
      (.obj [("id", .num 1), ("meta", .obj [("tags", .arr [.str "a"])])]) defaultOptions
      St.empty).1 = some (.obj [("tags", .arr [.str "a"])]) :=
  (pass_through defaultOptions).2 rfl Schema.noFields
    (.obj [("id", .num 1), ("meta", .obj [("tags", .arr [.str "a"])])]) "meta"
    (.obj [("tags", .arr [.str "a"])]) St.empty (by decide) rfl (by decide) rfl (Or.inl rfl)

/-- C13: under the default assignment policy, for an object `v` with pairwise different field
names whose own field `embedded` holds `e` (with pairwise different field names), the
container returned by `visitObject(v, M)` has as fields the fields of `v` other than `embedded`
together with the fields of `e`; a field of `e` holds the result of visiting its value in `e`
against `M[f]`, a field of `v` other than `embedded` that `e` does not have holds the result
of visiting its value in `v`, and the name `embedded` is in the container only as a field of
`e`. -/
theorem visitObject_embedded (options : Options) (ha : options.assignEntity = none)
    (M : String → Schema) (fs : Obj) (e : Value) (st : St)
    (hemb : lookup "embedded" fs = some e) (hn : (keys fs).Nodup)
    (hne : (keys e.entries).Nodup) :
    (∀ g, g ∈ keys (visitObject (fun k => visit options (M k)) (.obj fs) options st).1 ↔
      (g ∈ keys fs ∧ g ≠ "embedded") ∨ g ∈ keys e.entries) ∧
    (∀ g x s, lookup g e.entries = some x →
      lookup g (visitObject (fun k => visit options (M k)) (.obj fs) options st).1 =
        some (visit options (M g) x s).1) ∧
    (∀ g x s, lookup g fs = some x → g ≠ "embedded" → g ∉ keys e.entries →
      lookup g (visitObject (fun k => visit options (M k)) (.obj fs) options st).1 =
        some (visit options (M g) x s).1) ∧
    ("embedded" ∈ keys (visitObject (fun k => visit options (M k)) (.obj fs) options st).1 ↔
      "embedded" ∈ keys e.entries) := by
  have he : (Value.obj fs).hasOwnProperty "embedded" = true := by
    simp [hasOwnProperty_embedded_obj, hasOwn, hemb]
  have hget : (Value.obj fs).get "embedded" = e := by
    simp [Value.get, Value.entries, hemb]
  have hc : ∀ k x s s', ((fun k => visit options (M k)) k x s).1 =
      ((fun k => visit options (M k)) k x s').1 :=
    fun k x s s' => visit_fst_indep options (M k) x s s'
  have hkeys : ∀ g, g ∈ keys (visitObject (fun k => visit options (M k)) (.obj fs) options
      st).1 ↔ (g ∈ keys fs ∧ g ≠ "embedded") ∨ g ∈ keys e.entries := by
    intro g
    rw [mem_keys_visitObject _ options (assign_of_none options ha), hget]
    simp [he, Value.entries]
  refine ⟨hkeys, fun g x s hx => ?_, fun g x s hx hg hge => ?_, ?_⟩
  · exact lookup_visitObject_embedded _ options (assign_of_none options ha) hc (.obj fs) st g x
      he (hget ▸ hne) (hget ▸ hx) s
  · exact lookup_visitObject_main _ options (assign_of_none options ha) hc (.obj fs) st g x
      hn hx hg (Or.inr (hget ▸ hge)) s
  · rw [hkeys]
    simp

/-- C13 (witness): `{id: 1, name: "A", embedded: {name: "Z", extra: 2}}` under the empty
field map gives a container with the fields `id`, `name` and `extra`, `name` holding `"Z"`. -/
theorem visitObject_embedded_witness :
    lookup "name" (visitObject (fun k => visit defaultOptions (Schema.noFields k))
      (.obj [("id", .num 1), ("name", .str "A"),
        ("embedded", .obj [("name", .str "Z"), ("extra", .num 2)])]) defaultOptions
      St.empty).1 = some (visit defaultOptions (Schema.noFields "name") (.str "Z") St.empty).1 ∧
    lookup "id" (visitObject (fun k => visit defaultOptions (Schema.noFields k))
      (.obj [("id", .num 1), ("name", .str "A"),
        ("embedded", .obj [("name", .str "Z"), ("extra", .num 2)])]) defaultOptions
      St.empty).1 = some (visit defaultOptions (Schema.noFields "id") (.num 1) St.empty).1 :=
  ⟨(visitObject_embedded defaultOptions rfl Schema.noFields
      [("id", .num 1), ("name", .str "A"),
        ("embedded", .obj [("name", .str "Z"), ("extra", .num 2)])]
      (.obj [("name", .str "Z"), ("extra", .num 2)]) St.empty rfl (by decide)
      (by decide)).2.1 "name" (.str "Z") St.empty rfl,
    (visitObject_embedded defaultOptions rfl Schema.noFields
      [("id", .num 1), ("name", .str "A"),
        ("embedded", .obj [("name", .str "Z"), ("extra", .num 2)])]
      (.obj [("name", .str "Z"), ("extra", .num 2)]) St.empty rfl (by decide)
      (by decide)).2.2.1 "id" (.num 1) St.empty rfl (by decide) (by decide)⟩

/-- C15 (counterexample): the array `[1, 2]` contains no entity and no `embedded` field, and
the empty field map gives none of its fields a schema, but the result is the object
`{0: 1, 1: 2}`, which is not an array and not deeply equal to the input. -/
theorem round_trip_counterexample :
    normalize (.arr [.num 1, .num 2]) (.fieldMap Schema.noFields) defaultOptions =
      .ok ⟨[], .obj [("0", .num 1), ("1", .num 2)]⟩ ∧
    (Value.obj [("0", .num 1), ("1", .num 2)]).isArray = false ∧
    isEqual (.arr [.num 1, .num 2]) (.obj [("0", .num 1), ("1", .num 2)]) = false :=
  ⟨rfl, rfl, rfl⟩

/-- C15 (amended): for an input object with pairwise different field names and no own field
`embedded`, normalizing it under a plain field map that gives a schema to none of its
non-scalar fields returns the input itself as the result and an empty bag. -/
theorem round_trip_flat (fields : String → Schema) (fs : Obj) (hn : (keys fs).Nodup)
    (he : hasOwn "embedded" fs = false)
    (hp : ∀ kv ∈ fs, kv.2.isObject = false ∨ fields kv.1 = .absent) :
    normalize (.obj fs) (.fieldMap fields) defaultOptions = .ok ⟨[], .obj fs⟩ := by
  have hr : traversalRoot (.obj fs) (.fieldMap fields) = .ok (.obj fs) := by
    simp [traversalRoot]
  rw [normalize_of_root (.obj fs) (.fieldMap fields) defaultOptions _ rfl rfl rfl hr,
    visit_fieldMap defaultOptions fields (.obj fs) St.empty rfl,
    visitObject_pass _ fs St.empty he hn (fun kv hkv => visit_pass _ _ _ _ (hp kv hkv))]
  rfl

/-- C15 (witness): `{a: 1, b: {c: [2]}}` under the empty field map. -/
theorem round_trip_flat_witness :
    normalize (.obj [("a", .num 1), ("b", .obj [("c", .arr [.num 2])])])
      (.fieldMap Schema.noFields) defaultOptions =
    .ok ⟨[], .obj [("a", .num 1), ("b", .obj [("c", .arr [.num 2])])]⟩ :=
  round_trip_flat Schema.noFields [("a", .num 1), ("b", .obj [("c", .arr [.num 2])])]
    (by decide) rfl (fun _ _ => Or.inr rfl)

end Halnormalizr

namespace Halnormalizr
open Value


/-! ## The diagnostics of the default merge policy -/

theorem mergeStep_snd (entityKey : String) (acc : Obj × List Warning) (kv : String × Value) :
    (mergeStep entityKey acc kv).2 = acc.2 ++ (conflictOf entityKey acc.1 kv).toList := by
  simp only [mergeStep, conflictOf]
  cases lookup kv.1 acc.1 with
  | none => simp
  | some a => by_cases he : isEqual a kv.2 = true <;> simp [he]

theorem conflictOf_congr (entityKey : String) (A A' : Obj) (kv : String × Value)
    (h : lookup kv.1 A' = lookup kv.1 A) : conflictOf entityKey A' kv = conflictOf entityKey A kv := by
  simp [conflictOf, h]

theorem merge_fold_snd (entityKey : String) (A : Obj) (B : Obj) (acc : Obj × List Warning)
    (hB : (keys B).Nodup) (hA : ∀ f ∈ keys B, lookup f acc.1 = lookup f A) :
    (B.foldl (mergeStep entityKey) acc).2 = acc.2 ++ B.filterMap (conflictOf entityKey A) := by
  induction B generalizing acc with
  | nil => simp
  | cons kv rest ih =>
    simp only [keys, List.map_cons, List.nodup_cons] at hB
    have hkv : lookup kv.1 acc.1 = lookup kv.1 A := hA kv.1 (by simp [keys])
    rw [List.foldl_cons, ih _ hB.2, mergeStep_snd, conflictOf_congr entityKey A acc.1 kv hkv]
    · cases hc : conflictOf entityKey A kv <;> simp [List.filterMap_cons, hc]
    · intro f hf
      rw [lookup_mergeStep]
      have hne : kv.1 ≠ f := by
        rintro rfl
        exact hB.1 hf
      simp only [hne, if_false]
      exact hA f (by simp only [keys, List.map_cons, List.mem_cons] at hf ⊢; exact Or.inr hf)

theorem assign_self {α : Type} (o : List (String × α)) (k : String) (v : α)
    (h : lookup k o = some v) : assign o k v = o := by
  induction o with
  | nil => simp [lookup] at h
  | cons kv rest ih =>
    obtain ⟨k0, v0⟩ := kv
    by_cases h0 : k0 = k
    · simp only [lookup, h0, if_true, Option.some.injEq] at h
      simp [assign, h0, h]
    · simp only [lookup, h0, if_false] at h
      simp [assign, h0, ih h]

theorem merge_fold_same (entityKey : String) (N : Obj) (B : Obj) (log : List Warning)
    (h : ∀ kv ∈ B, lookup kv.1 N = some kv.2) :
    B.foldl (mergeStep entityKey) (N, log) = (N, log) := by
  induction B with
  | nil => rfl
  | cons kv rest ih =>
    have hkv := h kv (by simp)
    rw [List.foldl_cons]
    have : mergeStep entityKey (N, log) kv = (N, log) := by
      simp [mergeStep, hkv, isEqual_refl, assign_self N kv.1 kv.2 hkv]
    rw [this]
    exact ih (fun kv' hkv' => h kv' (List.mem_cons_of_mem _ hkv'))

/-- C17: `defaultMergeIntoEntity(A, B, key)`, for a record `B` with pairwise different field
names, emits in the order of the fields of `B` exactly one diagnostic for each field of `B`
that `A` has with a value not deeply equal, naming the key, the field and both values, and
no other diagnostic; merging a record a second time into its stored copy emits nothing and
leaves the record; and visiting `{id: 1, name: "A"}` then `{id: 1, name: "B"}` emits the one
diagnostic for `users`, `name`, `"A"` and `"B"`. -/
theorem defaultMerge_diagnostics :
    (∀ (A B : Obj) (entityKey : String), (keys B).Nodup →
      (defaultMergeIntoEntity A B entityKey).2 = B.filterMap (conflictOf entityKey A)) ∧
    (∀ (N : Obj) (entityKey : String), (keys N).Nodup →
      defaultMergeIntoEntity (defaultMergeIntoEntity [] N entityKey).1 N entityKey = (N, [])) ∧
    run (.arr [.obj [("id", .num 1), ("name", .str "A")],
        .obj [("id", .num 1), ("name", .str "B")]])
      (arrayOf (.entity "users" (Attr.read (.name "id")) Schema.noFields) none)
      defaultOptions =
    .ok (.arr [.num 1, .num 1],
      ⟨[("users", [("1", [("id", .num 1), ("name", .str "A")])])],
        [⟨"users", "name", .str "A", .str "B"⟩]⟩) := by
  refine ⟨fun A B entityKey hB => ?_, fun N entityKey hN => ?_, rfl⟩
  · have := merge_fold_snd entityKey A B (A, []) hB (fun _ _ => rfl)
    simpa [defaultMergeIntoEntity] using this
  · rw [defaultMerge_nil N entityKey hN]
    exact merge_fold_same entityKey N N [] (fun kv hkv => lookup_of_mem hN hkv)

/-- C17 (witness): merging `{id: 1, name: "B"}` into `{id: 1, name: "A"}` emits the one
diagnostic for `name`. -/
theorem defaultMerge_diagnostics_witness :
    (defaultMergeIntoEntity [("id", .num 1), ("name", .str "A")]
      [("id", .num 1), ("name", .str "B")] "users").2 =
    [("id", Value.num 1), ("name", .str "B")].filterMap
      (conflictOf "users" [("id", .num 1), ("name", .str "A")]) :=
  defaultMerge_diagnostics.1 [("id", .num 1), ("name", .str "A")]
    [("id", .num 1), ("name", .str "B")] "users" (by decide)

end Halnormalizr

namespace Halnormalizr
open Value


/-! ## The bag only grows -/

theorem Grows_refl (b : Bag) : Grows b b :=
  ⟨fun _ h => h, fun _ _ h => h, fun _ _ _ a h => ⟨a, h, isEqual_refl a⟩⟩

theorem Grows_trans {b1 b2 b3 : Bag} (h1 : Grows b1 b2) (h2 : Grows b2 b3) : Grows b1 b3 := by
  refine ⟨fun k h => h2.1 k (h1.1 k h), fun k i h => h2.2.1 k i (h1.2.1 k i h),
    fun k i f a h => ?_⟩
  obtain ⟨a', ha', e1⟩ := h1.2.2 k i f a h
  obtain ⟨a'', ha'', e2⟩ := h2.2.2 k i f a' ha'
  exact ⟨a'', ha'', isEqual_trans _ _ _ e1 e2⟩

theorem Grows_ensureSlot (b : Bag) (k i : String) : Grows b (ensureSlot b k i) := by
  refine ⟨fun k' h => ?_, fun k' i' h => ?_, fun k' i' f a h => ?_⟩
  · rw [keys_ensureSlot]
    split
    · exact h
    · exact List.mem_append_left _ h
  · rw [slotsOf_ensureSlot]
    split
    · rename_i e
      rw [e.1] at h
      exact (mem_keys_assign _ _ _ _).2 (Or.inr h)
    · exact h
  · rw [cell_eq, getSlot_ensureSlot, ← cell_eq]
    exact ⟨a, h, isEqual_refl a⟩

theorem Grows_merge (b : Bag) (k i : String) (N : Obj) :
    Grows b (putSlot b k i (defaultMergeIntoEntity (getSlot b k i) N k).1) := by
  refine ⟨fun k' h => ?_, fun k' i' h => ?_, fun k' i' f a h => ?_⟩
  · rw [keys_putSlot]
    split
    · exact h
    · exact List.mem_append_left _ h
  · rw [slotsOf_putSlot]
    split
    · rename_i e
      rw [e] at h
      exact (mem_keys_assign _ _ _ _).2 (Or.inr h)
    · exact h
  · rw [cell_eq, getSlot_putSlot_eq]
    split
    · rename_i e
      rw [cell_eq, e.1, e.2] at h
      exact lookup_merge_fold_kept k N (getSlot b k i, []) f a h
    · rw [← cell_eq]
      exact ⟨a, h, isEqual_refl a⟩

theorem grows_visitProp_fold (child : String → Value → St → Value × St) (options : Options)
    (hc : ∀ k x s, Grows s.bag (child k x s).2.bag) (L : Obj) (acc : Obj × St) :
    Grows acc.2.bag (L.foldl (visitProp child options) acc).2.bag := by
  induction L generalizing acc with
  | nil => exact Grows_refl _
  | cons kv rest ih =>
    rw [List.foldl_cons]
    exact Grows_trans (hc kv.1 kv.2 acc.2) (ih (visitProp child options acc kv))

theorem grows_visitObject (child : String → Value → St → Value × St) (options : Options)
    (hc : ∀ k x s, Grows s.bag (child k x s).2.bag) (value : Value) (st : St) :
    Grows st.bag (visitObject child value options st).2.bag := by
  have hmain := grows_visitProp_fold child options hc
    (value.entries.filter (fun kv => kv.1 != "embedded")) ([], st)
  unfold visitObject
  simp only []
  split
  · exact Grows_trans hmain (grows_visitProp_fold child options hc _ _)
  · exact hmain

theorem grows_mapArray (f : Value → St → Value × St) (hf : ∀ x s, Grows s.bag (f x s).2.bag)
    (xs : List Value) (st : St) : Grows st.bag (mapArray f xs st).2.bag := by
  induction xs generalizing st with
  | nil => exact Grows_refl _
  | cons x xs ih => exact Grows_trans (hf x st) (ih _)

theorem grows_mapValues (f : Value → St → Value × St) (hf : ∀ x s, Grows s.bag (f x s).2.bag)
    (fs : Obj) (st : St) : Grows st.bag (mapValues f fs st).2.bag := by
  induction fs generalizing st with
  | nil => exact Grows_refl _
  | cons kv fs ih =>
    obtain ⟨k, x⟩ := kv
    exact Grows_trans (hf x st) (ih _)

theorem merge_of_none (options : Options) (hm : options.mergeIntoEntity = none) (A B : Obj)
    (k : String) : options.merge A B k = defaultMergeIntoEntity A B k := by
  simp [Options.merge, hm]

theorem grows_visitEntity (key : String) (getId : Value → Value)
    (child : String → Value → St → Value × St) (options : Options)
    (hm : options.mergeIntoEntity = none) (hc : ∀ k x s, Grows s.bag (child k x s).2.bag)
    (entity : Value) (st : St) :
    Grows st.bag (visitEntity key getId child entity options st).2.bag := by
  by_cases hi : (getId entity).isNullish = true
  · simp only [visitEntity, hi, Bool.not_true, Bool.false_eq_true, if_false]
    exact grows_visitObject child options hc entity st
  · simp only [visitEntity, hi, Bool.not_false, if_true, merge_of_none options hm]
    exact Grows_trans (Grows_ensureSlot st.bag key _)
      (Grows_trans (grows_visitObject child options hc entity
        ⟨ensureSlot st.bag key (toKey (getId entity)), st.log⟩) (Grows_merge _ _ _ _))

theorem grows_visit (options : Options) (hm : options.mergeIntoEntity = none)
    (schema : Schema) : ∀ value st, Grows st.bag (visit options schema value st).2.bag := by
  induction schema with
  | absent =>
    intro value st
    rw [visit_absent]
    exact Grows_refl _
  | entity key getId fields ih =>
    intro value st
    by_cases hv : value.isObject = true
    · rw [visit_entity _ _ _ _ _ _ hv]
      exact grows_visitEntity key getId _ options hm (fun k x s => ih k x s) value st
    · rw [visit_of_not_isObject _ _ _ _ (by simpa using hv)]
      exact Grows_refl _
  | iterable itemSchema g ih =>
    intro value st
    by_cases hv : value.isObject = true
    · rw [visit_iterable _ _ _ _ _ hv]
      cases value with
      | arr xs => exact grows_mapArray (defaultMapper (visit options itemSchema)) ih xs st
      | obj fs => exact grows_mapValues (defaultMapper (visit options itemSchema)) ih fs st
      | _ => simp [Value.isObject] at hv
    · rw [visit_of_not_isObject _ _ _ _ (by simpa using hv)]
      exact Grows_refl _
  | union itemSchema getSchemaKey ih =>
    intro value st
    by_cases hv : value.isObject = true
    · rw [visit_union _ _ _ _ _ hv]
      exact ih _ value st
    · rw [visit_of_not_isObject _ _ _ _ (by simpa using hv)]
      exact Grows_refl _
  | fieldMap fields ih =>
    intro value st
    by_cases hv : value.isObject = true
    · rw [visit_fieldMap _ _ _ _ hv]
      exact grows_visitObject _ options (fun k x s => ih k x s) value st
    · rw [visit_of_not_isObject _ _ _ _ (by simpa using hv)]
      exact Grows_refl _
  | array items ih =>
    intro value st
    by_cases hv : value.isObject = true
    · rw [visit_array _ _ _ _ hv]
      exact grows_visitObject _ options (fun k x s => ih k x s) value st
    · rw [visit_of_not_isObject _ _ _ _ (by simpa using hv)]
      exact Grows_refl _

/-- C18: under the default merge policy, after `visit` the bag still has every type key and
every record it had, and every field it had with a deeply equal value; and when `visitEntity`
finds a non-null id it returns it and the bag has a record under the type key and that id. -/
theorem bag_only_grows (options : Options) (hm : options.mergeIntoEntity = none) :
    (∀ schema value st,
      (∀ k, k ∈ keys st.bag → k ∈ keys (visit options schema value st).2.bag) ∧
      (∀ k i, i ∈ keys (slotsOf st.bag k) →
        i ∈ keys (slotsOf (visit options schema value st).2.bag k)) ∧
      (∀ k i f a, cell st.bag k i f = some a →
        ∃ a', cell (visit options schema value st).2.bag k i f = some a' ∧
          isEqual a a' = true)) ∧
    (∀ k getId child entity st, (getId entity).isNullish = false →
      (visitEntity k getId child entity options st).1 = getId entity ∧
      ∃ record,
        (lookup k (visitEntity k getId child entity options st).2.bag).bind
          (lookup (toKey (getId entity))) = some record) := by
  refine ⟨fun schema value st => grows_visit options hm schema value st,
    fun k getId child entity st hi => ⟨visitEntity_fst _ _ _ _ _ _ hi, ?_⟩⟩
  simp only [visitEntity, hi, Bool.not_false, if_true]
  exact ⟨_, lookup_putSlot _ _ _ _⟩

/-- C18 (witness): visiting `{id: 1, name: "B"}` on a bag that has `users[1] = {name: "A"}`
keeps the name `"A"`. -/
theorem bag_only_grows_witness :
    ∃ a', cell (visit defaultOptions (.entity "users" (Attr.read (.name "id")) Schema.noFields)
        (.obj [("id", .num 1), ("name", .str "B")])
        ⟨[("users", [("1", [("name", .str "A")])])], []⟩).2.bag "users" "1" "name" = some a' ∧
      isEqual (.str "A") a' = true :=
  ((bag_only_grows defaultOptions rfl).1
    (.entity "users" (Attr.read (.name "id")) Schema.noFields)
    (.obj [("id", .num 1), ("name", .str "B")])
    ⟨[("users", [("1", [("name", .str "A")])])], []⟩).2.2 "users" "1" "name" (.str "A") rfl

end Halnormalizr

namespace Halnormalizr
open Value

/-! ## A record with one nested entity -/

/-- A record without `embedded` in which only the field `f` is visited: the normalized record
is the record with `f` replaced by the result of that visit. -/
theorem visitObject_single_visit (child : String → Value → St → Value × St) (fs : Obj)
    (f : String) (r' j : Value) (st1 st2 : St) (hf : lookup f fs = some r')
    (hn : (keys fs).Nodup) (he : hasOwn "embedded" fs = false)
    (hp : ∀ kv ∈ fs, kv.1 ≠ f → ∀ s, child kv.1 kv.2 s = (kv.2, s))
    (hv : child f r' st1 = (j, st2)) :
    visitObject child (.obj fs) defaultOptions st1 = (assign fs f j, st2) := by
  obtain ⟨L1, L2, hsplit, hL1⟩ := split_of_lookup fs f _ hf
  subst hsplit
  have hkeys : keys (L1 ++ (f, r') :: L2) = keys L1 ++ f :: keys L2 := by simp [keys]
  have hnod := hn
  rw [hkeys] at hnod
  have hL2 : f ∉ keys L2 := (List.nodup_cons.1 (List.nodup_append.1 hnod).2.1).1
  have hp1 : ∀ st, ∀ kv ∈ L1, child kv.1 kv.2 st = (kv.2, st) := by
    intro st kv hkv
    refine hp kv (by simp [hkv]) ?_ st
    rintro rfl
    exact hL1 (List.mem_map.2 ⟨kv, hkv, rfl⟩)
  have hp2 : ∀ st, ∀ kv ∈ L2, child kv.1 kv.2 st = (kv.2, st) := by
    intro st kv hkv
    refine hp kv (by simp [hkv]) ?_ st
    rintro rfl
    exact hL2 (List.mem_map.2 ⟨kv, hkv, rfl⟩)
  have hn1 : (keys L1).Nodup := (List.nodup_append.1 hnod).1
  have hn2 : (keys L2).Nodup := (List.nodup_cons.1 (List.nodup_append.1 hnod).2.1).2
  have hd2 : ∀ g ∈ keys L2, g ∉ keys (L1 ++ [(f, j)]) := by
    intro g hg hm
    simp only [keys, List.map_append, List.mem_append, List.map_cons, List.map_nil,
      List.mem_singleton] at hm
    rcases hm with hm | rfl
    · exact (List.nodup_append.1 hnod).2.2 hm (List.mem_cons_of_mem _ hg)
    · exact hL2 hg
  simp only [visitObject, hasOwnProperty_embedded_obj, he, Value.entries,
    filter_not_embedded _ he]
  rw [List.foldl_append, visitProp_fold_pass _ L1 [] _ (hp1 _),
    assign_fold_disjoint L1 [] hn1 (by simp [keys]), List.foldl_cons]
  simp only [visitProp, assign_defaultOptions, List.nil_append, hv]
  rw [assign_of_not_mem _ _ _ hL1, visitProp_fold_pass _ L2 _ _ (hp2 _),
    assign_fold_disjoint L2 _ hn2 hd2, assign_split _ _ _ _ _ hL1]
  simp

/-- C19 (counterexample): in both inputs the field `self` holds a `users` record with the id
1 of the enclosing record and the name `"B"`, the enclosing name being `"A"`; but with an
earlier field `other` that holds a third copy the stored name is `"C"`, and with a nested
`embedded` field the stored name is `"Z"`. -/
theorem nested_copy_counterexample :
    (∃ out, normalize
        (.obj [("id", .num 1), ("name", .str "A"),
          ("other", .obj [("id", .num 1), ("name", .str "C")]),
          ("self", .obj [("id", .num 1), ("name", .str "B")])])
        (.entity "users" (Attr.read (.name "id")) (Schema.fieldsOf
          [("other", .entity "users" (Attr.read (.name "id")) Schema.noFields),
           ("self", .entity "users" (Attr.read (.name "id")) Schema.noFields)]))
        defaultOptions = .ok out ∧
      cell out.entities "users" "1" "name" = some (.str "C")) ∧
    (∃ out, normalize
        (.obj [("id", .num 1), ("name", .str "A"),
          ("self", .obj [("id", .num 1), ("name", .str "B"),
            ("embedded", .obj [("name", .str "Z")])])])
        (.entity "users" (Attr.read (.name "id")) (Schema.fieldsOf
          [("self", .entity "users" (Attr.read (.name "id")) Schema.noFields)]))
        defaultOptions = .ok out ∧
      cell out.entities "users" "1" "name" = some (.str "Z")) :=
  ⟨⟨_, rfl, rfl⟩, ⟨_, rfl, rfl⟩⟩

/-- C19 (amended): let `U` be an entity schema of type key `k` whose field map sends `f` to
an entity schema of the same type key, `r` a record with non-null id whose field `f` holds a
record `r'` with a non-null id of the same property key; every other field of `r` and every
field of `r'` is a scalar or has no schema, and neither record has an own `embedded` field.
If `r` and `r'` disagree on a field `g`, then after `normalize(r, U)` the stored
`entities[k][i][g]` is deeply equal to the nested value `r'[g]` (and is that value when
`g` is not `f`), not to the enclosing value `r[g]`. -/
theorem nested_copy_wins (k : String) (getId getId' : Value → Value)
    (fields fields' : String → Schema) (f g : String) (fs fs' : Obj) (x y : Value)
    (hU : fields f = .entity k getId' fields')
    (hf : lookup f fs = some (.obj fs'))
    (hi : (getId (.obj fs)).isNullish = false) (hj : (getId' (.obj fs')).isNullish = false)
    (hij : toKey (getId' (.obj fs')) = toKey (getId (.obj fs)))
    (hn : (keys fs).Nodup) (hn' : (keys fs').Nodup)
    (he : hasOwn "embedded" fs = false) (he' : hasOwn "embedded" fs' = false)
    (hs : ∀ kv ∈ fs, kv.1 ≠ f → kv.2.isObject = false ∨ fields kv.1 = .absent)
    (hs' : ∀ kv ∈ fs', kv.2.isObject = false ∨ fields' kv.1 = .absent)
    (hx : lookup g fs = some x) (hy : lookup g fs' = some y) (hxy : isEqual x y = false) :
    ∃ out w, normalize (.obj fs) (.entity k getId fields) defaultOptions = .ok out ∧
      out.result = getId (.obj fs) ∧
      cell out.entities k (toKey (getId (.obj fs))) g = some w ∧
      isEqual y w = true ∧ isEqual x w = false ∧ (g ≠ f → w = y) := by
  have hr : traversalRoot (.obj fs) (.entity k getId fields) = .ok (.obj fs) := by
    simp [traversalRoot]
  have hnested : visit defaultOptions (fields f) (.obj fs')
        ⟨[(k, [(toKey (getId (.obj fs)), [])])], []⟩ =
      (getId' (.obj fs'), ⟨[(k, [(toKey (getId (.obj fs)), fs')])], []⟩) := by
    rw [hU, visit_entity_pass k getId' fields' fs' _ hj he' hn' hs', hij]
    simp [ensureSlot, hasOwn, lookup, assign, putSlot, getSlot, defaultMerge_nil fs' k hn']
  have hnb : normalizedBeforeMerge defaultOptions k getId fields (.obj fs) St.empty =
      (assign fs f (getId' (.obj fs')), ⟨[(k, [(toKey (getId (.obj fs)), fs')])], []⟩) := by
    simp only [normalizedBeforeMerge, St.empty, ensureSlot_nil]
    exact visitObject_single_visit _ fs f _ _ _ _ hf hn he
      (fun kv hkv hne s => visit_pass _ _ _ _ (hs kv hkv hne)) hnested
  have hnn : (keys (assign fs f (getId' (.obj fs')))).Nodup := nodup_keys_assign _ _ _ hn
  have hout : normalize (.obj fs) (.entity k getId fields) defaultOptions =
      .ok ⟨[(k, [(toKey (getId (.obj fs)),
          (defaultMergeIntoEntity fs' (assign fs f (getId' (.obj fs'))) k).1)])],
        getId (.obj fs)⟩ := by
    rw [normalize_of_root (.obj fs) (.entity k getId fields) defaultOptions _ rfl rfl rfl hr,
      visit_entity defaultOptions k getId fields (.obj fs) St.empty rfl,
      visitEntity_default k getId fields _ St.empty hi, hnb]
    simp [getSlot, putSlot, lookup, assign]
  have hcell : cell [(k, [(toKey (getId (.obj fs)),
      (defaultMergeIntoEntity fs' (assign fs f (getId' (.obj fs'))) k).1)])] k
      (toKey (getId (.obj fs))) g =
      mergeCell (some y) (lookup g (assign fs f (getId' (.obj fs')))) := by
    simp only [cell, lookup, if_true, Option.bind]
    rw [lookup_defaultMerge _ _ k g hnn, hy]
  have hyx : ∀ w, isEqual y w = true → isEqual x w = false := by
    intro w hw
    cases h : isEqual x w with
    | false => rfl
    | true =>
      have := isEqual_trans _ _ _ h (isEqual_symm _ _ hw)
      rw [this] at hxy
      cases hxy
  by_cases hgf : g = f
  · subst hgf
    rw [lookup_assign_self] at hcell
    by_cases hyj : isEqual y (getId' (.obj fs')) = true
    · refine ⟨_, getId' (.obj fs'), hout, rfl, ?_, hyj, hyx _ hyj, fun h => absurd rfl h⟩
      rw [hcell]
      simp [mergeCell, hyj]
    · refine ⟨_, y, hout, rfl, ?_, isEqual_refl y, hyx _ (isEqual_refl y), fun _ => rfl⟩
      rw [hcell]
      simp [mergeCell, hyj]
  · rw [lookup_assign_ne _ _ hgf, hx] at hcell
    have hyx' : ¬ isEqual y x = true := by
      intro h
      rw [isEqual_symm _ _ h] at hxy
      cases hxy
    refine ⟨_, y, hout, rfl, ?_, isEqual_refl y, hyx _ (isEqual_refl y), fun _ => rfl⟩
    rw [hcell]
    simp [mergeCell, hyx']

/-- C19 (witness): `{id: 1, name: "A", self: {id: 1, name: "B"}}` stores the name `"B"`. -/
theorem nested_copy_wins_witness :
    ∃ out w, normalize
        (.obj [("id", .num 1), ("name", .str "A"),
          ("self", .obj [("id", .num 1), ("name", .str "B")])])
        (.entity "users" (Attr.read (.name "id")) (Schema.fieldsOf
          [("self", .entity "users" (Attr.read (.name "id")) Schema.noFields)]))
        defaultOptions = .ok out ∧
      cell out.entities "users" "1" "name" = some w ∧ w = .str "B" := by
  obtain ⟨out, w, h1, _, h3, _, _, h6⟩ := nested_copy_wins "users" (Attr.read (.name "id"))
    (Attr.read (.name "id"))
    (Schema.fieldsOf [("self", .entity "users" (Attr.read (.name "id")) Schema.noFields)])
    Schema.noFields "self" "name"
    [("id", .num 1), ("name", .str "A"), ("self", .obj [("id", .num 1), ("name", .str "B")])]
    [("id", .num 1), ("name", .str "B")] (.str "A") (.str "B")
    rfl rfl rfl rfl rfl (by decide) (by decide) rfl rfl
    (by
      intro kv hkv hne
      simp only [List.mem_cons, List.mem_singleton, List.not_mem_nil, or_false] at hkv
      rcases hkv with rfl | rfl | rfl
      · exact Or.inl rfl
      · exact Or.inl rfl
      · exact absurd rfl hne)
    (fun _ _ => Or.inr rfl) rfl rfl rfl
  exact ⟨out, w, h1, h3, h6 (by decide)⟩

end Halnormalizr

namespace Halnormalizr
open Value


end Halnormalizr

namespace Halnormalizr
open Value

/-! ## Termination: the depth of the call stack -/

theorem depth_le_depthList (xs : List Value) (x : Value) (h : x ∈ xs) :
    x.depth ≤ Value.depthList xs := by
  induction xs with
  | nil => simp at h
  | cons y ys ih =>
    simp only [Value.depthList]
    rcases List.mem_cons.1 h with rfl | h
    · exact Nat.le_max_left _ _
    · exact Nat.le_trans (ih h) (Nat.le_max_right _ _)

theorem depth_le_depthFields (fs : Obj) (kv : String × Value) (h : kv ∈ fs) :
    kv.2.depth ≤ Value.depthFields fs := by
  induction fs with
  | nil => simp at h
  | cons y ys ih =>
    obtain ⟨k, y⟩ := y
    simp only [Value.depthFields]
    rcases List.mem_cons.1 h with rfl | h
    · exact Nat.le_max_left _ _
    · exact Nat.le_trans (ih h) (Nat.le_max_right _ _)

theorem mem_of_mem_indexed {α : Type} (xs : List α) (i : Nat) (kv : String × α)
    (h : kv ∈ indexed i xs) : kv.2 ∈ xs := by
  induction xs generalizing i with
  | nil => simp [indexed] at h
  | cons x xs ih =>
    simp only [indexed, List.mem_cons] at h
    rcases h with rfl | h
    · simp
    · exact List.mem_cons_of_mem _ (ih _ h)

/-- The values an object or array holds are strictly less deep than it is. -/
theorem depth_entries_lt (v : Value) (kv : String × Value) (hv : v.isObject = true)
    (h : kv ∈ v.entries) : kv.2.depth < v.depth := by
  cases v with
  | arr xs =>
    simp only [Value.depth]
    exact Nat.lt_succ_of_le (depth_le_depthList xs kv.2 (mem_of_mem_indexed xs 0 kv h))
  | obj fs =>
    simp only [Value.depth]
    exact Nat.lt_succ_of_le (depth_le_depthFields fs kv h)
  | _ => simp [Value.isObject] at hv

theorem depth_entries_scalar (v : Value) (kv : String × Value) (hv : v.isObject = false)
    (h : kv ∈ v.entries) : kv.2.depth = 0 := by
  cases v with
  | str s =>
    have := mem_of_mem_indexed _ 0 kv h
    simp only [List.mem_map] at this
    obtain ⟨c, _, hc⟩ := this
    rw [← hc]
    rfl
  | arr xs => simp [Value.isObject] at hv
  | obj fs => simp [Value.isObject] at hv
  | _ => simp [Value.entries] at h

theorem depth_pos (v : Value) (hv : v.isObject = true) : 0 < v.depth := by
  cases v <;> simp_all [Value.isObject, Value.depth]

theorem depth_get_lt (v : Value) (k : String) (hv : v.isObject = true)
    (he : (v.get k).isObject = true) : (v.get k).depth < v.depth := by
  unfold Value.get at he ⊢
  cases hl : lookup k v.entries with
  | some x =>
    exact depth_entries_lt v (k, x) hv (mem_of_lookup hl)
  | none =>
    rw [hl] at he
    cases v with
    | arr xs =>
      by_cases hk : k = "length" <;> simp [hk, Value.isObject] at he
    | obj fs => simp [Value.isObject] at he
    | _ => simp [Value.isObject] at hv

/-- The values the `embedded` field of an object holds are strictly less deep than the
object. -/
theorem depth_embedded_entries_lt (v : Value) (kv : String × Value) (hv : v.isObject = true)
    (h : kv ∈ (v.get "embedded").entries) : kv.2.depth < v.depth := by
  by_cases he : (v.get "embedded").isObject = true
  · exact Nat.lt_trans (depth_entries_lt _ kv he h) (depth_get_lt v _ hv he)
  · rw [depth_entries_scalar _ kv (by simpa using he) h]
    exact depth_pos v hv

theorem visitPropF_fold (childF : String → Value → St → Option (Value × St))
    (child : String → Value → St → Value × St) (options : Options) (L : Obj) (acc : Obj × St)
    (h : ∀ kv ∈ L, ∀ s, childF kv.1 kv.2 s = some (child kv.1 kv.2 s)) :
    L.foldl (visitPropF childF options) (some acc) =
      some (L.foldl (visitProp child options) acc) := by
  induction L generalizing acc with
  | nil => rfl
  | cons kv rest ih =>
    simp only [List.foldl_cons, visitPropF, h kv (by simp)]
    exact ih _ (fun kv' hkv' => h kv' (List.mem_cons_of_mem _ hkv'))

theorem visitObjectF_eq (childF : String → Value → St → Option (Value × St))
    (child : String → Value → St → Value × St) (options : Options) (v : Value) (st : St)
    (h1 : ∀ kv ∈ v.entries, ∀ s, childF kv.1 kv.2 s = some (child kv.1 kv.2 s))
    (h2 : ∀ kv ∈ (v.get "embedded").entries, ∀ s,
      childF kv.1 kv.2 s = some (child kv.1 kv.2 s)) :
    visitObjectF childF v options st = some (visitObject child v options st) := by
  unfold visitObjectF visitObject
  simp only []
  rw [visitPropF_fold childF child options _ _
    (fun kv hkv => h1 kv (List.mem_filter.1 hkv).1)]
  split
  · exact visitPropF_fold childF child options _ _ h2
  · rfl

theorem mapArrayF_eq (fF : Value → St → Option (Value × St)) (f : Value → St → Value × St)
    (xs : List Value) (st : St) (h : ∀ x ∈ xs, ∀ s, fF x s = some (f x s)) :
    mapArrayF fF xs st = some (mapArray f xs st) := by
  induction xs generalizing st with
  | nil => rfl
  | cons x xs ih =>
    simp only [mapArrayF, mapArray, h x (by simp),
      ih _ (fun y hy => h y (List.mem_cons_of_mem _ hy))]

theorem mapValuesF_eq (fF : Value → St → Option (Value × St)) (f : Value → St → Value × St)
    (fs : Obj) (st : St) (h : ∀ kv ∈ fs, ∀ s, fF kv.2 s = some (f kv.2 s)) :
    mapValuesF fF fs st = some (mapValues f fs st) := by
  induction fs generalizing st with
  | nil => rfl
  | cons kv fs ih =>
    obtain ⟨k, x⟩ := kv
    simp only [mapValuesF, mapValues, h (k, x) (by simp),
      ih _ (fun y hy => h y (List.mem_cons_of_mem _ hy))]

theorem visitF_eq (options : Options) (schema : Schema) :
    ∀ n value fuel st, schema.UnionRankLe n → value.depth + n < fuel →
      visitF options fuel schema value st = some (visit options schema value st) := by
  induction schema with
  | absent =>
    intro n value fuel st _ hlt
    cases fuel with
    | zero => omega
    | succ m => simp [visitF, visit]
  | entity key getId fields ih =>
    intro n value fuel st hr hlt
    cases fuel with
    | zero => omega
    | succ m =>
      by_cases hv : value.isObject = true
      · have hobj := visitObjectF_eq (fun k => visitF options m (fields k))
          (fun k => visit options (fields k)) options value
        have h1 : ∀ kv ∈ value.entries, ∀ s,
            visitF options m (fields kv.1) kv.2 s = some (visit options (fields kv.1) kv.2 s) :=
          fun kv hkv s => ih kv.1 n kv.2 m s (hr kv.1)
            (by have := depth_entries_lt value kv hv hkv; omega)
        have h2 : ∀ kv ∈ (value.get "embedded").entries, ∀ s,
            visitF options m (fields kv.1) kv.2 s = some (visit options (fields kv.1) kv.2 s) :=
          fun kv hkv s => ih kv.1 n kv.2 m s (hr kv.1)
            (by have := depth_embedded_entries_lt value kv hv hkv; omega)
        rw [visit_entity _ _ _ _ _ _ hv]
        simp only [visitF, hv, Bool.not_true, Bool.false_eq_true, if_false, visitEntityF,
          visitEntity, hobj _ h1 h2]
        split <;> rfl
      · rw [visit_of_not_isObject _ _ _ _ (by simpa using hv)]
        simp [visitF, hv]
  | iterable itemSchema g ih =>
    intro n value fuel st hr hlt
    cases fuel with
    | zero => omega
    | succ m =>
      by_cases hv : value.isObject = true
      · rw [visit_iterable _ _ _ _ _ hv]
        simp only [visitF, hv, Bool.not_true, Bool.false_eq_true, if_false]
        cases value with
        | arr xs =>
          simp only [visitIterableF, visitIterable]
          rw [mapArrayF_eq _ (defaultMapper (visit options itemSchema)) xs st
            (fun x hx s => ih n x m s hr (by
              have := depth_le_depthList xs x hx
              simp only [Value.depth] at hlt
              omega))]
          rfl
        | obj fs =>
          simp only [visitIterableF, visitIterable, Value.entries]
          rw [mapValuesF_eq _ (defaultMapper (visit options itemSchema)) fs st
            (fun kv hkv s => ih n kv.2 m s hr (by
              have := depth_le_depthFields fs kv hkv
              simp only [Value.depth] at hlt
              omega))]
          rfl
        | _ => simp [Value.isObject] at hv
      · rw [visit_of_not_isObject _ _ _ _ (by simpa using hv)]
        simp [visitF, hv]
  | union itemSchema getSchemaKey ih =>
    intro n value fuel st hr hlt
    cases fuel with
    | zero => omega
    | succ m =>
      by_cases hv : value.isObject = true
      · cases n with
        | zero => exact absurd hr (by simp [Schema.UnionRankLe])
        | succ n' =>
          rw [visit_union _ _ _ _ _ hv]
          simp only [visitF, hv, Bool.not_true, Bool.false_eq_true, if_false, visitUnionF,
            visitUnion, polymorphicMapper]
          rw [ih _ n' value m st (hr _) (by omega)]
          rfl
      · rw [visit_of_not_isObject _ _ _ _ (by simpa using hv)]
        simp [visitF, hv]
  | fieldMap fields ih =>
    intro n value fuel st hr hlt
    cases fuel with
    | zero => omega
    | succ m =>
      by_cases hv : value.isObject = true
      · have h1 : ∀ kv ∈ value.entries, ∀ s,
            visitF options m (fields kv.1) kv.2 s = some (visit options (fields kv.1) kv.2 s) :=
          fun kv hkv s => ih kv.1 n kv.2 m s (hr kv.1)
            (by have := depth_entries_lt value kv hv hkv; omega)
        have h2 : ∀ kv ∈ (value.get "embedded").entries, ∀ s,
            visitF options m (fields kv.1) kv.2 s = some (visit options (fields kv.1) kv.2 s) :=
          fun kv hkv s => ih kv.1 n kv.2 m s (hr kv.1)
            (by have := depth_embedded_entries_lt value kv hv hkv; omega)
        rw [visit_fieldMap _ _ _ _ hv]
        simp only [visitF, hv, Bool.not_true, Bool.false_eq_true, if_false,
          visitObjectF_eq (fun k => visitF options m (fields k))
            (fun k => visit options (fields k)) options value st h1 h2]
        rfl
      · rw [visit_of_not_isObject _ _ _ _ (by simpa using hv)]
        simp [visitF, hv]
  | array items ih =>
    intro n value fuel st hr hlt
    cases fuel with
    | zero => omega
    | succ m =>
      by_cases hv : value.isObject = true
      · have h1 : ∀ kv ∈ value.entries, ∀ s,
            visitF options m (items kv.1) kv.2 s = some (visit options (items kv.1) kv.2 s) :=
          fun kv hkv s => ih kv.1 n kv.2 m s (hr kv.1)
            (by have := depth_entries_lt value kv hv hkv; omega)
        have h2 : ∀ kv ∈ (value.get "embedded").entries, ∀ s,
            visitF options m (items kv.1) kv.2 s = some (visit options (items kv.1) kv.2 s) :=
          fun kv hkv s => ih kv.1 n kv.2 m s (hr kv.1)
            (by have := depth_embedded_entries_lt value kv hv hkv; omega)
        rw [visit_array _ _ _ _ hv]
        simp only [visitF, hv, Bool.not_true, Bool.false_eq_true, if_false,
          visitObjectF_eq (fun k => visitF options m (items k))
            (fun k => visit options (items k)) options value st h1 h2]
        rfl
      · rw [visit_of_not_isObject _ _ _ _ (by simpa using hv)]
        simp [visitF, hv]

end Halnormalizr

namespace Halnormalizr
open Value

/-- C20: `visit` is a total function, and a call stack with room for more nested calls than
the nesting depth of the value plus the largest number of nested union schemas is never
exhausted: with that much room the bounded visitor returns what `visit` returns. The nested
calls of the object, entity and iterable cases are on values an object or array holds (also
through its `embedded` field), which are strictly less deep than it; the union case visits
the same value against one of its item schemas, which has one union wrapper less. -/
theorem visit_terminates (options : Options) :
    (∀ (v : Value) (kv : String × Value), v.isObject = true → kv ∈ v.entries →
      kv.2.depth < v.depth) ∧
    (∀ (v : Value) (kv : String × Value), v.isObject = true →
      kv ∈ (v.get "embedded").entries → kv.2.depth < v.depth) ∧
    (∀ itemSchema getSchemaKey n, (Schema.union itemSchema getSchemaKey).UnionRankLe (n + 1) →
      ∀ k, (itemSchema k).UnionRankLe n) ∧
    (∀ schema n value fuel st, schema.UnionRankLe n → value.depth + n < fuel →
      visitF options fuel schema value st = some (visit options schema value st)) :=
  ⟨fun v kv hv h => depth_entries_lt v kv hv h,
    fun v kv hv h => depth_embedded_entries_lt v kv hv h,
    fun _ _ _ h k => h k,
    fun schema n value fuel st hr hlt => visitF_eq options schema n value fuel st hr hlt⟩

/-- C20 (witness): for `{type: "post", id: 5}`, of depth 1, under a union schema a stack of
three frames is enough. -/
theorem visit_terminates_witness :
    visitF defaultOptions 3
      (unionOf (.fieldMap (Schema.fieldsOf
        [("post", entitySchema "posts" Schema.noFields (.name "id"))])) (.name "type"))
      (.obj [("type", .str "post"), ("id", .num 5)]) St.empty =
    some (visit defaultOptions
      (unionOf (.fieldMap (Schema.fieldsOf
        [("post", entitySchema "posts" Schema.noFields (.name "id"))])) (.name "type"))
      (.obj [("type", .str "post"), ("id", .num 5)]) St.empty) :=
  (visit_terminates defaultOptions).2.2.2 _ 1 _ 3 St.empty
    (by
      intro k
      show (Schema.fieldsOf [("post", entitySchema "posts" Schema.noFields (.name "id"))]
        k).UnionRankLe 0
      unfold Schema.fieldsOf
      by_cases hk : "post" = k
      · subst hk
        intro k'
        exact True.intro
      · simp [lookup, hk, Schema.UnionRankLe])
    (by decide)

end Halnormalizr

namespace Halnormalizr
open Value


/-! ## The state after a traversal -/

theorem opsLog_append (a b : List Op) (bag : Bag) :
    opsLog (a ++ b) bag = opsLog a bag ++ opsLog b (applyOps a bag) := by
  induction a generalizing bag with
  | nil => rfl
  | cons op rest ih =>
    show opLog bag op ++ opsLog (rest ++ b) (applyOp bag op) =
      (opLog bag op ++ opsLog rest (applyOp bag op)) ++ opsLog b (applyOps rest (applyOp bag op))
    rw [ih, List.append_assoc]

theorem afterOps_nil (st : St) : afterOps [] st = st := by
  simp [afterOps, applyOps, opsLog]

theorem afterOps_append (a b : List Op) (st : St) :
    afterOps (a ++ b) st = afterOps b (afterOps a st) := by
  simp [afterOps, applyOps_append, opsLog_append, List.append_assoc]

theorem visitProp_fold_snd_ops (child : String → Value → St → Value × St)
    (childOps : String → Value → List Op) (options : Options) (L : Obj) (acc : Obj × St)
    (hc : ∀ kv ∈ L, ∀ s, (child kv.1 kv.2 s).2 = afterOps (childOps kv.1 kv.2) s) :
    (L.foldl (visitProp child options) acc).2 = afterOps (opsOfEntries childOps L) acc.2 := by
  induction L generalizing acc with
  | nil => simp [opsOfEntries, afterOps_nil]
  | cons kv rest ih =>
    rw [List.foldl_cons, ih _ (fun kv' hkv' => hc kv' (List.mem_cons_of_mem _ hkv'))]
    simp only [opsOfEntries, afterOps_append, visitProp]
    rw [hc kv (by simp)]

theorem visitObject_snd_ops (child : String → Value → St → Value × St)
    (childOps : String → Value → List Op) (options : Options) (v : Value) (st : St)
    (hc : ∀ k x s, (child k x s).2 = afterOps (childOps k x) s) :
    (visitObject child v options st).2 = afterOps (objectOps childOps v) st := by
  unfold visitObject objectOps
  simp only []
  split
  · rw [visitProp_fold_snd_ops child childOps options _ _ (fun kv _ s => hc kv.1 kv.2 s),
      visitProp_fold_snd_ops child childOps options _ _ (fun kv _ s => hc kv.1 kv.2 s),
      afterOps_append]
  · rw [visitProp_fold_snd_ops child childOps options _ _ (fun kv _ s => hc kv.1 kv.2 s)]
    simp

theorem mapArray_snd_ops (f : Value → St → Value × St) (itemOps : Value → List Op)
    (hf : ∀ x s, (f x s).2 = afterOps (itemOps x) s) (xs : List Value) (st : St) :
    (mapArray f xs st).2 = afterOps (opsOfList itemOps xs) st := by
  induction xs generalizing st with
  | nil => simp [mapArray, opsOfList, afterOps_nil]
  | cons x xs ih =>
    simp only [mapArray, opsOfList, afterOps_append]
    rw [ih, hf]

theorem mapValues_snd_ops (f : Value → St → Value × St) (itemOps : Value → List Op)
    (hf : ∀ x s, (f x s).2 = afterOps (itemOps x) s) (fs : Obj) (st : St) :
    (mapValues f fs st).2 = afterOps (opsOfEntries (fun _ => itemOps) fs) st := by
  induction fs generalizing st with
  | nil => simp [mapValues, opsOfEntries, afterOps_nil]
  | cons kv fs ih =>
    obtain ⟨k, x⟩ := kv
    simp only [mapValues, opsOfEntries, afterOps_append]
    rw [ih, hf]

/-- The state after `visit`, under the default policies, is the state after the changes of
`visitOps`. -/
theorem visit_snd_ops (schema : Schema) :
    ∀ value st, (visit defaultOptions schema value st).2 = afterOps (visitOps schema value) st := by
  induction schema with
  | absent => intro value st; simp [visit, visitOps, afterOps_nil]
  | entity key getId fields ih =>
    intro value st
    by_cases hv : value.isObject = true
    · rw [visit_entity _ _ _ _ _ _ hv]
      have hobj := fun s => visitObject_snd_ops (fun k => visit defaultOptions (fields k))
        (fun k => visitOps (fields k)) defaultOptions value s (fun k x s => ih k x s)
      have hN := visitObject_fst_indep (fun k => visit defaultOptions (fields k)) defaultOptions
        (fun k x s s' => visit_fst_indep defaultOptions (fields k) x s s') value
      by_cases hi : (getId value).isNullish = true
      · simp only [visitEntity, hi, Bool.not_true, Bool.false_eq_true, if_false, visitOps, hv,
          hobj]
      · simp only [visitEntity, hi, Bool.not_false, if_true, visitOps, hv, Bool.not_true,
          Bool.false_eq_true, if_false, merge_defaultOptions]
        rw [show (Op.ensure key (toKey (getId value)) ::
            (objectOps (fun k => visitOps (fields k)) value ++
              [Op.merge key (toKey (getId value))
                (visitObject (fun k => visit defaultOptions (fields k)) value defaultOptions
                  St.empty).1])) =
            [Op.ensure key (toKey (getId value))] ++
              (objectOps (fun k => visitOps (fields k)) value ++
              [Op.merge key (toKey (getId value))
                (visitObject (fun k => visit defaultOptions (fields k)) value defaultOptions
                  St.empty).1]) from rfl, afterOps_append, afterOps_append, ← hobj,
          hN _ St.empty]
        simp [afterOps, applyOps, opsLog, applyOp, opLog]
    · rw [visit_of_not_isObject _ _ _ _ (by simpa using hv)]
      simp [visitOps, hv, afterOps_nil]
  | iterable itemSchema g ih =>
    intro value st
    by_cases hv : value.isObject = true
    · rw [visit_iterable _ _ _ _ _ hv]
      cases value with
      | arr xs =>
        simp only [visitIterable, visitOps, Value.isObject, Bool.not_true, Bool.false_eq_true,
          if_false]
        exact mapArray_snd_ops (defaultMapper (visit defaultOptions itemSchema))
          (visitOps itemSchema) ih xs st
      | obj fs =>
        simp only [visitIterable, visitOps, Value.isObject, Bool.not_true, Bool.false_eq_true,
          if_false]
        exact mapValues_snd_ops (defaultMapper (visit defaultOptions itemSchema))
          (visitOps itemSchema) ih _ st
      | _ => simp [Value.isObject] at hv
    · rw [visit_of_not_isObject _ _ _ _ (by simpa using hv)]
      simp [visitOps, hv, afterOps_nil]
  | union itemSchema getSchemaKey ih =>
    intro value st
    by_cases hv : value.isObject = true
    · rw [visit_union _ _ _ _ _ hv]
      simp only [visitUnion, polymorphicMapper, visitOps, hv, Bool.not_true, Bool.false_eq_true,
        if_false]
      exact ih _ value st
    · rw [visit_of_not_isObject _ _ _ _ (by simpa using hv)]
      simp [visitOps, hv, afterOps_nil]
  | fieldMap fields ih =>
    intro value st
    by_cases hv : value.isObject = true
    · rw [visit_fieldMap _ _ _ _ hv]
      simp only [visitOps, hv, Bool.not_true, Bool.false_eq_true, if_false]
      exact visitObject_snd_ops _ _ defaultOptions value st (fun k x s => ih k x s)
    · rw [visit_of_not_isObject _ _ _ _ (by simpa using hv)]
      simp [visitOps, hv, afterOps_nil]
  | array items ih =>
    intro value st
    by_cases hv : value.isObject = true
    · rw [visit_array _ _ _ _ hv]
      simp only [visitOps, hv, Bool.not_true, Bool.false_eq_true, if_false]
      exact visitObject_snd_ops _ _ defaultOptions value st (fun k x s => ih k x s)
    · rw [visit_of_not_isObject _ _ _ _ (by simpa using hv)]
      simp [visitOps, hv, afterOps_nil]

end Halnormalizr

namespace Halnormalizr
open Value


/-! ## Index properties have different names -/

theorem digitChar_toNat (m : Nat) (h : m < 10) : (Nat.digitChar m).toNat - 48 = m := by
  interval_cases m <;> rfl

theorem decimalValue_toDigitsCore (fuel n : Nat) (ds : List Char) (h : n < fuel) :
    decimalValue (Nat.toDigitsCore 10 fuel n ds) = n * 10 ^ ds.length + decimalValue ds := by
  induction fuel generalizing n ds with
  | zero => omega
  | succ fuel ih =>
    simp only [Nat.toDigitsCore]
    split
    · rename_i h0
      have hn : n % 10 = n := Nat.mod_eq_of_lt (by omega)
      have hd := digitChar_toNat n (by omega)
      simp only [decimalValue, hn, hd]
    · rename_i h0
      have hlt : n / 10 < fuel := by omega
      rw [ih _ _ hlt]
      simp only [decimalValue, digitChar_toNat _ (Nat.mod_lt n (by decide)), List.length_cons,
        pow_succ]
      have := Nat.div_add_mod n 10
      calc n / 10 * (10 ^ ds.length * 10) + (n % 10 * 10 ^ ds.length + decimalValue ds)
          = (10 * (n / 10) + n % 10) * 10 ^ ds.length + decimalValue ds := by ring
        _ = n * 10 ^ ds.length + decimalValue ds := by rw [this]

theorem toString_nat_injective (n m : Nat) (h : toString n = toString m) : n = m := by
  have h1 : (Nat.repr n).data = (Nat.repr m).data := congrArg String.data h
  simp only [Nat.repr, List.asString, Nat.toDigits] at h1
  have h2 := congrArg decimalValue h1
  rw [decimalValue_toDigitsCore _ _ _ (Nat.lt_succ_self n),
    decimalValue_toDigitsCore _ _ _ (Nat.lt_succ_self m)] at h2
  simpa [decimalValue] using h2

theorem mem_keys_indexed {α : Type} (xs : List α) (i : Nat) (k : String)
    (h : k ∈ keys (indexed i xs)) : ∃ m, i ≤ m ∧ k = toString m := by
  induction xs generalizing i with
  | nil => simp [indexed, keys] at h
  | cons x xs ih =>
    simp only [indexed, keys, List.map_cons, List.mem_cons] at h
    rcases h with h | h
    · exact ⟨i, le_refl i, h⟩
    · obtain ⟨m, hm, e⟩ := ih (i + 1) h
      exact ⟨m, by omega, e⟩

theorem nodup_keys_indexed {α : Type} (xs : List α) (i : Nat) : (keys (indexed i xs)).Nodup := by
  induction xs generalizing i with
  | nil => simp [indexed, keys]
  | cons x xs ih =>
    show (toString i :: keys (indexed (i + 1) xs)).Nodup
    refine List.nodup_cons.2 ⟨fun hmem => ?_, ih (i + 1)⟩
    obtain ⟨m, hm, e⟩ := mem_keys_indexed xs (i + 1) _ hmem
    have := toString_nat_injective i m e
    omega

/-! ## Values whose objects have fields of different names -/

theorem distinctNamesList_iff (xs : List Value) :
    Value.distinctNamesList xs = true ↔ ∀ x ∈ xs, x.distinctNames = true := by
  induction xs with
  | nil => simp [Value.distinctNamesList]
  | cons x xs ih => simp [Value.distinctNamesList, ih]

theorem distinctNamesFields_iff (fs : Obj) :
    Value.distinctNamesFields fs = true ↔ ∀ kv ∈ fs, kv.2.distinctNames = true := by
  induction fs with
  | nil => simp [Value.distinctNamesFields]
  | cons kv fs ih =>
    obtain ⟨k, v⟩ := kv
    simp [Value.distinctNamesFields, ih]

theorem distinctNames_entries (v : Value) (h : v.distinctNames = true) :
    ∀ kv ∈ v.entries, kv.2.distinctNames = true := by
  cases v with
  | arr xs =>
    intro kv hkv
    exact (distinctNamesList_iff xs).1 (by simpa [Value.distinctNames] using h) kv.2
      (mem_of_mem_indexed xs 0 kv hkv)
  | obj fs =>
    simp only [Value.distinctNames, Bool.and_eq_true] at h
    exact (distinctNamesFields_iff fs).1 h.2
  | str s =>
    intro kv hkv
    have := mem_of_mem_indexed _ 0 kv hkv
    simp only [List.mem_map] at this
    obtain ⟨c, _, e⟩ := this
    rw [← e]
    rfl
  | undefined => intro kv hkv; simp [Value.entries] at hkv
  | null => intro kv hkv; simp [Value.entries] at hkv
  | bool b => intro kv hkv; simp [Value.entries] at hkv
  | num n => intro kv hkv; simp [Value.entries] at hkv

theorem nodup_keys_entries (v : Value) (h : v.distinctNames = true) :
    (keys v.entries).Nodup := by
  cases v with
  | arr xs => exact nodup_keys_indexed xs 0
  | obj fs =>
    simp only [Value.distinctNames, Bool.and_eq_true, decide_eq_true_eq] at h
    exact h.1
  | str s => exact nodup_keys_indexed _ 0
  | undefined => simp [Value.entries, keys]
  | null => simp [Value.entries, keys]
  | bool b => simp [Value.entries, keys]
  | num n => simp [Value.entries, keys]

theorem distinctNames_of_lookup (v : Value) (h : v.distinctNames = true) (k : String)
    (x : Value) (hx : lookup k v.entries = some x) : x.distinctNames = true :=
  distinctNames_entries v h (k, x) (mem_of_lookup hx)

theorem distinctNames_get (v : Value) (h : v.distinctNames = true) (k : String) :
    (v.get k).distinctNames = true := by
  unfold Value.get
  cases hx : lookup k v.entries with
  | some x => exact distinctNames_of_lookup v h k x hx
  | none =>
    cases v <;> simp only [] <;> first
      | rfl
      | (split <;> rfl)

/-! ## Deep equality and the reads of a value -/

theorem CellEq_refl (x : Option Value) : CellEq x x := by
  cases x with
  | none => trivial
  | some a => exact isEqual_refl a

theorem CellEq_symm {x y : Option Value} (h : CellEq x y) : CellEq y x := by
  cases x <;> cases y <;> simp only [CellEq] at h ⊢
  exact isEqual_symm _ _ h

theorem CellEq_trans {x y z : Option Value} (h1 : CellEq x y) (h2 : CellEq y z) :
    CellEq x z := by
  cases x <;> cases y <;> cases z <;> simp only [CellEq] at h1 h2 ⊢
  exact isEqual_trans _ _ _ h1 h2

theorem CellEq_map {x y : Option Value} (f g : Value → Value) (h : CellEq x y)
    (hfg : ∀ a b, x = some a → y = some b → isEqual a b = true → isEqual (f a) (g b) = true) :
    CellEq (x.map f) (y.map g) := by
  cases x <;> cases y <;> simp only [CellEq, Option.map] at h ⊢
  exact hfg _ _ rfl rfl h

theorem isEqual_obj_iff_cellEq (a b : Obj) :
    isEqual (obj a) (obj b) = true ↔ ∀ k, CellEq (lookup k a) (lookup k b) := by
  rw [isEqual_obj_iff]
  constructor
  · rintro ⟨h1, h2⟩ k
    cases ha : lookup k a with
    | some v =>
      obtain ⟨w, hw, e⟩ := h1 k v ha
      rw [hw]
      exact e
    | none =>
      cases hb : lookup k b with
      | none => trivial
      | some w =>
        have hk : k ∈ keys b := (lookup_isSome_iff b k).1 (by simp [hb])
        exact absurd (h2 k hk) ((lookup_eq_none_iff a k).1 ha)
  · intro h
    refine ⟨fun k v hv => ?_, fun k hk => ?_⟩
    · have := h k
      rw [hv] at this
      cases hb : lookup k b with
      | none => rw [hb] at this; exact this.elim
      | some w => rw [hb] at this; exact ⟨w, rfl, this⟩
    · have := h k
      by_contra hn
      rw [(lookup_eq_none_iff a k).2 hn] at this
      cases hb : lookup k b with
      | none => exact (lookup_eq_none_iff b k).1 hb hk
      | some w => rw [hb] at this; exact this

theorem cellEq_lookup_indexed (xs : List Value) :
    ∀ ys, isEqualList xs ys = true → ∀ i k,
      CellEq (lookup k (indexed i xs)) (lookup k (indexed i ys)) := by
  induction xs with
  | nil =>
    intro ys h i k
    cases ys with
    | nil => trivial
    | cons y ys => simp [isEqualList] at h
  | cons x xs ih =>
    intro ys h i k
    cases ys with
    | nil => simp [isEqualList] at h
    | cons y ys =>
      simp only [isEqualList, Bool.and_eq_true] at h
      simp only [indexed, lookup]
      split
      · exact h.1
      · exact ih ys h.2 (i + 1) k

theorem isEqualList_length (xs : List Value) :
    ∀ ys, isEqualList xs ys = true → xs.length = ys.length := by
  induction xs with
  | nil => intro ys h; cases ys <;> simp_all [isEqualList]
  | cons x xs ih =>
    intro ys h
    cases ys with
    | nil => simp [isEqualList] at h
    | cons y ys =>
      simp only [isEqualList, Bool.and_eq_true] at h
      simp [ih ys h.2]

theorem cellEq_entries (a b : Value) (h : isEqual a b = true) (k : String) :
    CellEq (lookup k a.entries) (lookup k b.entries) := by
  cases a <;> cases b <;> simp only [isEqual, Bool.false_eq_true] at h
  · trivial
  · trivial
  · trivial
  · trivial
  · rename_i s t
    have e : s = t := by simpa using h
    subst e
    exact CellEq_refl _
  · exact cellEq_lookup_indexed _ _ h 0 k
  · rename_i fa fb
    have : isEqual (obj fa) (obj fb) = true := by simpa only [isEqual] using h
    exact (isEqual_obj_iff_cellEq fa fb).1 this k

theorem isEqual_entries (a b : Value) (h : isEqual a b = true) :
    isEqual (obj a.entries) (obj b.entries) = true :=
  (isEqual_obj_iff_cellEq _ _).2 (cellEq_entries a b h)

theorem isEqual_isObject (a b : Value) (h : isEqual a b = true) : a.isObject = b.isObject := by
  cases a <;> cases b <;> simp_all [isEqual, Value.isObject]

theorem isEqual_isArray (a b : Value) (h : isEqual a b = true) : a.isArray = b.isArray := by
  cases a <;> cases b <;> simp_all [isEqual, Value.isArray]

theorem isEqual_isNullish (a b : Value) (h : isEqual a b = true) :
    a.isNullish = b.isNullish := by
  cases a <;> cases b <;> simp_all [isEqual, Value.isNullish]

theorem cellEq_isSome {x y : Option Value} (h : CellEq x y) : x.isSome = y.isSome := by
  cases x <;> cases y <;> simp_all [CellEq]

theorem isEqual_hasOwnProperty (a b : Value) (h : isEqual a b = true) (k : String) :
    a.hasOwnProperty k = b.hasOwnProperty k := by
  have h1 : hasOwn k a.entries = hasOwn k b.entries := cellEq_isSome (cellEq_entries a b h k)
  unfold Value.hasOwnProperty
  rw [h1]
  cases a <;> cases b <;> simp_all [isEqual]

theorem isEqual_get (a b : Value) (h : isEqual a b = true) (k : String) :
    isEqual (a.get k) (b.get k) = true := by
  have h1 := cellEq_entries a b h k
  unfold Value.get
  cases ha : lookup k a.entries with
  | some x =>
    cases hb : lookup k b.entries with
    | some y => rw [ha, hb] at h1; exact h1
    | none => rw [ha, hb] at h1; exact h1.elim
  | none =>
    cases hb : lookup k b.entries with
    | some y => rw [ha, hb] at h1; exact h1.elim
    | none =>
      cases a <;> cases b <;> simp only [isEqual, Bool.false_eq_true] at h <;>
        simp only [isEqual]
      · rename_i s t
        have e : s = t := by simpa using h
        subst e
        split <;> simp [isEqual]
      · rename_i xs ys
        rw [isEqualList_length xs ys h]
        split <;> simp [isEqual]

theorem joinKeys_cons (z : Value) (zs : List Value) :
    joinKeys (z :: zs) =
      (match z with
      | .undefined => ""
      | .null => ""
      | .bool b => toKey (.bool b)
      | .num n => toKey (.num n)
      | .str s => toKey (.str s)
      | .arr ys => toKey (.arr ys)
      | .obj fs => toKey (.obj fs)) ++
      (match zs with
      | [] => ""
      | _ => "," ++ joinKeys zs) := by
  conv_lhs => unfold joinKeys

theorem joinKeys_head_congr (x y : Value) :
    isEqual x y = true → toKey x = toKey y →
    (match x with
      | .undefined => ""
      | .null => ""
      | .bool b => toKey (.bool b)
      | .num n => toKey (.num n)
      | .str s => toKey (.str s)
      | .arr ys => toKey (.arr ys)
      | .obj fs => toKey (.obj fs)) =
    (match y with
      | .undefined => ""
      | .null => ""
      | .bool b => toKey (.bool b)
      | .num n => toKey (.num n)
      | .str s => toKey (.str s)
      | .arr ys => toKey (.arr ys)
      | .obj fs => toKey (.obj fs)) := by
  intro h hx
  cases x <;> cases y <;> simp only [isEqual, Bool.false_eq_true] at h <;>
    first
      | rfl
      | exact hx

theorem joinKeys_tail_congr (xs ys : List Value) :
    xs.length = ys.length → joinKeys xs = joinKeys ys →
    (match xs with
      | [] => ""
      | _ => "," ++ joinKeys xs) =
    (match ys with
      | [] => ""
      | _ => "," ++ joinKeys ys) := by
  intro hl ht
  cases xs with
  | nil =>
    cases ys with
    | nil => rfl
    | cons b bs => simp at hl
  | cons a as =>
    cases ys with
    | nil => simp at hl
    | cons b bs =>
      show "," ++ joinKeys (a :: as) = "," ++ joinKeys (b :: bs)
      rw [ht]

theorem joinKeys_congr (xs : List Value)
    (ih : ∀ x ∈ xs, ∀ w, isEqual x w = true → toKey x = toKey w) :
    ∀ ys, isEqualList xs ys = true → joinKeys xs = joinKeys ys := by
  induction xs with
  | nil => intro ys h; cases ys <;> simp_all [isEqualList]
  | cons x xs ihx =>
    intro ys h
    cases ys with
    | nil => simp [isEqualList] at h
    | cons y ys =>
      simp only [isEqualList, Bool.and_eq_true] at h
      have ht := ihx (fun z hz => ih z (List.mem_cons_of_mem _ hz)) ys h.2
      have hx := ih x (by simp) y h.1
      have hl := isEqualList_length xs ys h.2
      rw [joinKeys_cons, joinKeys_cons, joinKeys_head_congr x y h.1 hx,
        joinKeys_tail_congr xs ys hl ht]

theorem isEqual_toKey (a : Value) : ∀ b, isEqual a b = true → toKey a = toKey b := by
  induction a using Value.induct with
  | hu => intro b h; cases b <;> simp_all [isEqual]
  | hn => intro b h; cases b <;> simp_all [isEqual]
  | hb x => intro b h; cases b <;> simp_all [isEqual]
  | hnum n => intro b h; cases b <;> simp_all [isEqual]
  | hs s => intro b h; cases b <;> simp_all [isEqual]
  | ha xs ih =>
    intro b h
    cases b <;> simp only [isEqual, Bool.false_eq_true] at h
    rename_i ys
    rw [toKey, toKey]
    exact joinKeys_congr xs ih ys h
  | ho fs ih =>
    intro b h
    cases b <;> simp only [isEqual, Bool.false_eq_true] at h
    rw [toKey, toKey]

end Halnormalizr

namespace Halnormalizr
open Value


/-! ## Rearranged sequences of changes -/

theorem OpEq_refl (op : Op) : OpEq op op := by
  cases op with
  | ensure k i => exact ⟨rfl, rfl⟩
  | merge k i n => exact ⟨rfl, rfl, isEqual_refl _⟩

theorem OpsPerm_refl (ops : List Op) : OpsPerm ops ops :=
  ⟨ops, List.Perm.refl _, List.forall₂_same.2 (fun op _ => OpEq_refl op)⟩

theorem OpsPerm_of_perm {a b : List Op} (h : a.Perm b) : OpsPerm a b :=
  ⟨b, h, List.forall₂_same.2 (fun op _ => OpEq_refl op)⟩

theorem OpsPerm_perm_left {a b c : List Op} (h : a.Perm b) (h2 : OpsPerm b c) : OpsPerm a c := by
  obtain ⟨mid, hp, hf⟩ := h2
  exact ⟨mid, h.trans hp, hf⟩

theorem OpsPerm_append {a a' b b' : List Op} (h1 : OpsPerm a a') (h2 : OpsPerm b b') :
    OpsPerm (a ++ b) (a' ++ b') := by
  obtain ⟨m1, hp1, hf1⟩ := h1
  obtain ⟨m2, hp2, hf2⟩ := h2
  exact ⟨m1 ++ m2, hp1.append hp2, List.rel_append hf1 hf2⟩

theorem OpsPerm_cons {x y : Op} {a b : List Op} (h1 : OpEq x y) (h2 : OpsPerm a b) :
    OpsPerm (x :: a) (y :: b) := by
  obtain ⟨m, hp, hf⟩ := h2
  exact ⟨x :: m, hp.cons x, List.Forall₂.cons h1 hf⟩

theorem perm_opsOfEntries (f : String → Value → List Op) {L M : Obj} (h : L.Perm M) :
    (opsOfEntries f L).Perm (opsOfEntries f M) := by
  induction h with
  | nil => exact List.Perm.refl _
  | cons x _ ih => exact List.Perm.append_left _ ih
  | swap x y l =>
    simp only [opsOfEntries]
    exact List.perm_append_comm_assoc _ _ _
  | trans _ _ ih1 ih2 => exact ih1.trans ih2

theorem opsPerm_opsOfEntries_rel (f f' : String → Value → List Op)
    (R : String × Value → String × Value → Prop)
    (hc : ∀ p q, R p q → OpsPerm (f p.1 p.2) (f' q.1 q.2)) {M L' : Obj}
    (h : List.Forall₂ R M L') : OpsPerm (opsOfEntries f M) (opsOfEntries f' L') := by
  induction h with
  | nil => exact OpsPerm_refl _
  | cons hpq _ ih => exact OpsPerm_append (hc _ _ hpq) ih

/-- The changes of the visits of the fields of two property lists that have the same names
and deeply equal values are rearrangements of each other. -/
theorem opsPerm_opsOfEntries (f f' : String → Value → List Op) (L L' : Obj)
    (hn : (keys L).Nodup) (hn' : (keys L').Nodup)
    (h : ∀ k, CellEq (lookup k L) (lookup k L'))
    (hc : ∀ k x x', lookup k L = some x → lookup k L' = some x' → isEqual x x' = true →
      OpsPerm (f k x) (f' k x')) :
    OpsPerm (opsOfEntries f L) (opsOfEntries f' L') := by
  have hkeys : keys (L'.map (fun q => (q.1, (lookup q.1 L).getD Value.undefined))) = keys L' := by
    simp [keys, List.map_map, Function.comp_def]
  have hperm : L.Perm (L'.map (fun q => (q.1, (lookup q.1 L).getD Value.undefined))) := by
    refine (List.perm_ext_iff_of_nodup (List.Nodup.of_map _ hn)
      (List.Nodup.of_map Prod.fst (by
        have hh := hn'
        rw [← hkeys] at hh
        exact hh))).2 (fun p => ?_)
    obtain ⟨k, x⟩ := p
    constructor
    · intro hp
      have hx := lookup_of_mem hn hp
      have hk := h k
      rw [hx] at hk
      cases hx' : lookup k L' with
      | none => rw [hx'] at hk; exact hk.elim
      | some x' =>
        refine List.mem_map.2 ⟨(k, x'), mem_of_lookup hx', ?_⟩
        simp [hx]
    · intro hp
      obtain ⟨q, hq, e⟩ := List.mem_map.1 hp
      have hx' := lookup_of_mem hn' (show (q.1, q.2) ∈ L' from hq)
      have hk := h q.1
      rw [hx'] at hk
      cases hx : lookup q.1 L with
      | none => rw [hx] at hk; exact hk.elim
      | some y =>
        rw [hx] at e
        simp only [Option.getD_some] at e
        rw [← e]
        exact mem_of_lookup hx
  have hrel : List.Forall₂
      (fun p q : String × Value => p.1 = q.1 ∧ lookup p.1 L = some p.2 ∧
        lookup q.1 L' = some q.2 ∧ isEqual p.2 q.2 = true)
      (L'.map (fun q => (q.1, (lookup q.1 L).getD Value.undefined))) L' := by
    refine List.forall₂_map_left_iff.2 (List.forall₂_same.2 (fun q hq => ?_))
    have hx' := lookup_of_mem hn' (show (q.1, q.2) ∈ L' from hq)
    have hk := h q.1
    rw [hx'] at hk
    cases hx : lookup q.1 L with
    | none => rw [hx] at hk; exact hk.elim
    | some y =>
      rw [hx] at hk
      exact ⟨rfl, by simp [hx], hx', by simpa [hx] using hk⟩
  refine OpsPerm_perm_left (perm_opsOfEntries f hperm) (opsPerm_opsOfEntries_rel f f' _ ?_ hrel)
  rintro p q ⟨e, h1, h2, h3⟩
  have := hc p.1 p.2 q.2 h1 (e ▸ h2) h3
  rw [e] at this ⊢
  exact this

theorem opsPerm_opsOfList (f f' : Value → List Op) (xs : List Value) :
    ∀ ys, isEqualList xs ys = true →
      (∀ x ∈ xs, ∀ y ∈ ys, isEqual x y = true → OpsPerm (f x) (f' y)) →
      OpsPerm (opsOfList f xs) (opsOfList f' ys) := by
  induction xs with
  | nil =>
    intro ys h _
    cases ys with
    | nil => exact OpsPerm_refl _
    | cons y ys => simp [isEqualList] at h
  | cons x xs ih =>
    intro ys h hc
    cases ys with
    | nil => simp [isEqualList] at h
    | cons y ys =>
      simp only [isEqualList, Bool.and_eq_true] at h
      exact OpsPerm_append (hc x (by simp) y (by simp) h.1)
        (ih ys h.2 (fun a ha b hb => hc a (List.mem_cons_of_mem _ ha) b
          (List.mem_cons_of_mem _ hb)))

theorem isEqualList_map (g g' : Value → Value) (xs : List Value) :
    ∀ ys, isEqualList xs ys = true →
      (∀ x ∈ xs, ∀ y ∈ ys, isEqual x y = true → isEqual (g x) (g' y) = true) →
      isEqualList (xs.map g) (ys.map g') = true := by
  induction xs with
  | nil =>
    intro ys h _
    cases ys with
    | nil => rfl
    | cons y ys => simp [isEqualList] at h
  | cons x xs ih =>
    intro ys h hc
    cases ys with
    | nil => simp [isEqualList] at h
    | cons y ys =>
      simp only [isEqualList, Bool.and_eq_true] at h
      simp only [List.map_cons, isEqualList, Bool.and_eq_true]
      exact ⟨hc x (by simp) y (by simp) h.1,
        ih ys h.2 (fun a ha b hb => hc a (List.mem_cons_of_mem _ ha) b
          (List.mem_cons_of_mem _ hb))⟩

theorem lookup_map_values (g : Value → Value) (fs : Obj) (k : String) :
    lookup k (fs.map (fun kv => (kv.1, g kv.2))) = (lookup k fs).map g := by
  induction fs with
  | nil => rfl
  | cons kv fs ih =>
    obtain ⟨k0, x⟩ := kv
    simp only [List.map_cons, lookup]
    split
    · rfl
    · exact ih

/-! ## Two enumeration orders of the same record -/

/-- The record `visitObject` returns for two deeply equal records is the same up to deep
equality, when the visits of the fields have that property. -/
theorem visitObject_result_congr (child : String → Value → St → Value × St)
    (hind : ∀ k x s s', (child k x s).1 = (child k x s').1)
    (hc : ∀ k x x', isEqual x x' = true → x.distinctNames = true → x'.distinctNames = true →
      isEqual (child k x St.empty).1 (child k x' St.empty).1 = true)
    (v v' : Value) (h : isEqual v v' = true) (hw : v.distinctNames = true)
    (hw' : v'.distinctNames = true) :
    isEqual (.obj (visitObject child v defaultOptions St.empty).1)
      (.obj (visitObject child v' defaultOptions St.empty).1) = true := by
  rw [isEqual_obj_iff_cellEq]
  intro g
  have he := isEqual_hasOwnProperty v v' h "embedded"
  have hE := isEqual_get v v' h "embedded"
  have hwE := distinctNames_get v hw "embedded"
  have hwE' := distinctNames_get v' hw' "embedded"
  have cE := cellEq_entries _ _ hE g
  have cV := cellEq_entries v v' h g
  have hnone : ∀ (u : Value),
      ¬ (u.hasOwnProperty "embedded" = true ∧ g ∈ keys (u.get "embedded").entries) →
      (g = "embedded" ∨ lookup g u.entries = none) →
      lookup g (visitObject child u defaultOptions St.empty).1 = none := by
    intro u hA hB
    rw [lookup_eq_none_iff, mem_keys_visitObject child defaultOptions rfl]
    rintro (⟨h1, h2⟩ | h2)
    · rcases hB with hB | hB
      · exact h2 hB
      · exact (lookup_eq_none_iff _ _).1 hB h1
    · exact hA h2
  by_cases hA : v.hasOwnProperty "embedded" = true ∧ g ∈ keys (v.get "embedded").entries
  · obtain ⟨h1, h2⟩ := hA
    cases hx : lookup g (v.get "embedded").entries with
    | none => exact absurd h2 ((lookup_eq_none_iff _ _).1 hx)
    | some x =>
      cases hx' : lookup g (v'.get "embedded").entries with
      | none => rw [hx, hx'] at cE; exact cE.elim
      | some x' =>
        rw [hx, hx'] at cE
        rw [lookup_visitObject_embedded child defaultOptions rfl hind v St.empty g x h1
            (nodup_keys_entries _ hwE) hx St.empty,
          lookup_visitObject_embedded child defaultOptions rfl hind v' St.empty g x'
            (he ▸ h1) (nodup_keys_entries _ hwE') hx' St.empty]
        exact hc g x x' cE (distinctNames_of_lookup _ hwE g x hx)
          (distinctNames_of_lookup _ hwE' g x' hx')
  · have hA' : ¬ (v'.hasOwnProperty "embedded" = true ∧
        g ∈ keys (v'.get "embedded").entries) := by
      rintro ⟨h1, h2⟩
      refine hA ⟨he.trans h1, ?_⟩
      by_contra hn
      rw [(lookup_eq_none_iff _ _).2 hn] at cE
      cases hx' : lookup g (v'.get "embedded").entries with
      | none => exact (lookup_eq_none_iff _ _).1 hx' h2
      | some x' => rw [hx'] at cE; exact cE
    by_cases hg : g = "embedded"
    · rw [hnone v hA (Or.inl hg), hnone v' hA' (Or.inl hg)]
      trivial
    · cases hx : lookup g v.entries with
      | none =>
        cases hx' : lookup g v'.entries with
        | some x' => rw [hx, hx'] at cV; exact cV.elim
        | none =>
          rw [hnone v hA (Or.inr hx), hnone v' hA' (Or.inr hx')]
          trivial
      | some x =>
        cases hx' : lookup g v'.entries with
        | none => rw [hx, hx'] at cV; exact cV.elim
        | some x' =>
          rw [hx, hx'] at cV
          have hsh : ∀ (u : Value),
              ¬ (u.hasOwnProperty "embedded" = true ∧ g ∈ keys (u.get "embedded").entries) →
              (u.hasOwnProperty "embedded" = false ∨ g ∉ keys (u.get "embedded").entries) := by
            intro u hu
            by_cases h0 : u.hasOwnProperty "embedded" = true
            · exact Or.inr (fun hm => hu ⟨h0, hm⟩)
            · exact Or.inl (by simpa using h0)
          rw [lookup_visitObject_main child defaultOptions rfl hind v St.empty g x
              (nodup_keys_entries v hw) hx hg (hsh v hA) St.empty,
            lookup_visitObject_main child defaultOptions rfl hind v' St.empty g x'
              (nodup_keys_entries v' hw') hx' hg (hsh v' hA') St.empty]
          exact hc g x x' cV (distinctNames_of_lookup v hw g x hx)
            (distinctNames_of_lookup v' hw' g x' hx')

/-- The changes `visitObject` makes for two deeply equal records are rearrangements of each
other, when the visits of the fields have that property. -/
theorem objectOps_congr (childOps : String → Value → List Op)
    (hc : ∀ k x x', isEqual x x' = true → x.distinctNames = true → x'.distinctNames = true →
      OpsPerm (childOps k x) (childOps k x'))
    (v v' : Value) (h : isEqual v v' = true) (hw : v.distinctNames = true)
    (hw' : v'.distinctNames = true) :
    OpsPerm (objectOps childOps v) (objectOps childOps v') := by
  have he := isEqual_hasOwnProperty v v' h "embedded"
  have hE := isEqual_get v v' h "embedded"
  have hwE := distinctNames_get v hw "embedded"
  have hwE' := distinctNames_get v' hw' "embedded"
  unfold objectOps
  refine OpsPerm_append ?_ ?_
  · refine opsPerm_opsOfEntries childOps childOps _ _
      (nodup_keys_filter _ _ (nodup_keys_entries v hw))
      (nodup_keys_filter _ _ (nodup_keys_entries v' hw')) (fun g => ?_) (fun g x x' hx hx' e => ?_)
    · by_cases hg : g = "embedded"
      · have n1 : ∀ L : Obj, lookup g (L.filter (fun kv => kv.1 != "embedded")) = none := by
          intro L
          rw [lookup_eq_none_iff, mem_keys_filter_not_embedded]
          exact fun hh => hh.2 hg
        rw [n1, n1]
        trivial
      · rw [lookup_filter_not_embedded _ g hg, lookup_filter_not_embedded _ g hg]
        exact cellEq_entries v v' h g
    · have hg : g ≠ "embedded" := by
        have := (mem_keys_filter_not_embedded v.entries g).1
          ((lookup_isSome_iff _ g).1 (by simp [hx]))
        exact this.2
      rw [lookup_filter_not_embedded _ g hg] at hx hx'
      exact hc g x x' e (distinctNames_of_lookup v hw g x hx)
        (distinctNames_of_lookup v' hw' g x' hx')
  · rw [← he]
    split
    · exact opsPerm_opsOfEntries childOps childOps _ _ (nodup_keys_entries _ hwE)
        (nodup_keys_entries _ hwE') (cellEq_entries _ _ hE)
        (fun g x x' hx hx' e => hc g x x' e (distinctNames_of_lookup _ hwE g x hx)
          (distinctNames_of_lookup _ hwE' g x' hx'))
    · exact OpsPerm_refl _

/-- The visits of two deeply equal values, under a schema whose id and discriminator functions
respect deep equality, return deeply equal results and make rearranged sequences of changes. -/
theorem visit_congr (schema : Schema) :
    schema.Respects → ∀ v v', isEqual v v' = true → v.distinctNames = true →
      v'.distinctNames = true →
      isEqual (visit defaultOptions schema v St.empty).1
          (visit defaultOptions schema v' St.empty).1 = true ∧
        OpsPerm (visitOps schema v) (visitOps schema v') := by
  induction schema with
  | absent =>
    intro _ v v' h _ _
    simp only [visit_absent, visitOps]
    exact ⟨h, OpsPerm_refl _⟩
  | entity key getId fields ih =>
    intro hs v v' h hw hw'
    obtain ⟨hid, hf⟩ := hs
    have ho := isEqual_isObject v v' h
    by_cases hv : v.isObject = true
    · have hv' : v'.isObject = true := ho ▸ hv
      have hi := hid v v' h
      have hn := isEqual_isNullish _ _ hi
      have hk := isEqual_toKey _ _ hi
      have hres := visitObject_result_congr (fun k => visit defaultOptions (fields k))
        (fun k x s s' => visit_fst_indep defaultOptions (fields k) x s s')
        (fun k x x' e w w' => (ih k (hf k) x x' e w w').1) v v' h hw hw'
      have hops := objectOps_congr (fun k => visitOps (fields k))
        (fun k x x' e w w' => (ih k (hf k) x x' e w w').2) v v' h hw hw'
      rw [visit_entity _ _ _ _ _ _ hv, visit_entity _ _ _ _ _ _ hv']
      by_cases hnl : (getId v).isNullish = true
      · have hnl' : (getId v').isNullish = true := hn ▸ hnl
        simp only [visitEntity, hnl, hnl', Bool.not_true, Bool.false_eq_true, if_false,
          visitOps, hv, hv']
        exact ⟨hres, hops⟩
      · have hnl' : ¬ (getId v').isNullish = true := hn ▸ hnl
        simp only [visitEntity, hnl, hnl', Bool.not_false, if_true, visitOps, hv, hv',
          Bool.not_true, Bool.false_eq_true, if_false]
        refine ⟨hi, ?_⟩
        rw [← hk]
        exact OpsPerm_cons ⟨rfl, rfl⟩ (OpsPerm_append hops
          (OpsPerm_cons ⟨rfl, rfl, hres⟩ (OpsPerm_refl _)))
    · have hv0 : v.isObject = false := by simpa using hv
      have hv0' : v'.isObject = false := ho ▸ hv0
      rw [visit_of_not_isObject _ _ _ _ hv0, visit_of_not_isObject _ _ _ _ hv0']
      simp only [visitOps, hv0, hv0', Bool.not_false, if_true]
      exact ⟨h, OpsPerm_refl _⟩
  | iterable itemSchema g ih =>
    intro hs v v' h hw hw'
    have ho := isEqual_isObject v v' h
    by_cases hv : v.isObject = true
    · have hv' : v'.isObject = true := ho ▸ hv
      rw [visit_iterable _ _ _ _ _ hv, visit_iterable _ _ _ _ _ hv']
      cases v with
      | arr xs =>
        cases v' with
        | arr ys =>
          have hl : isEqualList xs ys = true := by simpa only [isEqual] using h
          have hwx : ∀ x ∈ xs, x.distinctNames = true :=
            (distinctNamesList_iff xs).1 (by simpa [Value.distinctNames] using hw)
          have hwy : ∀ y ∈ ys, y.distinctNames = true :=
            (distinctNamesList_iff ys).1 (by simpa [Value.distinctNames] using hw')
          simp only [visitIterable, visitOps, Value.isObject, Bool.not_true, Bool.false_eq_true,
            if_false]
          rw [mapArray_fst (defaultMapper (visit defaultOptions itemSchema)) (fun x => (visit defaultOptions itemSchema x St.empty).1) xs
              St.empty (fun x _ s => visit_fst_indep defaultOptions itemSchema x s St.empty),
            mapArray_fst (defaultMapper (visit defaultOptions itemSchema)) (fun x => (visit defaultOptions itemSchema x St.empty).1) ys
              St.empty (fun x _ s => visit_fst_indep defaultOptions itemSchema x s St.empty)]
          refine ⟨?_, ?_⟩
          · simp only [isEqual]
            exact isEqualList_map _ _ xs ys hl
              (fun x hx y hy e => (ih hs x y e (hwx x hx) (hwy y hy)).1)
          · exact opsPerm_opsOfList _ _ xs ys hl
              (fun x hx y hy e => (ih hs x y e (hwx x hx) (hwy y hy)).2)
        | _ => simp [isEqual] at h
      | obj fs =>
        cases v' with
        | obj fs' =>
          have hwf := distinctNames_entries _ hw
          have hwf' := distinctNames_entries _ hw'
          have hnf := nodup_keys_entries _ hw
          have hnf' := nodup_keys_entries _ hw'
          simp only [Value.entries] at hwf hwf' hnf hnf'
          simp only [visitIterable, visitOps, Value.isObject, Bool.not_true, Bool.false_eq_true,
            if_false, Value.entries]
          rw [mapValues_fst (defaultMapper (visit defaultOptions itemSchema)) (fun x => (visit defaultOptions itemSchema x St.empty).1) fs
              St.empty (fun kv _ s => visit_fst_indep defaultOptions itemSchema kv.2 s St.empty),
            mapValues_fst (defaultMapper (visit defaultOptions itemSchema)) (fun x => (visit defaultOptions itemSchema x St.empty).1) fs'
              St.empty (fun kv _ s => visit_fst_indep defaultOptions itemSchema kv.2 s St.empty)]
          have hcell := (isEqual_obj_iff_cellEq fs fs').1 h
          refine ⟨?_, ?_⟩
          · rw [isEqual_obj_iff_cellEq]
            intro k
            rw [lookup_map_values (fun x => (visit defaultOptions itemSchema x St.empty).1),
              lookup_map_values (fun x => (visit defaultOptions itemSchema x St.empty).1)]
            exact CellEq_map _ _ (hcell k) (fun a b ha hb e =>
              (ih hs a b e (hwf (k, a) (mem_of_lookup ha)) (hwf' (k, b) (mem_of_lookup hb))).1)
          · exact opsPerm_opsOfEntries _ _ fs fs' hnf hnf' hcell
              (fun k a b ha hb e =>
                (ih hs a b e (hwf (k, a) (mem_of_lookup ha))
                  (hwf' (k, b) (mem_of_lookup hb))).2)
        | _ => simp [isEqual] at h
      | _ => simp [Value.isObject] at hv
    · have hv0 : v.isObject = false := by simpa using hv
      have hv0' : v'.isObject = false := ho ▸ hv0
      rw [visit_of_not_isObject _ _ _ _ hv0, visit_of_not_isObject _ _ _ _ hv0']
      simp only [visitOps, hv0, hv0', Bool.not_false, if_true]
      exact ⟨h, OpsPerm_refl _⟩
  | union itemSchema getSchemaKey ih =>
    intro hs v v' h hw hw'
    obtain ⟨hkey, hf⟩ := hs
    have ho := isEqual_isObject v v' h
    by_cases hv : v.isObject = true
    · have hv' : v'.isObject = true := ho ▸ hv
      have hi := hkey v v' h
      have hk := isEqual_toKey _ _ hi
      rw [visit_union _ _ _ _ _ hv, visit_union _ _ _ _ _ hv']
      simp only [visitUnion, polymorphicMapper, visitOps, hv, hv', Bool.not_true,
        Bool.false_eq_true, if_false]
      rw [← hk]
      have := ih (toKey (getSchemaKey v)) (hf _) v v' h hw hw'
      refine ⟨?_, this.2⟩
      rw [isEqual_obj_iff_cellEq]
      intro k
      simp only [lookup]
      split
      · exact this.1
      · split
        · exact hi
        · trivial
    · have hv0 : v.isObject = false := by simpa using hv
      have hv0' : v'.isObject = false := ho ▸ hv0
      rw [visit_of_not_isObject _ _ _ _ hv0, visit_of_not_isObject _ _ _ _ hv0']
      simp only [visitOps, hv0, hv0', Bool.not_false, if_true]
      exact ⟨h, OpsPerm_refl _⟩
  | fieldMap fields ih =>
    intro hs v v' h hw hw'
    have ho := isEqual_isObject v v' h
    by_cases hv : v.isObject = true
    · have hv' : v'.isObject = true := ho ▸ hv
      rw [visit_fieldMap _ _ _ _ hv, visit_fieldMap _ _ _ _ hv']
      simp only [visitOps, hv, hv', Bool.not_true, Bool.false_eq_true, if_false]
      exact ⟨visitObject_result_congr (fun k => visit defaultOptions (fields k))
          (fun k x s s' => visit_fst_indep defaultOptions (fields k) x s s')
          (fun k x x' e w w' => (ih k (hs k) x x' e w w').1) v v' h hw hw',
        objectOps_congr (fun k => visitOps (fields k))
          (fun k x x' e w w' => (ih k (hs k) x x' e w w').2) v v' h hw hw'⟩
    · have hv0 : v.isObject = false := by simpa using hv
      have hv0' : v'.isObject = false := ho ▸ hv0
      rw [visit_of_not_isObject _ _ _ _ hv0, visit_of_not_isObject _ _ _ _ hv0']
      simp only [visitOps, hv0, hv0', Bool.not_false, if_true]
      exact ⟨h, OpsPerm_refl _⟩
  | array items ih =>
    intro hs v v' h hw hw'
    have ho := isEqual_isObject v v' h
    by_cases hv : v.isObject = true
    · have hv' : v'.isObject = true := ho ▸ hv
      rw [visit_array _ _ _ _ hv, visit_array _ _ _ _ hv']
      simp only [visitOps, hv, hv', Bool.not_true, Bool.false_eq_true, if_false]
      exact ⟨visitObject_result_congr (fun k => visit defaultOptions (items k))
          (fun k x s s' => visit_fst_indep defaultOptions (items k) x s s')
          (fun k x x' e w w' => (ih k (hs k) x x' e w w').1) v v' h hw hw',
        objectOps_congr (fun k => visitOps (items k))
          (fun k x x' e w w' => (ih k (hs k) x x' e w w').2) v v' h hw hw'⟩
    · have hv0 : v.isObject = false := by simpa using hv
      have hv0' : v'.isObject = false := ho ▸ hv0
      rw [visit_of_not_isObject _ _ _ _ hv0, visit_of_not_isObject _ _ _ _ hv0']
      simp only [visitOps, hv0, hv0', Bool.not_false, if_true]
      exact ⟨h, OpsPerm_refl _⟩

end Halnormalizr

namespace Halnormalizr
open Value


/-! ## The changes of a traversal merge records with different field names -/

theorem OpsOk_opsOfEntries (f : String → Value → List Op) (hf : ∀ k x, OpsOk (f k x))
    (L : Obj) : OpsOk (opsOfEntries f L) := by
  induction L with
  | nil => exact OpsOk_nil
  | cons kv rest ih => exact OpsOk_append (hf kv.1 kv.2) ih

theorem OpsOk_opsOfList (f : Value → List Op) (hf : ∀ x, OpsOk (f x)) (xs : List Value) :
    OpsOk (opsOfList f xs) := by
  induction xs with
  | nil => exact OpsOk_nil
  | cons x xs ih => exact OpsOk_append (hf x) ih

theorem OpsOk_objectOps (f : String → Value → List Op) (hf : ∀ k x, OpsOk (f k x))
    (v : Value) : OpsOk (objectOps f v) := by
  unfold objectOps
  refine OpsOk_append (OpsOk_opsOfEntries f hf _) ?_
  split
  · exact OpsOk_opsOfEntries f hf _
  · exact OpsOk_nil

theorem OpsOk_visitOps (schema : Schema) : ∀ v, OpsOk (visitOps schema v) := by
  induction schema with
  | absent => intro v; exact OpsOk_nil
  | entity key getId fields ih =>
    intro v
    simp only [visitOps]
    split
    · exact OpsOk_nil
    · split
      · intro k i n hm
        simp only [List.mem_cons, List.mem_append, List.mem_singleton] at hm
        rcases hm with hm | hm | hm | hm
        · cases hm
        · exact OpsOk_objectOps _ (fun k x => ih k x) v k i n hm
        · cases hm
          exact nodup_keys_visitObject _ v St.empty
        · cases hm
      · exact OpsOk_objectOps _ (fun k x => ih k x) v
  | iterable itemSchema g ih =>
    intro v
    simp only [visitOps]
    split
    · exact OpsOk_nil
    · split
      · exact OpsOk_opsOfList _ ih _
      · exact OpsOk_opsOfEntries _ (fun _ x => ih x) _
  | union itemSchema getSchemaKey ih =>
    intro v
    simp only [visitOps]
    split
    · exact OpsOk_nil
    · exact ih _ v
  | fieldMap fields ih =>
    intro v
    simp only [visitOps]
    split
    · exact OpsOk_nil
    · exact OpsOk_objectOps _ (fun k x => ih k x) v
  | array items ih =>
    intro v
    simp only [visitOps]
    split
    · exact OpsOk_nil
    · exact OpsOk_objectOps _ (fun k x => ih k x) v

/-! ## The names of a bag come from the changes that built it -/

theorem mem_keys_of_isEqual (a b : Obj) (h : isEqual (obj a) (obj b) = true) (f : String) :
    f ∈ keys a ↔ f ∈ keys b := by
  have h1 := (isEqual_obj_iff_cellEq a b).1 h f
  have h2 := cellEq_isSome h1
  rw [← lookup_isSome_iff, ← lookup_isSome_iff, h2]

theorem Covers_of_OpEq (b : Bag) {op op' : Op} (h : OpEq op op') :
    Covers b op ↔ Covers b op' := by
  cases op with
  | ensure k i =>
    cases op' with
    | ensure k' i' =>
      obtain ⟨rfl, rfl⟩ := h
      exact Iff.rfl
    | merge k' i' n' => exact h.elim
  | merge k i n =>
    cases op' with
    | ensure k' i' => exact h.elim
    | merge k' i' n' =>
      obtain ⟨rfl, rfl, e⟩ := h
      simp only [Covers]
      constructor
      · rintro ⟨h1, h2, h3⟩
        exact ⟨h1, h2, fun f hf => h3 f ((mem_keys_of_isEqual n n' e f).2 hf)⟩
      · rintro ⟨h1, h2, h3⟩
        exact ⟨h1, h2, fun f hf => h3 f ((mem_keys_of_isEqual n n' e f).1 hf)⟩

theorem forall₂_exists_right {α β : Type} {R : α → β → Prop} {l : List α} {l' : List β}
    (h : List.Forall₂ R l l') : ∀ a ∈ l, ∃ b ∈ l', R a b := by
  induction h with
  | nil => intro a ha; simp at ha
  | cons hab _ ih =>
    intro a ha
    rcases List.mem_cons.1 ha with rfl | ha
    · exact ⟨_, by simp, hab⟩
    · obtain ⟨b, hb, r⟩ := ih a ha
      exact ⟨b, List.mem_cons_of_mem _ hb, r⟩

theorem forall₂_exists_left {α β : Type} {R : α → β → Prop} {l : List α} {l' : List β}
    (h : List.Forall₂ R l l') : ∀ b ∈ l', ∃ a ∈ l, R a b := by
  induction h with
  | nil => intro b hb; simp at hb
  | cons hab _ ih =>
    intro b hb
    rcases List.mem_cons.1 hb with rfl | hb
    · exact ⟨_, by simp, hab⟩
    · obtain ⟨a, ha, r⟩ := ih b hb
      exact ⟨a, List.mem_cons_of_mem _ ha, r⟩

theorem OpsPerm_exists_right {ops ops' : List Op} (h : OpsPerm ops ops') :
    ∀ op ∈ ops, ∃ op' ∈ ops', OpEq op op' := by
  obtain ⟨mid, hp, hf⟩ := h
  intro op hop
  exact forall₂_exists_right hf op (hp.mem_iff.1 hop)

theorem OpsPerm_exists_left {ops ops' : List Op} (h : OpsPerm ops ops') :
    ∀ op' ∈ ops', ∃ op ∈ ops, OpEq op op' := by
  obtain ⟨mid, hp, hf⟩ := h
  intro op' hop'
  obtain ⟨a, ha, r⟩ := forall₂_exists_left hf op' hop'
  exact ⟨a, hp.mem_iff.2 ha, r⟩

theorem origin_applyOps (P : Bag → Prop)
    (h1 : ∀ bag op, P (applyOp bag op) → P bag ∨ ∀ b, Covers b op → P b) (ops : List Op) :
    ∀ bag, P (applyOps ops bag) → P bag ∨ ∃ op ∈ ops, ∀ b, Covers b op → P b := by
  induction ops with
  | nil => intro bag h; exact Or.inl h
  | cons op rest ih =>
    intro bag h
    have e : applyOps (op :: rest) bag = applyOps rest (applyOp bag op) := rfl
    rw [e] at h
    rcases ih _ h with h2 | ⟨op', hm, h2⟩
    · rcases h1 bag op h2 with h3 | h3
      · exact Or.inl h3
      · exact Or.inr ⟨op, by simp, h3⟩
    · exact Or.inr ⟨op', List.mem_cons_of_mem _ hm, h2⟩

theorem origin_keys_applyOp (x : String) (bag : Bag) (op : Op)
    (h : x ∈ keys (applyOp bag op)) : x ∈ keys bag ∨ ∀ b, Covers b op → x ∈ keys b := by
  cases op with
  | ensure k i =>
    simp only [applyOp, keys_ensureSlot] at h
    split at h
    · exact Or.inl h
    · rcases List.mem_append.1 h with h | h
      · exact Or.inl h
      · simp only [List.mem_singleton] at h
        subst h
        exact Or.inr (fun b hb => hb.1)
  | merge k i n =>
    simp only [applyOp, keys_putSlot] at h
    split at h
    · exact Or.inl h
    · rcases List.mem_append.1 h with h | h
      · exact Or.inl h
      · simp only [List.mem_singleton] at h
        subst h
        exact Or.inr (fun b hb => hb.1)

theorem origin_slots_applyOp (k x : String) (bag : Bag) (op : Op)
    (h : x ∈ keys (slotsOf (applyOp bag op) k)) :
    x ∈ keys (slotsOf bag k) ∨ ∀ b, Covers b op → x ∈ keys (slotsOf b k) := by
  cases op with
  | ensure k' i =>
    simp only [applyOp, slotsOf_ensureSlot] at h
    split at h
    · rename_i e
      obtain ⟨rfl, _⟩ := e
      rcases (mem_keys_assign _ _ _ _).1 h with h | h
      · subst h
        exact Or.inr (fun b hb => hb.2)
      · exact Or.inl h
    · exact Or.inl h
  | merge k' i n =>
    simp only [applyOp, slotsOf_putSlot] at h
    split at h
    · rename_i e
      subst e
      rcases (mem_keys_assign _ _ _ _).1 h with h | h
      · subst h
        exact Or.inr (fun b hb => hb.2.1)
      · exact Or.inl h
    · exact Or.inl h

theorem origin_fields_applyOp (k i x : String) (bag : Bag) (op : Op)
    (h : x ∈ keys (getSlot (applyOp bag op) k i)) :
    x ∈ keys (getSlot bag k i) ∨ ∀ b, Covers b op → x ∈ keys (getSlot b k i) := by
  cases op with
  | ensure k' i' =>
    simp only [applyOp, getSlot_ensureSlot] at h
    exact Or.inl h
  | merge k' i' n =>
    simp only [applyOp, getSlot_putSlot_eq] at h
    split at h
    · rename_i e
      obtain ⟨rfl, rfl⟩ := e
      rcases (mem_keys_defaultMerge _ _ _ _).1 h with h | h
      · exact Or.inl h
      · exact Or.inr (fun b hb => hb.2.2 x h)
    · exact Or.inl h

theorem names_transfer (P : Bag → Prop)
    (h1 : ∀ bag op, P (applyOp bag op) → P bag ∨ ∀ b, Covers b op → P b) (h0 : ¬ P [])
    (ops ops' : List Op)
    (hm : ∀ op ∈ ops, ∃ op' ∈ ops', ∀ b, Covers b op' → Covers b op) :
    P (applyOps ops []) → P (applyOps ops' []) := by
  intro h
  rcases origin_applyOps P h1 ops [] h with h2 | ⟨op, hop, h2⟩
  · exact absurd h2 h0
  · obtain ⟨op', hop', hc⟩ := hm op hop
    exact h2 _ (hc _ (Covers_applyOps ops' [] op' hop'))

/-- Rearranged sequences of changes build bags with the same names. -/
theorem SameNames_of_OpsPerm (ops ops' : List Op) (h : OpsPerm ops ops') :
    SameNames (applyOps ops []) (applyOps ops' []) := by
  have hr : ∀ op ∈ ops, ∃ op' ∈ ops', ∀ b, Covers b op' → Covers b op := by
    intro op hop
    obtain ⟨op', hop', e⟩ := OpsPerm_exists_right h op hop
    exact ⟨op', hop', fun b => (Covers_of_OpEq b e).2⟩
  have hl : ∀ op' ∈ ops', ∃ op ∈ ops, ∀ b, Covers b op → Covers b op' := by
    intro op' hop'
    obtain ⟨op, hop, e⟩ := OpsPerm_exists_left h op' hop'
    exact ⟨op, hop, fun b => (Covers_of_OpEq b e).1⟩
  refine ⟨fun k => ⟨?_, ?_⟩, fun k i => ⟨?_, ?_⟩, fun k i f => ⟨?_, ?_⟩⟩
  · exact names_transfer (fun b => k ∈ keys b) (origin_keys_applyOp k) (by simp [keys])
      ops ops' hr
  · exact names_transfer (fun b => k ∈ keys b) (origin_keys_applyOp k) (by simp [keys])
      ops' ops hl
  · exact names_transfer (fun b => i ∈ keys (slotsOf b k)) (origin_slots_applyOp k i)
      (by simp [keys, slotsOf, lookup]) ops ops' hr
  · exact names_transfer (fun b => i ∈ keys (slotsOf b k)) (origin_slots_applyOp k i)
      (by simp [keys, slotsOf, lookup]) ops' ops hl
  · exact names_transfer (fun b => f ∈ keys (getSlot b k i)) (origin_fields_applyOp k i f)
      (by simp [keys, getSlot, lookup]) ops ops' hr
  · exact names_transfer (fun b => f ∈ keys (getSlot b k i)) (origin_fields_applyOp k i f)
      (by simp [keys, getSlot, lookup]) ops' ops hl

/-! ## The stored values when no merge conflicts -/

theorem cands_cons (k i f : String) (op : Op) (ops : List Op) :
    cands k i f (op :: ops) = cands k i f [op] ++ cands k i f ops :=
  cands_append k i f [op] ops

theorem cands_perm (k i f : String) {ops mid : List Op} (h : ops.Perm mid) :
    (cands k i f ops).Perm (cands k i f mid) := by
  induction h with
  | nil => exact List.Perm.refl _
  | @cons x l1 l2 _ ih =>
    rw [cands_cons k i f x l1, cands_cons k i f x l2]
    exact List.Perm.append_left _ ih
  | swap x y l =>
    rw [cands_cons k i f y (x :: l), cands_cons k i f x l, cands_cons k i f x (y :: l),
      cands_cons k i f y l]
    exact List.perm_append_comm_assoc _ _ _
  | trans _ _ ih1 ih2 => exact ih1.trans ih2

theorem cands_single_rel (k i f : String) {x y : Op} (h : OpEq x y) :
    List.Forall₂ (fun a b => isEqual a b = true) (cands k i f [x]) (cands k i f [y]) := by
  cases x with
  | ensure k1 i1 =>
    cases y with
    | ensure k2 i2 => exact List.Forall₂.nil
    | merge k2 i2 n2 => exact h.elim
  | merge k1 i1 n1 =>
    cases y with
    | ensure k2 i2 => exact h.elim
    | merge k2 i2 n2 =>
      obtain ⟨rfl, rfl, e⟩ := h
      have hc := (isEqual_obj_iff_cellEq n1 n2).1 e f
      simp only [cands]
      split
      · cases h1 : lookup f n1 <;> cases h2 : lookup f n2 <;> rw [h1, h2] at hc
        · exact List.Forall₂.nil
        · exact hc.elim
        · exact hc.elim
        · exact List.Forall₂.cons hc List.Forall₂.nil
      · exact List.Forall₂.nil

theorem cands_rel (k i f : String) {mid ops' : List Op} (h : List.Forall₂ OpEq mid ops') :
    List.Forall₂ (fun a b => isEqual a b = true) (cands k i f mid) (cands k i f ops') := by
  induction h with
  | nil => exact List.Forall₂.nil
  | @cons a b l1 l2 hxy _ ih =>
    rw [cands_cons k i f a l1, cands_cons k i f b l2]
    exact List.rel_append (cands_single_rel k i f hxy) ih

theorem opLog_merge_nil (bag : Bag) (k i : String) (n : Obj) (hn : (keys n).Nodup)
    (h : opLog bag (.merge k i n) = []) (f : String) (a c : Value)
    (ha : cell bag k i f = some a) (hc : lookup f n = some c) : isEqual a c = true := by
  have h1 := merge_fold_snd k (getSlot bag k i) n (getSlot bag k i, []) hn (fun _ _ => rfl)
  have h2 : n.filterMap (conflictOf k (getSlot bag k i)) = [] := by
    have h3 : (defaultMergeIntoEntity (getSlot bag k i) n k).2 = [] := h
    rw [defaultMergeIntoEntity, h1] at h3
    simpa using h3
  have h4 := List.filterMap_eq_nil_iff.1 h2 (f, c) (mem_of_lookup hc)
  rw [cell_eq] at ha
  simp only [conflictOf, ha] at h4
  by_contra hne
  simp [hne] at h4

/-- When a sequence of changes emits no diagnostic, the values it brings for a stored field
are deeply equal to the value already stored and to each other. -/
theorem agree_of_no_log (ops : List Op) :
    OpsOk ops → ∀ bag, opsLog ops bag = [] → ∀ k i f,
      (∀ a, cell bag k i f = some a → ∀ c ∈ cands k i f ops, isEqual a c = true) ∧
      (∀ c ∈ cands k i f ops, ∀ d ∈ cands k i f ops, isEqual c d = true) := by
  induction ops with
  | nil =>
    intro _ bag _ k i f
    simp [cands]
  | cons op rest ih =>
    intro hok bag hlog k i f
    obtain ⟨hok1, hok2⟩ := OpsOk_cons hok
    have hlog1 : opLog bag op = [] ∧ opsLog rest (applyOp bag op) = [] := by
      have : opLog bag op ++ opsLog rest (applyOp bag op) = [] := hlog
      exact List.append_eq_nil.1 this
    obtain ⟨ih1, ih2⟩ := ih hok2 (applyOp bag op) hlog1.2 k i f
    have hcell := cell_applyOp bag op k i f hok1
    rw [cands_cons]
    cases hs : cands k i f [op] with
    | nil =>
      rw [hs] at hcell
      have hcell2 : cell (applyOp bag op) k i f = cell bag k i f := hcell
      rw [hcell2] at ih1
      simpa using ⟨ih1, ih2⟩
    | cons c cs =>
      have hshape : cs = [] ∧ ∃ n, op = .merge k i n ∧ lookup f n = some c := by
        cases op with
        | ensure k1 i1 => simp [cands] at hs
        | merge k1 i1 n =>
          simp only [cands] at hs
          split at hs
          · rename_i e
            obtain ⟨rfl, rfl⟩ := e
            cases hl : lookup f n with
            | none => rw [hl] at hs; simp at hs
            | some c0 =>
              rw [hl] at hs
              simp only [List.cons.injEq] at hs
              exact ⟨hs.2.symm, n, rfl, hs.1 ▸ hl⟩
          · simp at hs
      obtain ⟨rfl, n, rfl, hl⟩ := hshape
      have hn : (keys n).Nodup := hok1 k i n (by simp)
      have hold : ∀ a, cell bag k i f = some a → isEqual a c = true :=
        fun a ha => opLog_merge_nil bag k i n hn hlog1.1 f a c ha hl
      have hnew : cell (applyOp bag (.merge k i n)) k i f = some c := by
        rw [hcell, hs]
        cases ha : cell bag k i f with
        | none => rfl
        | some a => simp [runCell, mergeCell, hold a ha]
      have hrest : ∀ d ∈ cands k i f rest, isEqual c d = true := ih1 c hnew
      refine ⟨fun a ha d hd => ?_, fun x hx y hy => ?_⟩
      · simp only [List.cons_append, List.nil_append, List.mem_cons] at hd
        rcases hd with rfl | hd
        · exact hold a ha
        · exact isEqual_trans _ _ _ (hold a ha) (hrest d hd)
      · simp only [List.cons_append, List.nil_append, List.mem_cons] at hx hy
        rcases hx with rfl | hx
        · rcases hy with rfl | hy
          · exact isEqual_refl _
          · exact hrest y hy
        · rcases hy with rfl | hy
          · exact isEqual_symm _ _ (hrest x hx)
          · exact ih2 x hx y hy

theorem cellEq_runCell (cs mid cs' : List Value) (hp : cs.Perm mid)
    (hr : List.Forall₂ (fun a b => isEqual a b = true) mid cs')
    (hag : ∀ c ∈ cs, ∀ d ∈ cs, isEqual c d = true) :
    CellEq (runCell none cs) (runCell none cs') := by
  cases cs with
  | nil =>
    have hm : mid = [] := List.Perm.eq_nil (List.Perm.symm hp)
    subst hm
    cases hr
    trivial
  | cons c rest =>
    cases cs' with
    | nil =>
      cases hr
      exact absurd (List.Perm.eq_nil hp) (by simp)
    | cons c' rest' =>
      obtain ⟨w, hw, e⟩ := runCell_some_equiv rest c
      obtain ⟨w', hw', e'⟩ := runCell_some_equiv rest' c'
      obtain ⟨m, hm, r⟩ := forall₂_exists_left hr c' (by simp)
      have hmc : m ∈ c :: rest := hp.mem_iff.2 hm
      have h1 : isEqual c m = true := hag c (by simp) m hmc
      have e1 : runCell none (c :: rest) = some w := hw
      have e2 : runCell none (c' :: rest') = some w' := hw'
      rw [e1, e2]
      exact isEqual_trans _ _ _ (isEqual_symm _ _ e)
        (isEqual_trans _ _ _ h1 (isEqual_trans _ _ _ r e'))

/-! ## The traversals of two enumeration orders -/

/-- The traversals of two deeply equal values return deeply equal results, build bags with the
same names, and, when the first emits no diagnostic, store deeply equal values. -/
theorem visit_order_independent (schema : Schema) (hs : schema.Respects) (v v' : Value)
    (h : isEqual v v' = true) (hw : v.distinctNames = true) (hw' : v'.distinctNames = true) :
    isEqual (visit defaultOptions schema v St.empty).1
        (visit defaultOptions schema v' St.empty).1 = true ∧
      SameNames (visit defaultOptions schema v St.empty).2.bag
        (visit defaultOptions schema v' St.empty).2.bag ∧
      ((visit defaultOptions schema v St.empty).2.log = [] →
        ∀ k i f, CellEq (cell (visit defaultOptions schema v St.empty).2.bag k i f)
          (cell (visit defaultOptions schema v' St.empty).2.bag k i f)) := by
  obtain ⟨h1, h2⟩ := visit_congr schema hs v v' h hw hw'
  rw [visit_snd_ops schema v St.empty, visit_snd_ops schema v' St.empty]
  refine ⟨h1, SameNames_of_OpsPerm _ _ h2, fun hlog k i f => ?_⟩
  have hlog2 : opsLog (visitOps schema v) [] = [] := by
    simpa [afterOps, St.empty] using hlog
  obtain ⟨mid, hp, hr⟩ := h2
  have hag := (agree_of_no_log _ (OpsOk_visitOps schema v) [] hlog2 k i f).2
  have hc := cellEq_runCell _ _ _ (cands_perm k i f hp) (cands_rel k i f hr) hag
  show CellEq (cell (applyOps (visitOps schema v) []) k i f)
    (cell (applyOps (visitOps schema v') []) k i f)
  rw [cell_applyOps _ _ k i f (OpsOk_visitOps schema v),
    cell_applyOps _ _ k i f (OpsOk_visitOps schema v')]
  exact hc

theorem traversalRoot_congr (schema : Schema) (v v' : Value) (h : isEqual v v' = true)
    (hw : v.distinctNames = true) (hw' : v'.distinctNames = true) :
    (∀ e, traversalRoot v schema = .error e ↔ traversalRoot v' schema = .error e) ∧
    (∀ r r', traversalRoot v schema = .ok r → traversalRoot v' schema = .ok r' →
      isEqual r r' = true ∧ r.distinctNames = true ∧ r'.distinctNames = true) := by
  have he := isEqual_hasOwnProperty v v' h "embedded"
  have hE := isEqual_get v v' h "embedded"
  have hn := isEqual_isNullish _ _ hE
  have hwE := distinctNames_get v hw "embedded"
  have hwE' := distinctNames_get v' hw' "embedded"
  cases schema with
  | iterable itemSchema g =>
    simp only [traversalRoot, ← he, ← hn]
    by_cases h1 : v.hasOwnProperty "embedded" = true
    · simp only [h1, if_true]
      cases itemSchema with
      | entity key getId fields =>
        simp only []
        by_cases h2 : (v.get "embedded").isNullish = true
        · simp [h2]
        · simp only [h2, Bool.false_eq_true, if_false]
          refine ⟨fun e => by simp, fun r r' hr hr' => ?_⟩
          simp only [Except.ok.injEq] at hr hr'
          subst hr
          subst hr'
          exact ⟨isEqual_get _ _ hE key, distinctNames_get _ hwE key,
            distinctNames_get _ hwE' key⟩
      | _ => simp
    · simp only [h1, Bool.false_eq_true, if_false]
      refine ⟨fun e => by simp, fun r r' hr hr' => ?_⟩
      simp only [Except.ok.injEq] at hr hr'
      subst hr
      subst hr'
      exact ⟨h, hw, hw'⟩
  | _ =>
    simp only [traversalRoot]
    refine ⟨fun e => by simp, fun r r' hr hr' => ?_⟩
    simp only [Except.ok.injEq] at hr hr'
    subst hr
    subst hr'
    exact ⟨h, hw, hw'⟩

end Halnormalizr

namespace Halnormalizr
open Value

/-! ## Field order -/

theorem Respects_fieldsOf (l : List (String × Schema)) (h : ∀ p ∈ l, p.2.Respects)
    (k : String) : (Schema.fieldsOf l k).Respects := by
  unfold Schema.fieldsOf
  cases hk : lookup k l with
  | none => simp [Schema.Respects]
  | some s => exact h (k, s) (mem_of_lookup hk)

theorem Respects_entity_name (key field : String) (fields : String → Schema)
    (h : ∀ k, (fields k).Respects) :
    (Schema.entity key (Attr.read (.name field)) fields).Respects := by
  simp only [Schema.Respects]
  exact ⟨fun a b e => isEqual_get a b e field, h⟩

/-- C16 (counterexample): the two inputs `{a: {id: 1, x: "A"}, b: {id: 1, x: "B"}}` and
`{b: {id: 1, x: "B"}, a: {id: 1, x: "A"}}` differ only in the order of their fields, and both
fields hold a `users` record of id 1; the bag of the first has `users[1].x = "A"`, the bag of
the second `users[1].x = "B"`. -/
theorem field_order_counterexample :
    isEqual
      (.obj [("a", .obj [("id", .num 1), ("x", .str "A")]),
        ("b", .obj [("id", .num 1), ("x", .str "B")])])
      (.obj [("b", .obj [("id", .num 1), ("x", .str "B")]),
        ("a", .obj [("id", .num 1), ("x", .str "A")])]) = true ∧
    normalize
      (.obj [("a", .obj [("id", .num 1), ("x", .str "A")]),
        ("b", .obj [("id", .num 1), ("x", .str "B")])])
      (.fieldMap (Schema.fieldsOf
        [("a", .entity "users" (Attr.read (.name "id")) Schema.noFields),
         ("b", .entity "users" (Attr.read (.name "id")) Schema.noFields)]))
      defaultOptions =
    .ok ⟨[("users", [("1", [("id", .num 1), ("x", .str "A")])])],
      .obj [("a", .num 1), ("b", .num 1)]⟩ ∧
    normalize
      (.obj [("b", .obj [("id", .num 1), ("x", .str "B")]),
        ("a", .obj [("id", .num 1), ("x", .str "A")])])
      (.fieldMap (Schema.fieldsOf
        [("a", .entity "users" (Attr.read (.name "id")) Schema.noFields),
         ("b", .entity "users" (Attr.read (.name "id")) Schema.noFields)]))
      defaultOptions =
    .ok ⟨[("users", [("1", [("id", .num 1), ("x", .str "B")])])],
      .obj [("b", .num 1), ("a", .num 1)]⟩ ∧
    isEqual (.str "A") (.str "B") = false :=
  ⟨rfl, rfl, rfl, rfl⟩

/-- C16 (amended): let `v` and `v'` be two inputs that are deeply equal, that is, `v'` is `v`
with the own fields of any of its objects enumerated in another order (no object has two
fields of the same name), and let the id and discriminator functions of the schema give deeply
equal values on deeply equal records. Under the default policies `normalize` fails on both
inputs with the same error or succeeds on both; the two results are deeply equal; the two bags
have the same type keys, the same ids under every type key and the same field names in every
record; and when the traversal of `v` emits no diagnostic, every stored field has deeply equal
values in the two bags. (When a diagnostic is emitted a stored value can depend on the order:
the first value seen is kept.) -/
theorem field_order_independence (schema : Schema) (v v' : Value) (hs : schema.Respects)
    (hw : v.distinctNames = true) (hw' : v'.distinctNames = true)
    (h : isEqual v v' = true) :
    (∀ e, run v schema defaultOptions = .error e ↔ run v' schema defaultOptions = .error e) ∧
    (∀ r, run v schema defaultOptions = .ok r → ∃ r', run v' schema defaultOptions = .ok r') ∧
    (∀ r r', run v schema defaultOptions = .ok r → run v' schema defaultOptions = .ok r' →
      isEqual r.1 r'.1 = true ∧ SameNames r.2.bag r'.2.bag ∧
      (r.2.log = [] → ∀ k i f, CellEq (cell r.2.bag k i f) (cell r'.2.bag k i f))) := by
  have ho := isEqual_isObject v v' h
  by_cases hob : v.isObject = true
  · have hob' : v'.isObject = true := ho ▸ hob
    by_cases hsch : schema.isObject = true ∧ schema.isArray = false
    · rw [run_valid v schema defaultOptions hob hsch.1 hsch.2,
        run_valid v' schema defaultOptions hob' hsch.1 hsch.2]
      obtain ⟨t1, t2⟩ := traversalRoot_congr schema v v' h hw hw'
      cases hr : traversalRoot v schema with
      | error e1 =>
        rw [(t1 e1).1 hr]
        simp [Except.map]
      | ok root =>
        cases hr' : traversalRoot v' schema with
        | error e1 =>
          have := (t1 e1).2 hr'
          rw [hr] at this
          cases this
        | ok root' =>
          obtain ⟨e, w, w'⟩ := t2 root root' hr hr'
          simp only [Except.map]
          refine ⟨fun e => by simp, fun r _ => ⟨_, rfl⟩, fun r r' h1 h2 => ?_⟩
          simp only [Except.ok.injEq] at h1 h2
          subst h1
          subst h2
          exact visit_order_independent schema hs root root' e w w'
    · rw [run_schemaKind v schema defaultOptions hob hsch,
        run_schemaKind v' schema defaultOptions hob' hsch]
      simp
  · have hob0 : v.isObject = false := by simpa using hob
    have hob0' : v'.isObject = false := ho ▸ hob0
    rw [run_inputKind v schema defaultOptions hob0, run_inputKind v' schema defaultOptions hob0']
    simp

/-- C16 (witness): the inputs `{a: {id: 1, x: "A"}, b: {id: 2, x: "B"}}` and
`{b: {x: "B", id: 2}, a: {x: "A", id: 1}}`, the same up to the order of fields at both
levels, give deeply equal results and bags with the same names and deeply equal stored
values. -/
theorem field_order_independence_witness :
    isEqual
      (visit defaultOptions
        (.fieldMap (Schema.fieldsOf
          [("a", .entity "users" (Attr.read (.name "id")) Schema.noFields),
           ("b", .entity "users" (Attr.read (.name "id")) Schema.noFields)]))
        (.obj [("a", .obj [("id", .num 1), ("x", .str "A")]),
          ("b", .obj [("id", .num 2), ("x", .str "B")])]) St.empty).1
      (visit defaultOptions
        (.fieldMap (Schema.fieldsOf
          [("a", .entity "users" (Attr.read (.name "id")) Schema.noFields),
           ("b", .entity "users" (Attr.read (.name "id")) Schema.noFields)]))
        (.obj [("b", .obj [("x", .str "B"), ("id", .num 2)]),
          ("a", .obj [("x", .str "A"), ("id", .num 1)])]) St.empty).1 = true ∧
    SameNames
      (visit defaultOptions
        (.fieldMap (Schema.fieldsOf
          [("a", .entity "users" (Attr.read (.name "id")) Schema.noFields),
           ("b", .entity "users" (Attr.read (.name "id")) Schema.noFields)]))
        (.obj [("a", .obj [("id", .num 1), ("x", .str "A")]),
          ("b", .obj [("id", .num 2), ("x", .str "B")])]) St.empty).2.bag
      (visit defaultOptions
        (.fieldMap (Schema.fieldsOf
          [("a", .entity "users" (Attr.read (.name "id")) Schema.noFields),
           ("b", .entity "users" (Attr.read (.name "id")) Schema.noFields)]))
        (.obj [("b", .obj [("x", .str "B"), ("id", .num 2)]),
          ("a", .obj [("x", .str "A"), ("id", .num 1)])]) St.empty).2.bag ∧
    CellEq
      (cell (visit defaultOptions
        (.fieldMap (Schema.fieldsOf
          [("a", .entity "users" (Attr.read (.name "id")) Schema.noFields),
           ("b", .entity "users" (Attr.read (.name "id")) Schema.noFields)]))
        (.obj [("a", .obj [("id", .num 1), ("x", .str "A")]),
          ("b", .obj [("id", .num 2), ("x", .str "B")])]) St.empty).2.bag "users" "2" "x")
      (cell (visit defaultOptions
        (.fieldMap (Schema.fieldsOf
          [("a", .entity "users" (Attr.read (.name "id")) Schema.noFields),
           ("b", .entity "users" (Attr.read (.name "id")) Schema.noFields)]))
        (.obj [("b", .obj [("x", .str "B"), ("id", .num 2)]),
          ("a", .obj [("x", .str "A"), ("id", .num 1)])]) St.empty).2.bag "users" "2" "x") :=
  have hall := (field_order_independence
    (.fieldMap (Schema.fieldsOf
      [("a", .entity "users" (Attr.read (.name "id")) Schema.noFields),
       ("b", .entity "users" (Attr.read (.name "id")) Schema.noFields)]))
    (.obj [("a", .obj [("id", .num 1), ("x", .str "A")]),
      ("b", .obj [("id", .num 2), ("x", .str "B")])])
    (.obj [("b", .obj [("x", .str "B"), ("id", .num 2)]),
      ("a", .obj [("x", .str "A"), ("id", .num 1)])])
    (by
      show ∀ k, (Schema.fieldsOf _ k).Respects
      exact Respects_fieldsOf _ (fun p hp => by
        simp only [List.mem_cons, List.mem_singleton, List.not_mem_nil, or_false] at hp
        rcases hp with rfl | rfl <;>
          exact Respects_entity_name "users" "id" Schema.noFields
            (fun _ => by simp [Schema.noFields, Schema.Respects])))
    (by decide) (by decide) rfl).2.2 _ _ rfl rfl
  ⟨hall.1, hall.2.1, hall.2.2 rfl "users" "2" "x"⟩

end Halnormalizr

namespace Halnormalizr
open Value


/-! ## Polymorphic iterables -/

theorem defaultMapper_union (options : Options) (M : String → Schema) (d : Value → Value) :
    defaultMapper (visit options (.union M d)) = polymorphicItem options M d := by
  funext x s
  unfold defaultMapper polymorphicItem
  by_cases hx : x.isObject = true
  · rw [visit_union options M d x s hx]
    simp [visitUnion, polymorphicMapper, hx]
  · have hx0 : x.isObject = false := by simpa using hx
    rw [visit_of_not_isObject options _ x s hx0]
    simp [hx0]

theorem slot_after_visitEntity (key : String) (getId : Value → Value)
    (child : String → Value → St → Value × St) (entity : Value) (options : Options) (st : St)
    (h : (getId entity).isNullish = false) :
    toKey (getId entity) ∈
      keys (slotsOf (visitEntity key getId child entity options st).2.bag key) := by
  simp only [visitEntity, h, Bool.not_false, if_true]
  exact (mem_keys_slot _ _ _ _).2

theorem grows_polymorphicItem (options : Options) (hm : options.mergeIntoEntity = none)
    (M : String → Schema) (d : Value → Value) (x : Value) (s : St) :
    Grows s.bag (polymorphicItem options M d x s).2.bag := by
  unfold polymorphicItem
  split
  · exact grows_visit options hm _ x s
  · exact Grows_refl _

theorem slot_mapArray (f : Value → St → Value × St)
    (hf : ∀ x s, Grows s.bag (f x s).2.bag) (k i : String) (x : Value)
    (hx : ∀ s, i ∈ keys (slotsOf (f x s).2.bag k)) (xs : List Value) (hmem : x ∈ xs) :
    ∀ st, i ∈ keys (slotsOf (mapArray f xs st).2.bag k) := by
  induction xs with
  | nil => simp at hmem
  | cons y ys ih =>
    intro st
    rcases List.mem_cons.1 hmem with e | hmem'
    · subst e
      exact (grows_mapArray f hf ys (f x st).2).2.1 k i (hx st)
    · exact ih hmem' (f y st).2

theorem slot_mapValues (f : Value → St → Value × St)
    (hf : ∀ x s, Grows s.bag (f x s).2.bag) (k i : String) (x : Value)
    (hx : ∀ s, i ∈ keys (slotsOf (f x s).2.bag k)) (fs : Obj) (name : String)
    (hmem : (name, x) ∈ fs) :
    ∀ st, i ∈ keys (slotsOf (mapValues f fs st).2.bag k) := by
  induction fs with
  | nil => simp at hmem
  | cons kv rest ih =>
    obtain ⟨k0, y⟩ := kv
    intro st
    rcases List.mem_cons.1 hmem with e | hmem'
    · simp only [Prod.mk.injEq] at e
      obtain ⟨_, e2⟩ := e
      subst e2
      exact (grows_mapValues f hf rest (f x st).2).2.1 k i (hx st)
    · exact ih hmem' (f y st).2

/-- C10 (counterexample): the sequence `[5]` under the polymorphic iterable schema
`arrayOf({post: posts}, {schemaAttribute: "type"})` is returned as `[5]`: `visit` returns an
item that is not an object as it is (line 107), where the mapper of the claim gives
`{id: 5, schema: undefined}`. -/
theorem polymorphic_iterable_counterexample :
    normalize (.arr [.num 5])
      (arrayOf (.fieldMap (Schema.fieldsOf
        [("post", entitySchema "posts" Schema.noFields (.name "id"))])) (some (.name "type")))
      defaultOptions =
    .ok ⟨[], .arr [.num 5]⟩ ∧
    (polymorphicMapper (Attr.read (.name "type"))
      (fun k => visit defaultOptions (Schema.fieldsOf
        [("post", entitySchema "posts" Schema.noFields (.name "id"))] k))
      (.num 5) St.empty).1 = .obj [("id", .num 5), ("schema", .undefined)] :=
  ⟨rfl, rfl⟩

/-- C10 (amended): for the iterable schema that `arrayOf` or `valuesOf` builds from a mapping
`M` and a discriminator, `visitIterable` maps every item of a sequence or of a keyed
collection, in order and with the bag handed from item to item, to
`{id: visit(item, M[discriminator(item)]), schema: discriminator(item)}` when the item is an
object or an array, and returns any other item as it is. An item whose discriminator selects
an entity schema and whose id is not null maps to `{id, schema}` with that id and has a record
in the bag under the selected type key right after its visit, and, under the default merge
policy, after the visit of the whole collection. -/
theorem polymorphic_iterable (options : Options) (M : String → Schema) (schemaAttribute : Attr) :
    (∀ xs st, visit options (arrayOf (.fieldMap M) (some schemaAttribute)) (.arr xs) st =
      (.arr (mapArray (polymorphicItem options M schemaAttribute.read) xs st).1,
        (mapArray (polymorphicItem options M schemaAttribute.read) xs st).2)) ∧
    (∀ fs st, visit options (valuesOf (.fieldMap M) (some schemaAttribute)) (.obj fs) st =
      (.obj (mapValues (polymorphicItem options M schemaAttribute.read) fs st).1,
        (mapValues (polymorphicItem options M schemaAttribute.read) fs st).2)) ∧
    (∀ x k getId fields st, x.isObject = true →
      M (toKey (schemaAttribute.read x)) = .entity k getId fields →
      (getId x).isNullish = false →
      (polymorphicItem options M schemaAttribute.read x st).1 =
          .obj [("id", getId x), ("schema", schemaAttribute.read x)] ∧
        toKey (getId x) ∈
          keys (slotsOf (polymorphicItem options M schemaAttribute.read x st).2.bag k)) ∧
    (options.mergeIntoEntity = none →
      ∀ x k getId fields, x.isObject = true →
        M (toKey (schemaAttribute.read x)) = .entity k getId fields →
        (getId x).isNullish = false →
        (∀ xs st, x ∈ xs →
          toKey (getId x) ∈ keys (slotsOf
            (visit options (arrayOf (.fieldMap M) (some schemaAttribute)) (.arr xs) st).2.bag
            k)) ∧
        (∀ fs name st, (name, x) ∈ fs →
          toKey (getId x) ∈ keys (slotsOf
            (visit options (valuesOf (.fieldMap M) (some schemaAttribute)) (.obj fs) st).2.bag
            k))) := by
  have harr : ∀ xs st, visit options (arrayOf (.fieldMap M) (some schemaAttribute)) (.arr xs) st =
      (.arr (mapArray (polymorphicItem options M schemaAttribute.read) xs st).1,
        (mapArray (polymorphicItem options M schemaAttribute.read) xs st).2) := by
    intro xs st
    show visit options (.iterable (.union M schemaAttribute.read) (some schemaAttribute.read))
      (.arr xs) st = _
    rw [visit_iterable options _ _ (.arr xs) st rfl]
    simp only [visitIterable, defaultMapper_union]
  have hobj : ∀ fs st, visit options (valuesOf (.fieldMap M) (some schemaAttribute)) (.obj fs) st =
      (.obj (mapValues (polymorphicItem options M schemaAttribute.read) fs st).1,
        (mapValues (polymorphicItem options M schemaAttribute.read) fs st).2) := by
    intro fs st
    show visit options (.iterable (.union M schemaAttribute.read) (some schemaAttribute.read))
      (.obj fs) st = _
    rw [visit_iterable options _ _ (.obj fs) st rfl]
    simp only [visitIterable, defaultMapper_union, Value.entries]
  have hitem : ∀ x k getId fields st, x.isObject = true →
      M (toKey (schemaAttribute.read x)) = .entity k getId fields →
      (getId x).isNullish = false →
      (polymorphicItem options M schemaAttribute.read x st).1 =
          .obj [("id", getId x), ("schema", schemaAttribute.read x)] ∧
        toKey (getId x) ∈
          keys (slotsOf (polymorphicItem options M schemaAttribute.read x st).2.bag k) := by
    intro x k getId fields st hx hM hid
    simp only [polymorphicItem, hx, if_true, hM]
    rw [visit_entity options k getId fields x st hx]
    exact ⟨by rw [visitEntity_fst _ _ _ _ _ _ hid],
      slot_after_visitEntity k getId _ x options st hid⟩
  refine ⟨harr, hobj, hitem, fun hm x k getId fields hx hM hid => ⟨?_, ?_⟩⟩
  · intro xs st hmem
    rw [harr]
    exact slot_mapArray _ (grows_polymorphicItem options hm M schemaAttribute.read) k _ x
      (fun s => (hitem x k getId fields s hx hM hid).2) xs hmem st
  · intro fs name st hmem
    rw [hobj]
    exact slot_mapValues _ (grows_polymorphicItem options hm M schemaAttribute.read) k _ x
      (fun s => (hitem x k getId fields s hx hM hid).2) fs name hmem st

/-- C10 (witness): under `arrayOf({post: posts}, {schemaAttribute: "type"})` the sequence
`[{type: "post", id: 5}, 7]` gives the result `[{id: 5, schema: "post"}, 7]` and the bag has
the post under `posts[5]`. -/
theorem polymorphic_iterable_witness :
    "5" ∈ keys (slotsOf
      (visit defaultOptions
        (arrayOf (.fieldMap (Schema.fieldsOf
          [("post", entitySchema "posts" Schema.noFields (.name "id"))]))
          (some (.name "type")))
        (.arr [.obj [("type", .str "post"), ("id", .num 5)], .num 7]) St.empty).2.bag "posts") ∧
    normalize (.arr [.obj [("type", .str "post"), ("id", .num 5)], .num 7])
      (arrayOf (.fieldMap (Schema.fieldsOf
        [("post", entitySchema "posts" Schema.noFields (.name "id"))])) (some (.name "type")))
      defaultOptions =
    .ok ⟨[("posts", [("5", [("type", .str "post"), ("id", .num 5)])])],
      .arr [.obj [("id", .num 5), ("schema", .str "post")], .num 7]⟩ :=
  ⟨((polymorphic_iterable defaultOptions
      (Schema.fieldsOf [("post", entitySchema "posts" Schema.noFields (.name "id"))])
      (.name "type")).2.2.2 rfl (.obj [("type", .str "post"), ("id", .num 5)]) "posts"
      (Attr.read (.name "id")) Schema.noFields rfl rfl rfl).1
      [.obj [("type", .str "post"), ("id", .num 5)], .num 7] St.empty (by simp),
    rfl⟩

end Halnormalizr
